import Mathlib

/-!
# DBSCAN clustering: sequential and union-find engines

A shallow embedding of the three C sources of the repository

* `src/dbscan_seq.c`      (namespace `Seq`):   sequential engine, the neighbourhood query lists the
  point itself, the frontier is extended without duplicates;
* `src/src/dbscan_seq.c`  (namespace `SeqV2`): sequential engine, the neighbourhood query skips the
  point itself, the frontier is extended by plain concatenation;
* `src/src/dbscan_par.c`  (namespace `Par`):   three-phase engine over a union-find forest.

Modelling conventions.

* A `Dataset` is the list of its points (`num_points` is the length of the list).
* Coordinates and distances are C `double`s: the type `Dbl` holds the values of IEEE 754 binary64
  (finite numbers, the infinities, NaN), and subtraction, addition, `pow(x, 2)` and `sqrt` round
  to the nearest value, ties to even.  The test `euclidean_distance(p, q) <= EPSILON` is made on
  the rounded result, as in the code.
* `cluster_id` and the cluster counter are unbounded integers: a counter never exceeds the number
  of points, which is a C `int`.
* Allocation is taken to succeed.  In `src/dbscan_seq.c` the frontier block is reallocated
  through a copy of the caller's pointer, so whether `realloc` returns the block where it lies or
  at another address decides how the run ends; the engine takes the answers of `realloc` as a
  parameter (`Seq.Realloc`) and records a `free` of a stale pointer as the end of the run
  (`Seq.Ending.staleFree`).
* In `src/src/dbscan_seq.c` the frontier length is a C `int`: the engine ends the run when the
  sum `*num_neighbors_ptr + new_num_neighbors` would exceed `INT_MAX`
  (`SeqV2.Ending.intOverflow`), where the behaviour of the program is undefined.
* The `omp parallel for` loops of `src/src/dbscan_par.c` are read in index order in `Par.dbscan`,
  which is the run of the program with one thread.  Phase 2, where threads share the forest, is
  modelled a second time as a system of threads that step through `uf_union` one action at a
  time (`Par.threadStep`, `Par.runThreads`), with its locks.
* Loops whose trip count is not fixed on entry (the frontier loop of `expandCluster`, the recursion
  of `uf_find`) take a `fuel` argument and return `none` when it runs out; the theorems show that
  a stated amount of fuel always suffices, and where a recursion never ends they show the result
  `none` for every amount of fuel.
-/

namespace DBSCAN

/-! ## Double precision

The coordinates and the distance are C `double`s.  The type below holds the values of IEEE 754
binary64, and the four operations used by `euclidean_distance` round as that standard says
(to nearest, ties to even). -/

/-- A value of the C type `double`: a finite number, kept as the rational it stands for, an
infinity, or a NaN.  The two zeros are one value here: nothing in the sources divides or reads a
sign bit. -/
inductive Dbl where
  | fin (q : ℚ)
  | inf (negative : Bool)
  | nan
deriving DecidableEq

namespace Dbl

instance : OfNat Dbl n := ⟨fin n⟩

/-- Sign change, exact in binary64. -/
def neg : Dbl → Dbl
  | fin q => fin (-q)
  | inf s => inf (!s)
  | nan => nan

instance : Neg Dbl := ⟨neg⟩

/-- Neither an infinity nor a NaN. -/
def IsFinite : Dbl → Prop
  | fin _ => True
  | _ => False

instance : (d : Dbl) → Decidable d.IsFinite
  | fin _ => isTrue trivial
  | inf _ => isFalse (fun h => h)
  | nan => isFalse (fun h => h)

/-- Position of the leading bit, with `fuel` halvings allowed: `log2Aux n n` is the `e` with
`2^e ≤ n < 2^(e+1)` for `n > 0`. -/
def log2Aux : Nat → Nat → Nat
  | 0, _ => 0
  | fuel + 1, n => if n < 2 then 0 else log2Aux fuel (n / 2) + 1

/-- Position of the leading bit of `n`. -/
def ilog2 (n : Nat) : Nat :=
  log2Aux n n

/-- The least power of two above every finite binary64 value, `2^1024`. -/
def overflowBound : Nat :=
  2 ^ 1024

/-- The positive rational `p / q` rounded to the nearest binary64 value, ties to the even
significand: 53 significant bits, exponents down to `2^-1022` (below that the spacing stays
`2^-1074`), overflow to infinity from `2^1024`. -/
def roundPos (p q : Nat) : Dbl :=
  let e0 : Int := (ilog2 p : Int) - (ilog2 q : Int)
  let e : Int := if q * 2 ^ e0.toNat ≤ p * 2 ^ (-e0).toNat then e0 else e0 - 1
  let s : Int := max e (-1022) - 52
  let P : Nat := p * 2 ^ (-s).toNat
  let Q : Nat := q * 2 ^ s.toNat
  let f : Nat := P / Q
  let r : Nat := P % Q
  let n : Nat :=
    if 2 * r < Q then f else if Q < 2 * r then f + 1 else if f % 2 = 0 then f else f + 1
  if overflowBound ≤ n * 2 ^ s.toNat then inf false
  else fin (((n * 2 ^ s.toNat : Nat) : ℚ) / ((2 ^ (-s).toNat : Nat) : ℚ))

/-- Rounding of an exact result to binary64. -/
def round (q : ℚ) : Dbl :=
  if q = 0 then fin 0
  else if 0 < q then roundPos q.num.natAbs q.den
  else neg (roundPos q.num.natAbs q.den)

/-- The operator `-` on `double`. -/
def sub : Dbl → Dbl → Dbl
  | fin a, fin b => round (a - b)
  | fin _, inf t => inf (!t)
  | inf s, fin _ => inf s
  | inf s, inf t => if s = t then nan else inf s
  | _, _ => nan

/-- The operator `+` on `double`. -/
def add : Dbl → Dbl → Dbl
  | fin a, fin b => round (a + b)
  | fin _, inf t => inf t
  | inf s, fin _ => inf s
  | inf s, inf t => if s = t then inf s else nan
  | _, _ => nan

/-- The call `pow(x, 2)` of `math.h`, taken as the correctly rounded square. -/
def pow2 : Dbl → Dbl
  | fin a => round (a * a)
  | inf _ => inf false
  | nan => nan

/-- Integer square root by bits: starting from `r`, a multiple of `2^b` with `r^2 ≤ n`, the
largest number below `r + 2^b` whose square is at most `n`. -/
def isqrtAux (n : Nat) : Nat → Nat → Nat
  | 0, r => r
  | b + 1, r => isqrtAux n b (if (r + 2 ^ b) * (r + 2 ^ b) ≤ n then r + 2 ^ b else r)

/-- The largest natural number whose square is at most `n`. -/
def isqrt (n : Nat) : Nat :=
  isqrtAux n (ilog2 n / 2 + 1) 0

/-- The square root of the positive rational `p / q`, correctly rounded to binary64. -/
def sqrtPos (p q : Nat) : Dbl :=
  let e0 : Int := (ilog2 p : Int) - (ilog2 q : Int)
  let e : Int := if q * 2 ^ e0.toNat ≤ p * 2 ^ (-e0).toNat then e0 else e0 - 1
  let s : Int := Int.fdiv e 2 - 52
  let P : Nat := p * 4 ^ (-s).toNat
  let Q : Nat := q * 4 ^ s.toNat
  let k : Nat := isqrt (P / Q)
  let n : Nat :=
    if 4 * P < (2 * k + 1) * (2 * k + 1) * Q then k
    else if (2 * k + 1) * (2 * k + 1) * Q < 4 * P then k + 1
    else if k % 2 = 0 then k else k + 1
  fin (((n * 2 ^ s.toNat : Nat) : ℚ) / ((2 ^ (-s).toNat : Nat) : ℚ))

/-- The call `sqrt(x)` of `math.h`, correctly rounded as IEEE 754 requires. -/
def sqrt : Dbl → Dbl
  | fin a => if a < 0 then nan else if a = 0 then fin 0 else sqrtPos a.num.natAbs a.den
  | inf s => if s then nan else inf false
  | nan => nan

/-- The comparison `a <= b` on `double`: false as soon as an operand is a NaN. -/
def le : Dbl → Dbl → Bool
  | fin a, fin b => decide (a ≤ b)
  | fin _, inf t => !t
  | inf s, fin _ => s
  | inf s, inf t => s || !t
  | _, _ => false

end Dbl

/-! ## Data model (shared by the three sources) -/

/-- The radius of the neighbourhood, `#define EPSILON 1.0`. -/
def EPSILON : Dbl := 1

/-- The density threshold, `#define MIN_POINTS 3`. -/
def MIN_POINTS : Nat := 3

/-- The initial label, `#define UNCLASSIFIED 0`. -/
def UNCLASSIFIED : Int := 0

/-- The noise label, `#define NOISE -1`. -/
def NOISE : Int := -1

/-- The struct `Point` with fields `double x`, `double y`, `int cluster_id`. -/
structure Point where
  x : Dbl
  y : Dbl
  cluster_id : Int
deriving DecidableEq

/-- The struct `Dataset` with fields `Point* points` and `int num_points`. -/
abbrev Dataset := List Point

/-- Read of `data->points[i]`; an index outside the array reads as an unclassified origin. -/
def getPoint (data : Dataset) (i : Nat) : Point :=
  data.getD i ⟨0, 0, UNCLASSIFIED⟩

/-- Read of `data->points[i].cluster_id`. -/
def clusterId (data : Dataset) (i : Nat) : Int :=
  (getPoint data i).cluster_id

/-- Write `data->points[i].cluster_id = c`; coordinates and the other points are untouched. -/
def setClusterId : Dataset → Nat → Int → Dataset
  | [], _, _ => []
  | p :: ps, 0, c => { p with cluster_id := c } :: ps
  | p :: ps, i + 1, c => p :: setClusterId ps i c

/-- The function `euclidean_distance`: `sqrt(pow(p1.x - p2.x, 2) + pow(p1.y - p2.y, 2))`, each
operation in double precision. -/
def euclidean_distance (p1 p2 : Point) : Dbl :=
  Dbl.sqrt (Dbl.add (Dbl.pow2 (Dbl.sub p1.x p2.x)) (Dbl.pow2 (Dbl.sub p1.y p2.y)))

/-- The test `euclidean_distance(p1, p2) <= EPSILON`. -/
def withinEpsilon (p1 p2 : Point) : Bool :=
  Dbl.le (euclidean_distance p1 p2) EPSILON

/-- Both coordinates of the point are finite. -/
def Point.Finite (p : Point) : Prop :=
  p.x.IsFinite ∧ p.y.IsFinite

instance (p : Point) : Decidable p.Finite :=
  inferInstanceAs (Decidable (p.x.IsFinite ∧ p.y.IsFinite))

/-- Every point of the dataset is `UNCLASSIFIED`, as `main` leaves it before calling `dbscan`. -/
def AllUnclassified (data : Dataset) : Prop :=
  ∀ p ∈ data, p.cluster_id = UNCLASSIFIED

instance (data : Dataset) : Decidable (AllUnclassified data) :=
  inferInstanceAs (Decidable (∀ p ∈ data, p.cluster_id = UNCLASSIFIED))

/-- The list of the `cluster_id` fields, in index order. -/
def labelsOf (data : Dataset) : List Int :=
  data.map Point.cluster_id

/-- The list of the coordinates, in index order. -/
def coordsOf (data : Dataset) : List (Dbl × Dbl) :=
  data.map (fun p => (p.x, p.y))

/-! ## Records of a run (shared by the two sequential sources) -/

/-- One iteration of the frontier loop of `expandCluster` that relabels the popped point: the
point, the `cluster_id` it held, the size of the `regionQuery` result then computed, and the
frontier before and after the iteration. -/
structure Visit where
  point : Nat
  old : Int
  found : Nat
  before : List Nat
  after : List Nat
deriving DecidableEq

/-- One call of `expandCluster`: its seed, the frontier it starts with, the relabelling
iterations in order, and the frontier when the loop ends. -/
structure Expansion where
  seed : Nat
  start : List Nat
  visits : List Visit
  final : List Nat
deriving DecidableEq

/-! ## `src/dbscan_seq.c` -/

namespace Seq

/-- The function `regionQuery`: the indices `i = 0 .. n-1`, in loop order, with
`euclidean_distance(points[point_idx], points[i]) <= EPSILON`. -/
def regionQuery (point_idx : Nat) (data : Dataset) : List Nat :=
  (List.range data.length).filter
    (fun i => withinEpsilon (getPoint data point_idx) (getPoint data i))

/-- The size, in `int`s, of the block that `regionQuery` returns with `count` entries:
`capacity` starts at 10 and is doubled each time an entry arrives at a full block. -/
def regionQueryCapacity : Nat → Nat
  | 0 => 10
  | count + 1 =>
    if regionQueryCapacity count ≤ count then 2 * regionQueryCapacity count
    else regionQueryCapacity count

/-- The `j` loop of `expandCluster` (lines 88-101): each new neighbour is appended to the frontier
unless the `k` scan finds it already there. -/
def appendIfAbsent : List Nat → List Nat → List Nat
  | neighbors, [] => neighbors
  | neighbors, x :: rest =>
    if x ∈ neighbors then appendIfAbsent neighbors rest
    else appendIfAbsent (neighbors ++ [x]) rest

/-- The answers of `realloc` to `expandCluster` (line 87), the part of the allocator the run
depends on.  `alloc cluster_id i size request` tells whether the call made while cluster
`cluster_id` is expanded, at position `i` of the frontier, for a block that has held up to
`size` ints and is asked to hold `request` ints, returns another address than the one it was
given.  No two calls of a run share `cluster_id` and `i`, so every behaviour of an allocator
over a run is such a function. -/
abbrev Realloc := Int → Nat → Nat → Nat → Bool

/-- An allocator that extends every block where it lies. -/
def inPlace : Realloc :=
  fun _ _ _ _ => false

/-- An allocator that returns the block it was given as long as the request is within what the
block has held before, and a block at another address when it is asked for more. -/
def growMoves : Realloc :=
  fun _ _ size request => decide (size < request)

/-- One assignment `data->points[idx].cluster_id = new`, with the value it replaced. -/
structure Write where
  idx : Nat
  old : Int
  new : Int
deriving DecidableEq

/-- The state of `expandCluster` at the head of its loop: the dataset, the writes of the run so
far, the local array `neighbors` (`num_neighbors` is its length), the largest number of ints
its block has been sized for so far (by `regionQuery` or by a later `realloc`), whether `realloc`
has moved that block since `expandCluster` was entered, and the relabelling iterations so far. -/
structure Loop where
  data : Dataset
  writes : List Write
  neighbors : List Nat
  size : Nat
  moved : Bool
  visits : List Visit

/-- The `for (i = 0; i < num_neighbors; ++i)` loop of `expandCluster` (lines 73-105), at
position `i` of the frontier.  The call `realloc(neighbors, (num_neighbors + new_num_neighbors)
* sizeof(int))` assigns to the parameter `neighbors`, a copy of the caller's pointer: once it has
returned another address, the caller's pointer refers to released memory. -/
def expandLoop (alloc : Realloc) : Nat → Nat → Int → Loop → Option Loop
  | 0, _, _, _ => none
  | fuel + 1, i, cluster_id, st =>
    match st.neighbors[i]? with
    | none => some st
    | some current_point_idx =>
      if clusterId st.data current_point_idx = UNCLASSIFIED
          ∨ clusterId st.data current_point_idx = NOISE then
        let data1 := setClusterId st.data current_point_idx cluster_id
        let writes1 := st.writes ++
          [⟨current_point_idx, clusterId st.data current_point_idx, cluster_id⟩]
        let new_neighbors := regionQuery current_point_idx data1
        if MIN_POINTS ≤ new_neighbors.length then
          expandLoop alloc fuel (i + 1) cluster_id
            { data := data1
              writes := writes1
              neighbors := appendIfAbsent st.neighbors new_neighbors
              size := max st.size (st.neighbors.length + new_neighbors.length)
              moved := st.moved ||
                alloc cluster_id i st.size (st.neighbors.length + new_neighbors.length)
              visits := st.visits ++ [⟨current_point_idx, clusterId st.data current_point_idx,
                new_neighbors.length, st.neighbors,
                appendIfAbsent st.neighbors new_neighbors⟩] }
        else
          expandLoop alloc fuel (i + 1) cluster_id
            { data := data1
              writes := writes1
              neighbors := st.neighbors
              size := st.size
              moved := st.moved
              visits := st.visits ++ [⟨current_point_idx, clusterId st.data current_point_idx,
                new_neighbors.length, st.neighbors, st.neighbors⟩] }
      else
        expandLoop alloc fuel (i + 1) cluster_id st

/-- The state of `dbscan` between two iterations of its loop: the dataset, the writes so far in
program order, and the calls of `expandCluster` so far. -/
structure Run where
  data : Dataset
  writes : List Write
  expansions : List Expansion

/-- The function `expandCluster`, called with the block `neighbors` of `size` ints: label the
seed, then run the frontier loop from position 0. -/
def expandCluster (alloc : Realloc) (fuel : Nat) (point_idx : Nat) (neighbors : List Nat)
    (size : Nat) (cluster_id : Int) (run : Run) : Option Loop :=
  expandLoop alloc fuel 0 cluster_id
    { data := setClusterId run.data point_idx cluster_id
      writes := run.writes ++ [⟨point_idx, clusterId run.data point_idx, cluster_id⟩]
      neighbors := neighbors
      size := size
      moved := false
      visits := [] }

/-- How a run of `dbscan` ends: the loop runs to its end, or `free(neighbors)` (line 133) is
handed the pointer that `realloc` released inside `expandCluster(seed, ...)`.  From there on
the behaviour is undefined (the GNU allocator aborts the program), and the run is followed no
further. -/
inductive Ending where
  | finished
  | staleFree (seed : Nat)
deriving DecidableEq

/-- The `for (i = 0; i < data->num_points; ++i)` loop of `dbscan` over the remaining indices,
with the running `cluster_id`. -/
def dbscanLoop (alloc : Realloc) (fuel : Nat) : List Nat → Int → Run → Option (Ending × Run)
  | [], _, run => some (Ending.finished, run)
  | i :: rest, cluster_id, run =>
    if clusterId run.data i ≠ UNCLASSIFIED then
      dbscanLoop alloc fuel rest cluster_id run
    else
      let neighbors := regionQuery i run.data
      if neighbors.length < MIN_POINTS then
        dbscanLoop alloc fuel rest cluster_id
          { data := setClusterId run.data i NOISE
            writes := run.writes ++ [⟨i, clusterId run.data i, NOISE⟩]
            expansions := run.expansions }
      else
        match expandCluster alloc fuel i neighbors (regionQueryCapacity neighbors.length)
            cluster_id run with
        | none => none
        | some st =>
          if st.moved then
            some (Ending.staleFree i,
              { data := st.data
                writes := st.writes
                expansions := run.expansions ++ [⟨i, neighbors, st.visits, st.neighbors⟩] })
          else
            dbscanLoop alloc fuel rest (cluster_id + 1)
              { data := st.data
                writes := st.writes
                expansions := run.expansions ++ [⟨i, neighbors, st.visits, st.neighbors⟩] }

/-- The function `dbscan`: the outer loop over all indices, starting with `cluster_id = 1`. -/
def dbscan (alloc : Realloc) (fuel : Nat) (data : Dataset) : Option (Ending × Run) :=
  dbscanLoop alloc fuel (List.range data.length) 1 ⟨data, [], []⟩

/-- Replay a record of writes on a dataset. -/
def replay : Dataset → List Write → Dataset
  | data, [] => data
  | data, w :: ws => replay (setClusterId data w.idx w.new) ws

/-- Each recorded `old` is the value the replayed dataset holds at that moment. -/
def Faithful : Dataset → List Write → Prop
  | _, [] => True
  | data, w :: ws => clusterId data w.idx = w.old ∧ Faithful (setClusterId data w.idx w.new) ws

end Seq

/-! ## `src/src/dbscan_seq.c` -/

namespace SeqV2

/-- The largest value of the C type `int` (32 bits). -/
def INT_MAX : Nat := 2147483647

/-- The function `regionQuery` with `if (point_idx == i) continue;`: the point itself is not
listed. -/
def regionQuery (point_idx : Nat) (data : Dataset) : List Nat :=
  (List.range data.length).filter
    (fun i => decide (point_idx ≠ i) && withinEpsilon (getPoint data point_idx) (getPoint data i))

/-- The state of `expandCluster` at the head of its loop: the dataset, the array `*neighbors_ptr`
(`*num_neighbors_ptr` is its length), whether `*num_neighbors_ptr += new_num_neighbors` has
left the range of `int`, and the relabelling iterations so far. -/
structure Loop where
  data : Dataset
  neighbors : List Nat
  overflow : Bool
  visits : List Visit

/-- The frontier loop of `expandCluster` (lines 83-104): the neighbour list of a newly labelled
core point is concatenated to the frontier.  The new length is computed in `int`; when it does
not fit, the behaviour is undefined and the run is followed no further. -/
def expandLoop : Nat → Nat → Int → Loop → Option Loop
  | 0, _, _, _ => none
  | fuel + 1, i, cluster_id, st =>
    match st.neighbors[i]? with
    | none => some st
    | some current_point_idx =>
      if clusterId st.data current_point_idx = UNCLASSIFIED
          ∨ clusterId st.data current_point_idx = NOISE then
        let data1 := setClusterId st.data current_point_idx cluster_id
        let new_neighbors := regionQuery current_point_idx data1
        if MIN_POINTS ≤ new_neighbors.length then
          if INT_MAX < st.neighbors.length + new_neighbors.length then
            some { data := data1
                   neighbors := st.neighbors
                   overflow := true
                   visits := st.visits }
          else
            expandLoop fuel (i + 1) cluster_id
              { data := data1
                neighbors := st.neighbors ++ new_neighbors
                overflow := st.overflow
                visits := st.visits ++ [⟨current_point_idx,
                  clusterId st.data current_point_idx, new_neighbors.length, st.neighbors,
                  st.neighbors ++ new_neighbors⟩] }
        else
          expandLoop fuel (i + 1) cluster_id
            { data := data1
              neighbors := st.neighbors
              overflow := st.overflow
              visits := st.visits ++ [⟨current_point_idx,
                clusterId st.data current_point_idx, new_neighbors.length, st.neighbors,
                st.neighbors⟩] }
      else
        expandLoop fuel (i + 1) cluster_id st

/-- The state of `dbscan` between two iterations of its loop: the dataset and the calls of
`expandCluster` so far. -/
structure Run where
  data : Dataset
  expansions : List Expansion

/-- The function `expandCluster`, which works on the caller's `neighbors` and `num_neighbors`
through pointers: label the seed, then run the frontier loop from position 0. -/
def expandCluster (fuel : Nat) (point_idx : Nat) (neighbors : List Nat) (cluster_id : Int)
    (data : Dataset) : Option Loop :=
  expandLoop fuel 0 cluster_id
    { data := setClusterId data point_idx cluster_id
      neighbors := neighbors
      overflow := false
      visits := [] }

/-- How a run of `dbscan` ends: the loop runs to its end, or the frontier length leaves the range
of `int` inside `expandCluster(seed, ...)`. -/
inductive Ending where
  | finished
  | intOverflow (seed : Nat)
deriving DecidableEq

/-- The outer loop of `dbscan` over the remaining indices. -/
def dbscanLoop (fuel : Nat) : List Nat → Int → Run → Option (Ending × Run)
  | [], _, run => some (Ending.finished, run)
  | i :: rest, cluster_id, run =>
    if clusterId run.data i ≠ UNCLASSIFIED then
      dbscanLoop fuel rest cluster_id run
    else
      let neighbors := regionQuery i run.data
      if neighbors.length < MIN_POINTS then
        dbscanLoop fuel rest cluster_id
          { data := setClusterId run.data i NOISE, expansions := run.expansions }
      else
        match expandCluster fuel i neighbors cluster_id run.data with
        | none => none
        | some st =>
          if st.overflow then
            some (Ending.intOverflow i,
              { data := st.data
                expansions := run.expansions ++ [⟨i, neighbors, st.visits, st.neighbors⟩] })
          else
            dbscanLoop fuel rest (cluster_id + 1)
              { data := st.data
                expansions := run.expansions ++ [⟨i, neighbors, st.visits, st.neighbors⟩] }

/-- The function `dbscan`: the outer loop over all indices, starting with `cluster_id = 1`. -/
def dbscan (fuel : Nat) (data : Dataset) : Option (Ending × Run) :=
  dbscanLoop fuel (List.range data.length) 1 ⟨data, []⟩

end SeqV2

/-! ## `src/src/dbscan_par.c` -/

namespace Par

/-- The `parent` array of `struct UnionFind` (`num_points` is its length).  The locks are part
of the state shared by threads, `Shared`, below; they play no part when the loops run in index
order. -/
abbrev UnionFind := List Nat

/-- The function `uf_init`: every index is its own parent. -/
def uf_init (n : Nat) : UnionFind :=
  List.range n

/-- The function `uf_find`, recursive with path compression: returns the updated forest and the
root. -/
def uf_find : Nat → UnionFind → Nat → Option (UnionFind × Nat)
  | 0, _, _ => none
  | fuel + 1, parent, i =>
    match parent[i]? with
    | none => none
    | some p =>
      if p = i then some (parent, i)
      else
        match uf_find fuel parent p with
        | none => none
        | some (parent1, r) => some (parent1.set i r, r)

/-- The function `uf_union`: two finds, and when the roots differ two more finds and the attachment
`parent[current_root_j] = current_root_i`. -/
def uf_union (fuel : Nat) (parent : UnionFind) (i j : Nat) : Option UnionFind :=
  match uf_find fuel parent i with
  | none => none
  | some (parent1, root_i) =>
    match uf_find fuel parent1 j with
    | none => none
    | some (parent2, root_j) =>
      if root_i ≠ root_j then
        match uf_find fuel parent2 i with
        | none => none
        | some (parent3, current_root_i) =>
          match uf_find fuel parent3 j with
          | none => none
          | some (parent4, current_root_j) =>
            if current_root_i ≠ current_root_j then
              some (parent4.set current_root_j current_root_i)
            else some parent4
      else some parent2

/-- Phase 1, inner loop: the indices `j ≠ i` within `EPSILON` of point `i`, in loop order. -/
def neighborList (data : Dataset) (i : Nat) : List Nat :=
  (List.range data.length).filter
    (fun j => decide (i ≠ j) && withinEpsilon (getPoint data i) (getPoint data j))

/-- Phase 1: the array `neighbors` (`neighbor_counts[i]` is the length of entry `i`). -/
def phase1 (data : Dataset) : List (List Nat) :=
  (List.range data.length).map (neighborList data)

/-- Phase 1: the array `is_core`. -/
def coreFlags (neighbors : List (List Nat)) : List Bool :=
  neighbors.map (fun l => decide (MIN_POINTS ≤ l.length))

/-- Phase 2, inner `j` loop for a core point `i`. -/
def unionNeighbors (fuel : Nat) (is_core : List Bool) (i : Nat) :
    List Nat → UnionFind → Option UnionFind
  | [], parent => some parent
  | neighbor_idx :: rest, parent =>
    if is_core.getD neighbor_idx false then
      match uf_union fuel parent i neighbor_idx with
      | none => none
      | some parent1 => unionNeighbors fuel is_core i rest parent1
    else unionNeighbors fuel is_core i rest parent

/-- Phase 2, outer `i` loop over the remaining indices. -/
def phase2 (fuel : Nat) (neighbors : List (List Nat)) (is_core : List Bool) :
    List Nat → UnionFind → Option UnionFind
  | [], parent => some parent
  | i :: rest, parent =>
    if is_core.getD i false then
      match unionNeighbors fuel is_core i (neighbors.getD i []) parent with
      | none => none
      | some parent1 => phase2 fuel neighbors is_core rest parent1
    else phase2 fuel neighbors is_core rest parent

/-- Phase 3, the serial loop that fills `cluster_map` (lines 146-152). -/
def buildClusterMap (fuel : Nat) (is_core : List Bool) :
    List Nat → UnionFind → List Int → Int → Option (UnionFind × List Int × Int)
  | [], parent, cluster_map, cluster_id_counter => some (parent, cluster_map, cluster_id_counter)
  | i :: rest, parent, cluster_map, cluster_id_counter =>
    if is_core.getD i false then
      match uf_find fuel parent i with
      | none => none
      | some (parent1, root) =>
        if cluster_map.getD root 0 = 0 then
          buildClusterMap fuel is_core rest parent1 (cluster_map.set root cluster_id_counter)
            (cluster_id_counter + 1)
        else buildClusterMap fuel is_core rest parent1 cluster_map cluster_id_counter
    else buildClusterMap fuel is_core rest parent cluster_map cluster_id_counter

/-- Phase 3, the loop that labels core points and resets the others to `NOISE` (lines 155-162). -/
def labelCores (fuel : Nat) (is_core : List Bool) (cluster_map : List Int) :
    List Nat → UnionFind → Dataset → Option (UnionFind × Dataset)
  | [], parent, data => some (parent, data)
  | i :: rest, parent, data =>
    if is_core.getD i false then
      match uf_find fuel parent i with
      | none => none
      | some (parent1, root) =>
        labelCores fuel is_core cluster_map rest parent1
          (setClusterId data i (cluster_map.getD root 0))
    else labelCores fuel is_core cluster_map rest parent (setClusterId data i NOISE)

/-- Phase 3, the loop that labels border points (lines 166-177): the `j` scan stops at the first
core neighbour. -/
def labelBorders (fuel : Nat) (neighbors : List (List Nat)) (is_core : List Bool)
    (cluster_map : List Int) : List Nat → UnionFind → Dataset → Option (UnionFind × Dataset)
  | [], parent, data => some (parent, data)
  | i :: rest, parent, data =>
    if is_core.getD i false then
      labelBorders fuel neighbors is_core cluster_map rest parent data
    else
      match (neighbors.getD i []).find? (fun neighbor_idx => is_core.getD neighbor_idx false) with
      | none => labelBorders fuel neighbors is_core cluster_map rest parent data
      | some neighbor_idx =>
        match uf_find fuel parent neighbor_idx with
        | none => none
        | some (parent1, root) =>
          labelBorders fuel neighbors is_core cluster_map rest parent1
            (setClusterId data i (cluster_map.getD root 0))

/-- The function `dbscan`: phases 1, 2 and 3 in sequence. -/
def dbscan (fuel : Nat) (data : Dataset) : Option Dataset :=
  let n := data.length
  let neighbors := phase1 data
  let is_core := coreFlags neighbors
  match phase2 fuel neighbors is_core (List.range n) (uf_init n) with
  | none => none
  | some parent =>
    match buildClusterMap fuel is_core (List.range n) parent (List.replicate n 0) 1 with
    | none => none
    | some (parent1, cluster_map, _) =>
      match labelCores fuel is_core cluster_map (List.range n) parent1 data with
      | none => none
      | some (parent2, data1) =>
        match labelBorders fuel neighbors is_core cluster_map (List.range n) parent2 data1 with
        | none => none
        | some (_, data2) => some data2

/-- Phase 3 as a whole (lines 141-177), from the forest that phase 2 leaves. -/
def phase3 (fuel : Nat) (data : Dataset) (neighbors : List (List Nat)) (is_core : List Bool)
    (parent : UnionFind) : Option Dataset :=
  let n := data.length
  match buildClusterMap fuel is_core (List.range n) parent (List.replicate n 0) 1 with
  | none => none
  | some (parent1, cluster_map, _) =>
    match labelCores fuel is_core cluster_map (List.range n) parent1 data with
    | none => none
    | some (parent2, data1) =>
      match labelBorders fuel neighbors is_core cluster_map (List.range n) parent2 data1 with
      | none => none
      | some (_, data2) => some data2

/-! ### Phase 2 run by several threads

The loop of phase 2 is an `omp parallel for schedule(dynamic)`: a thread takes the next index,
runs the loop body for it, and takes another.  The definitions below follow the threads one step
at a time.  A step is a stretch of code that one thread runs with no other thread running in
between; the program admits finer interleavings as well, which are not needed to exhibit a
run. -/

/-- Where a thread stands inside a call `uf_union(uf, i, j)` after line 59, with the values of
its local variables. -/
inductive Pc where
  | findJ (root_i : Nat)
  | lockFirst (root_i root_j : Nat)
  | lockSecond (root_i root_j : Nat)
  | refindI (root_i root_j : Nat)
  | refindJ (root_i root_j current_root_i : Nat)
  | attach (root_i root_j current_root_i current_root_j : Nat)
  | unlockI (root_i root_j : Nat)
  | unlockJ (root_i root_j : Nat)
deriving DecidableEq

/-- A thread of the phase 2 loop: the calls `uf_union(uf, i, j)` that its current iteration has
still to make, and where it stands in the first of them (`none`: the call has not begun). -/
structure Thread where
  calls : List (Nat × Nat)
  pc : Option Pc
deriving DecidableEq

/-- What the threads of phase 2 share: the array `parent`, the locks (`true`: held), the next
value of the loop index to hand out, and the threads themselves. -/
structure Shared where
  parent : UnionFind
  locks : List Bool
  next : Nat
  threads : List Thread
deriving DecidableEq

/-- The calls of one iteration of the phase 2 loop (lines 131-138): for a core point `i`, one
call `uf_union(uf, i, j)` per core neighbour `j`, in the order of the neighbour list. -/
def unionCalls (neighbors : List (List Nat)) (is_core : List Bool) (i : Nat) :
    List (Nat × Nat) :=
  if is_core.getD i false then
    ((neighbors.getD i []).filter (fun j => is_core.getD j false)).map (fun j => (i, j))
  else []

/-- The next step of a thread, or `none` when it has none: the loop is exhausted, the thread
waits for a lock, or `uf_find` does not return. -/
def threadStep (fuel : Nat) (neighbors : List (List Nat)) (is_core : List Bool)
    (s : Shared) (th : Thread) : Option (Shared × Thread) :=
  match th.pc, th.calls with
  | none, [] =>
    if s.next < s.parent.length then
      some ({ s with next := s.next + 1 }, ⟨unionCalls neighbors is_core s.next, none⟩)
    else none
  | none, (i, _) :: _ =>
    match uf_find fuel s.parent i with
    | none => none
    | some (parent1, root_i) => some ({ s with parent := parent1 }, { th with pc := some (Pc.findJ root_i) })
  | some _, [] => none
  | some (Pc.findJ root_i), (_, j) :: rest =>
    match uf_find fuel s.parent j with
    | none => none
    | some (parent1, root_j) =>
      if root_i ≠ root_j then
        some ({ s with parent := parent1 }, { th with pc := some (Pc.lockFirst root_i root_j) })
      else some ({ s with parent := parent1 }, ⟨rest, none⟩)
  | some (Pc.lockFirst root_i root_j), _ :: _ =>
    if s.locks.getD (min root_i root_j) true then none
    else some ({ s with locks := s.locks.set (min root_i root_j) true },
      { th with pc := some (Pc.lockSecond root_i root_j) })
  | some (Pc.lockSecond root_i root_j), _ :: _ =>
    if s.locks.getD (max root_i root_j) true then none
    else some ({ s with locks := s.locks.set (max root_i root_j) true },
      { th with pc := some (Pc.refindI root_i root_j) })
  | some (Pc.refindI root_i root_j), (i, _) :: _ =>
    match uf_find fuel s.parent i with
    | none => none
    | some (parent1, current_root_i) =>
      some ({ s with parent := parent1 },
        { th with pc := some (Pc.refindJ root_i root_j current_root_i) })
  | some (Pc.refindJ root_i root_j current_root_i), (_, j) :: _ =>
    match uf_find fuel s.parent j with
    | none => none
    | some (parent1, current_root_j) =>
      some ({ s with parent := parent1 },
        { th with pc := some (Pc.attach root_i root_j current_root_i current_root_j) })
  | some (Pc.attach root_i root_j current_root_i current_root_j), _ :: _ =>
    if current_root_i ≠ current_root_j then
      some ({ s with parent := s.parent.set current_root_j current_root_i },
        { th with pc := some (Pc.unlockI root_i root_j) })
    else some (s, { th with pc := some (Pc.unlockI root_i root_j) })
  | some (Pc.unlockI root_i root_j), _ :: _ =>
    some ({ s with locks := s.locks.set root_i false },
      { th with pc := some (Pc.unlockJ root_i root_j) })
  | some (Pc.unlockJ _ root_j), _ :: rest =>
    some ({ s with locks := s.locks.set root_j false }, ⟨rest, none⟩)

/-- Thread number `t` makes its next step. -/
def step (fuel : Nat) (neighbors : List (List Nat)) (is_core : List Bool) (t : Nat)
    (s : Shared) : Option Shared :=
  match s.threads[t]? with
  | none => none
  | some th =>
    match threadStep fuel neighbors is_core s th with
    | none => none
    | some (s1, th1) => some { s1 with threads := s1.threads.set t th1 }

/-- The threads step in the order given by the schedule, a list of thread numbers. -/
def runThreads (fuel : Nat) (neighbors : List (List Nat)) (is_core : List Bool) :
    List Nat → Shared → Option Shared
  | [], s => some s
  | t :: schedule, s =>
    match step fuel neighbors is_core t s with
    | none => none
    | some s1 => runThreads fuel neighbors is_core schedule s1

/-- The state in which `threads` threads enter the phase 2 loop over `n` points: the forest of
`uf_init`, no lock held, no index handed out. -/
def startThreads (threads n : Nat) : Shared :=
  { parent := uf_init n
    locks := List.replicate n false
    next := 0
    threads := List.replicate threads ⟨[], none⟩ }

end Par
/-! ## The sequential engine over labels alone

Both sequential sources run the same loops; they differ in the neighbourhood lists `nb` and in how
a neighbour list is appended to the frontier (`app`).  The engine below works on the list of
cluster ids only; the two sources are shown to agree with it. -/

namespace Core

/-- Frontier loop of `expandCluster` on the list of labels. -/
def expandLoop (nb : Nat → List Nat) (app : List Nat → List Nat → List Nat) :
    Nat → Nat → List Nat → Int → List Int → Option (List Int)
  | 0, _, _, _, _ => none
  | fuel + 1, i, front, c, lab =>
    match front[i]? with
    | none => some lab
    | some cur =>
      if lab.getD cur 0 = 0 ∨ lab.getD cur 0 = -1 then
        if 3 ≤ (nb cur).length then
          expandLoop nb app fuel (i + 1) (app front (nb cur)) c (lab.set cur c)
        else
          expandLoop nb app fuel (i + 1) front c (lab.set cur c)
      else
        expandLoop nb app fuel (i + 1) front c lab

/-- Outer loop of `dbscan` on the list of labels. -/
def dbscanLoop (nb : Nat → List Nat) (app : List Nat → List Nat → List Nat) (fuel : Nat) :
    List Nat → Int → List Int → Option (List Int)
  | [], _, lab => some lab
  | i :: rest, c, lab =>
    if lab.getD i 0 ≠ 0 then
      dbscanLoop nb app fuel rest c lab
    else
      if (nb i).length < 3 then
        dbscanLoop nb app fuel rest c (lab.set i (-1))
      else
        match expandLoop nb app fuel 0 (nb i) c (lab.set i c) with
        | none => none
        | some lab1 => dbscanLoop nb app fuel rest (c + 1) lab1

/-- Index `p` is a point of the dataset with at least `MIN_POINTS` listed neighbours. -/
def IsCore (nb : Nat → List Nat) (n p : Nat) : Prop :=
  p < n ∧ 3 ≤ (nb p).length

/-- Two core points, the second listed among the neighbours of the first. -/
def CoreEdge (nb : Nat → List Nat) (n a b : Nat) : Prop :=
  IsCore nb n a ∧ IsCore nb n b ∧ b ∈ nb a

/-- Joined by a chain of core points, each listed among the neighbours of the previous one. -/
def CoreChain (nb : Nat → List Nat) (n : Nat) : Nat → Nat → Prop :=
  Relation.ReflTransGen (CoreEdge nb n)

/-- What the proofs use of the neighbourhood lists: valid indices, symmetry, bounded length. -/
structure NbOK (nb : Nat → List Nat) (n : Nat) : Prop where
  lt : ∀ p q, q ∈ nb p → q < n
  symm : ∀ p q, p < n → q ∈ nb p → p ∈ nb q
  len : ∀ p, (nb p).length ≤ n

/-- What the proofs use of the frontier extension: the old frontier stays a prefix, every new
neighbour ends up in the frontier, nothing else is added, and at most `N.length` entries are. -/
def AppOK (app : List Nat → List Nat → List Nat) : Prop :=
  ∀ F N, ∃ E, app F N = F ++ E ∧ (∀ x ∈ N, x ∈ F ∨ x ∈ E) ∧ (∀ x ∈ E, x ∈ N) ∧
    E.length ≤ N.length

/-- Total length of the neighbour lists of the points not yet given a positive label, the labels
being those of the points `k, k+1, ...`. -/
def pot (nb : Nat → List Nat) : Nat → List Int → Nat
  | _, [] => 0
  | k, l :: ls => (if l ≤ 0 then (nb k).length else 0) + pot nb (k + 1) ls

/-- Invariant of the outer loop of `dbscan`, `c` being the next cluster id. -/
structure OInv (nb : Nat → List Nat) (n : Nat) (c : Int) (lab : List Int) : Prop where
  len : lab.length = n
  cpos : 1 ≤ c
  range : ∀ p, p < n → lab.getD p 0 = 0 ∨ lab.getD p 0 = -1 ∨ (1 ≤ lab.getD p 0 ∧ lab.getD p 0 < c)
  noise : ∀ p, p < n → lab.getD p 0 = -1 → ¬ 3 ≤ (nb p).length
  closed : ∀ q, q < n → 3 ≤ (nb q).length → 0 < lab.getD q 0 → ∀ r ∈ nb q,
    0 < lab.getD r 0 ∧ (3 ≤ (nb r).length → lab.getD r 0 = lab.getD q 0)
  chain : ∀ a b, a < n → b < n → 3 ≤ (nb a).length → 3 ≤ (nb b).length → 0 < lab.getD a 0 →
    lab.getD a 0 = lab.getD b 0 → CoreChain nb n a b
  border : ∀ p, p < n → 0 < lab.getD p 0 → ¬ 3 ≤ (nb p).length →
    ∃ q ∈ nb p, 3 ≤ (nb q).length ∧ lab.getD q 0 = lab.getD p 0

/-- Invariant of the frontier loop of `expandCluster` for cluster `c` grown from seed `s`, at
position `i` of the frontier. -/
structure LInv (nb : Nat → List Nat) (n : Nat) (c : Int) (s i : Nat) (front : List Nat)
    (lab : List Int) : Prop where
  len : lab.length = n
  cpos : 1 ≤ c
  range : ∀ p, p < n → lab.getD p 0 = 0 ∨ lab.getD p 0 = -1 ∨ (1 ≤ lab.getD p 0 ∧ lab.getD p 0 ≤ c)
  noise : ∀ p, p < n → lab.getD p 0 = -1 → ¬ 3 ≤ (nb p).length
  closedOld : ∀ q, q < n → 3 ≤ (nb q).length → 0 < lab.getD q 0 → lab.getD q 0 < c → ∀ r ∈ nb q,
    0 < lab.getD r 0 ∧ (3 ≤ (nb r).length → lab.getD r 0 = lab.getD q 0)
  frontCur : ∀ q, q < n → 3 ≤ (nb q).length → lab.getD q 0 = c → ∀ r ∈ nb q, r ∈ front
  done : ∀ k x, k < i → front[k]? = some x → 0 < lab.getD x 0
  frontLt : ∀ x ∈ front, x < n
  frontSrc : ∀ x ∈ front, ∃ q, q < n ∧ 3 ≤ (nb q).length ∧ lab.getD q 0 = c ∧ x ∈ nb q
  seed : s < n ∧ 3 ≤ (nb s).length ∧ lab.getD s 0 = c
  chainCur : ∀ p, p < n → 3 ≤ (nb p).length → lab.getD p 0 = c → CoreChain nb n s p
  chainOld : ∀ a b, a < n → b < n → 3 ≤ (nb a).length → 3 ≤ (nb b).length → 0 < lab.getD a 0 →
    lab.getD a 0 < c → lab.getD a 0 = lab.getD b 0 → CoreChain nb n a b
  border : ∀ p, p < n → 0 < lab.getD p 0 → ¬ 3 ≤ (nb p).length →
    ∃ q ∈ nb p, 3 ≤ (nb q).length ∧ lab.getD q 0 = lab.getD p 0

/-- Labels only move from `UNCLASSIFIED` to `NOISE` or a positive id, and from `NOISE` to a
positive id: a positive label stays, a label that is set stays set. -/
def Keeps (lab out : List Int) : Prop :=
  ∀ p, (0 < lab.getD p 0 → out.getD p 0 = lab.getD p 0) ∧ (lab.getD p 0 ≠ 0 → out.getD p 0 ≠ 0)

end Core

/-! ## Vocabulary of the specification -/

/-- Points `a` and `b` of the dataset lie within `EPSILON` of each other. -/
def Near (data : Dataset) (a b : Nat) : Prop :=
  a < data.length ∧ b < data.length ∧ withinEpsilon (getPoint data a) (getPoint data b) = true

/-- The points have finite coordinates and their distance is at most `EPSILON` in exact
arithmetic: `dx^2 + dy^2 ≤ 1`, with no rounding. -/
def WithinExact (p1 p2 : Point) : Prop :=
  match p1.x, p1.y, p2.x, p2.y with
  | .fin x1, .fin y1, .fin x2, .fin y2 => (x1 - x2) ^ 2 + (y1 - y2) ^ 2 ≤ 1
  | _, _, _, _ => False

instance (p1 p2 : Point) : Decidable (WithinExact p1 p2) := by
  unfold WithinExact
  split
  · exact inferInstance
  · exact inferInstance

/-- Joined by a chain of `core` points in which each is within `EPSILON` of the next. -/
def ChainOf (core : Nat → Prop) (data : Dataset) : Nat → Nat → Prop :=
  Relation.ReflTransGen (fun a b => core a ∧ core b ∧ Near data a b)

/-- Core point of `src/dbscan_seq.c`: a point of the dataset whose `regionQuery` result (which
lists the point itself) has at least `MIN_POINTS` members. -/
def Seq.IsCore (data : Dataset) (p : Nat) : Prop :=
  p < data.length ∧ MIN_POINTS ≤ (Seq.regionQuery p data).length

/-- Core point of `src/src/dbscan_seq.c`: at least `MIN_POINTS` other points within `EPSILON`. -/
def SeqV2.IsCore (data : Dataset) (p : Nat) : Prop :=
  p < data.length ∧ MIN_POINTS ≤ (SeqV2.regionQuery p data).length

/-- Core point of `src/src/dbscan_par.c`: at least `MIN_POINTS` other points within `EPSILON`. -/
def Par.IsCore (data : Dataset) (p : Nat) : Prop :=
  p < data.length ∧ MIN_POINTS ≤ (Par.neighborList data p).length

/-- Enough fuel for any run on `n` points: the frontier of one expansion never holds more than
`n + n * n` entries, and a path of parent links never has more than `n` nodes. -/
def fuelFor (n : Nat) : Nat :=
  n + n * n + 1

/-- The record of writes is sound for the initial dataset `data0`: each recorded `old` is the
value found at that moment, replaying the record yields the current dataset, and every write
replaced `UNCLASSIFIED` or `NOISE`. -/
def Seq.LogOK (data0 data : Dataset) (writes : List Seq.Write) : Prop :=
  Seq.Faithful data0 writes ∧ Seq.replay data0 writes = data ∧
    ∀ w ∈ writes, w.old = UNCLASSIFIED ∨ w.old = NOISE

/-! ### Steps of the run of `src/dbscan_seq.c`, named for the statements about them -/

/-- The state of `dbscan` after it labels point `i` as `NOISE`. -/
def Seq.noiseStep (i : Nat) (run : Seq.Run) : Seq.Run :=
  { data := setClusterId run.data i NOISE
    writes := run.writes ++ [⟨i, clusterId run.data i, NOISE⟩]
    expansions := run.expansions }

/-- The state in which `expandCluster(i, ...)` enters its loop, called from the state `run` with
the result of `regionQuery(i, ...)`. -/
def Seq.startLoop (i : Nat) (c : Int) (run : Seq.Run) : Seq.Loop :=
  { data := setClusterId run.data i c
    writes := run.writes ++ [⟨i, clusterId run.data i, c⟩]
    neighbors := Seq.regionQuery i run.data
    size := Seq.regionQueryCapacity (Seq.regionQuery i run.data).length
    moved := false
    visits := [] }

/-- The state after an iteration at position `k` that relabels `cur` and finds it to be a core
point: the frontier is extended and the block reallocated. -/
def Seq.visitGrow (alloc : Seq.Realloc) (c : Int) (k cur : Nat) (st : Seq.Loop) : Seq.Loop :=
  { data := setClusterId st.data cur c
    writes := st.writes ++ [⟨cur, clusterId st.data cur, c⟩]
    neighbors := Seq.appendIfAbsent st.neighbors (Seq.regionQuery cur (setClusterId st.data cur c))
    size := max st.size
      (st.neighbors.length + (Seq.regionQuery cur (setClusterId st.data cur c)).length)
    moved := st.moved || alloc c k st.size
      (st.neighbors.length + (Seq.regionQuery cur (setClusterId st.data cur c)).length)
    visits := st.visits ++ [⟨cur, clusterId st.data cur,
      (Seq.regionQuery cur (setClusterId st.data cur c)).length, st.neighbors,
      Seq.appendIfAbsent st.neighbors (Seq.regionQuery cur (setClusterId st.data cur c))⟩] }

/-- The state after an iteration that relabels `cur` and finds fewer than `MIN_POINTS`
neighbours: the frontier and its block stay as they are. -/
def Seq.visitKeep (c : Int) (cur : Nat) (st : Seq.Loop) : Seq.Loop :=
  { data := setClusterId st.data cur c
    writes := st.writes ++ [⟨cur, clusterId st.data cur, c⟩]
    neighbors := st.neighbors
    size := st.size
    moved := st.moved
    visits := st.visits ++ [⟨cur, clusterId st.data cur,
      (Seq.regionQuery cur (setClusterId st.data cur c)).length, st.neighbors, st.neighbors⟩] }

/-- The state of `dbscan` when `expandCluster(i, ...)` has returned in the state `st`. -/
def Seq.closeRun (i : Nat) (run : Seq.Run) (st : Seq.Loop) : Seq.Run :=
  { data := st.data
    writes := st.writes
    expansions := run.expansions ++ [⟨i, Seq.regionQuery i run.data, st.visits, st.neighbors⟩] }

/-! ### Union-find forest -/

/-- Index `i` reaches the root `r` (`parent[r] == r`) by exactly `k` parent links. -/
inductive Par.RootAt (parent : List Nat) : Nat → Nat → Nat → Prop
  | root (r : Nat) : parent[r]? = some r → Par.RootAt parent r r 0
  | step (i p r k : Nat) : parent[i]? = some p → p ≠ i → Par.RootAt parent p r k →
      Par.RootAt parent i r (k + 1)

/-- Following parent links from `i` reaches the root `r`. -/
def Par.Root (parent : List Nat) (i r : Nat) : Prop :=
  ∃ k, Par.RootAt parent i r k

/-- Forest invariant: from every index the parent links reach a root in finitely many steps. -/
def Par.Forest (parent : List Nat) : Prop :=
  ∀ i, i < parent.length → ∃ r, Par.Root parent i r

/-- Indices `x` and `y` have the same root. -/
def Par.SameSet (parent : List Nat) (x y : Nat) : Prop :=
  ∃ r, Par.Root parent x r ∧ Par.Root parent y r

/-- Two forests over the same indices in which every index has the same root. -/
def Par.SameRoots (P Q : List Nat) : Prop :=
  P.length = Q.length ∧ ∀ x r, Par.Root P x r ↔ Par.Root Q x r

/-- Invariant of phase 2: a forest over the `n` points in which two indices share a root only if
a chain of core points joins them. -/
def Par.P2Inv (nb : Nat → List Nat) (n : Nat) (P : List Nat) : Prop :=
  Par.Forest P ∧ P.length = n ∧ ∀ x y, Par.SameSet P x y → Core.CoreChain nb n x y

/-- Invariant of the loop that fills `cluster_map`: entries are 0 or in `1 .. counter - 1`, and
no two roots are mapped to the same positive id. -/
structure Par.MapInv (n : Nat) (cmap : List Int) (counter : Int) : Prop where
  len : cmap.length = n
  cpos : 1 ≤ counter
  range : ∀ r, r < n → cmap.getD r 0 = 0 ∨ (1 ≤ cmap.getD r 0 ∧ cmap.getD r 0 < counter)
  inj : ∀ r r', r < n → r' < n → cmap.getD r 0 ≠ 0 → cmap.getD r 0 = cmap.getD r' 0 → r = r'

/-- What `dbscan` of `src/src/dbscan_par.c` leaves in the labels `lab`, in terms of the neighbour
lists `nb` of the `n` points: core points carry a positive id that they share exactly along
chains of core points, a non-core point takes the id of its lowest-index core neighbour, and a
non-core point without core neighbour is `NOISE`. -/
structure Par.Labelled (nb : Nat → List Nat) (n : Nat) (lab : Nat → Int) : Prop where
  core_pos : ∀ i, Core.IsCore nb n i → 1 ≤ lab i
  core_iff : ∀ a b, Core.IsCore nb n a → Core.IsCore nb n b →
    (lab a = lab b ↔ Core.CoreChain nb n a b)
  border : ∀ i, i < n → ¬ 3 ≤ (nb i).length → ∀ j, j ∈ nb i → 3 ≤ (nb j).length →
    (∀ j', j' ∈ nb i → 3 ≤ (nb j').length → j ≤ j') → lab i = lab j
  noise : ∀ i, i < n → ¬ 3 ≤ (nb i).length → (∀ j, j ∈ nb i → ¬ 3 ≤ (nb j).length) →
    lab i = -1

instance (data : Dataset) (a b : Nat) : Decidable (Near data a b) :=
  inferInstanceAs (Decidable (_ ∧ _ ∧ _))

instance (data : Dataset) (p : Nat) : Decidable (Seq.IsCore data p) :=
  inferInstanceAs (Decidable (_ ∧ _))

instance (data : Dataset) (p : Nat) : Decidable (SeqV2.IsCore data p) :=
  inferInstanceAs (Decidable (_ ∧ _))

instance (data : Dataset) (p : Nat) : Decidable (Par.IsCore data p) :=
  inferInstanceAs (Decidable (_ ∧ _))

/-- Union-find invariant of the specification: every parent entry is an index of the forest, and
from every index the parent links reach a root. -/
def Par.UFInv (parent : List Nat) : Prop :=
  (∀ i p : Nat, parent[i]? = some p → p < parent.length) ∧ Par.Forest parent

/-- Index `x` lies on the path of parent links that starts at `i`. -/
inductive Par.OnPath (parent : List Nat) : Nat → Nat → Prop
  | here (i : Nat) : Par.OnPath parent i i
  | next (i p x : Nat) : parent[i]? = some p → p ≠ i → Par.OnPath parent p x →
      Par.OnPath parent i x

/-- A list of union requests executed one after another. -/
def Par.runUnions (fuel : Nat) : List (Nat × Nat) → Par.UnionFind → Option Par.UnionFind
  | [], parent => some parent
  | (i, j) :: rest, parent =>
    match Par.uf_union fuel parent i j with
    | none => none
    | some parent1 => Par.runUnions fuel rest parent1

/-- One step of connection by requests: same set in `parent`, or a request in either
direction. -/
def Par.Linked (parent : List Nat) (pairs : List (Nat × Nat)) (a b : Nat) : Prop :=
  Par.SameSet parent a b ∨ (a, b) ∈ pairs ∨ (b, a) ∈ pairs

/-- Lowest-index core point of its component, in terms of the neighbour lists. -/
def Core.IsLeader (nb : Nat → List Nat) (n l : Nat) : Prop :=
  Core.IsCore nb n l ∧ ∀ j, Core.IsCore nb n j → Core.CoreChain nb n j l → l ≤ j

/-- Lowest-index core point of its connected component of core points
(`src/src/dbscan_par.c`). -/
def Par.IsLeader (data : Dataset) (l : Nat) : Prop :=
  Par.IsCore data l ∧
    ∀ j, Par.IsCore data j → ChainOf (Par.IsCore data) data j l → l ≤ j

/-- Invariant of the loop that fills `cluster_map`, before index `i`: `L` lists in ascending order
the lowest-index core points below `i` of the components of the forest `P0`, the counter is one
more than their number, the root of the `k`-th of them is mapped to `k + 1`, and the roots mapped
so far are those of the core points below `i`. -/
structure Par.NumInv (nb : Nat → List Nat) (n : Nat) (P0 : List Nat) (i : Nat)
    (cmap : List Int) (counter : Int) (L : List Nat) : Prop where
  sorted : L.Pairwise (fun a b => a < b)
  mem : ∀ l, l ∈ L ↔ (Core.IsLeader nb n l ∧ l < i)
  count : counter = (L.length : Int) + 1
  ids : ∀ k l r : Nat, L[k]? = some l → Par.Root P0 l r → cmap.getD r 0 = (k : Int) + 1
  seen : ∀ r, r < n → cmap.getD r 0 ≠ 0 → ∃ j, j < i ∧ Core.IsCore nb n j ∧ Par.Root P0 j r
  done : ∀ j, j < i → Core.IsCore nb n j → ∀ r, Par.Root P0 j r → cmap.getD r 0 ≠ 0
  len : cmap.length = n

/-- The dataset is made of two groups (`g` tells them apart) of at least `m` points each; two
points of one group are within `EPSILON`, points of different groups are farther apart, both as
the code tests it (on the distance computed in double precision). -/
structure TwoGroups (m : Nat) (data : Dataset) (g : Nat → Bool) : Prop where
  sizeA : m ≤ ((List.range data.length).filter (fun i => g i)).length
  sizeB : m ≤ ((List.range data.length).filter (fun i => !g i)).length
  same : ∀ a b, a < data.length → b < data.length → a ≠ b → g a = g b →
    withinEpsilon (getPoint data a) (getPoint data b) = true
  apart : ∀ a b, a < data.length → b < data.length → g a ≠ g b →
    withinEpsilon (getPoint data a) (getPoint data b) = false


/-! ## Properties of the frontier records -/

/-- A frontier without repeated entries, all of them indices below `n`. -/
def FrontOK (n : Nat) (F : List Nat) : Prop :=
  F.Nodup ∧ ∀ x ∈ F, x < n

/-- The recorded visits account for the frontier from `start` to `final`: each visit starts from
the frontier the previous one left. -/
def FrontierRun : List Nat → List Visit → List Nat → Prop
  | F, [], G => F = G
  | F, v :: vs, G => v.before = F ∧ FrontierRun v.after vs G

/-- The points whose neighbourhood entered a frontier in the recorded expansions: each seed (its
neighbourhood is the initial frontier) and each point relabelled by the frontier loop. -/
def entered (es : List Expansion) : List Nat :=
  es.flatMap (fun e => e.seed :: e.visits.map Visit.point)

/-- What a visit of `src/dbscan_seq.c` does to the frontier: both frontiers are free of
repetitions, and the later one is the earlier one or its extension by the absent neighbours. -/
def Seq.VisitDedup (data0 : Dataset) (v : Visit) : Prop :=
  FrontOK data0.length v.before ∧ FrontOK data0.length v.after ∧
    (v.after = v.before ∨
      v.after = Seq.appendIfAbsent v.before (Seq.regionQuery v.point data0))

/-- An expansion of `src/dbscan_seq.c` whose frontier is free of repetitions throughout. -/
def Seq.ExpDedup (data0 : Dataset) (e : Expansion) : Prop :=
  e.start = Seq.regionQuery e.seed data0 ∧ FrontierRun e.start e.visits e.final ∧
    FrontOK data0.length e.start ∧ FrontOK data0.length e.final ∧
    ∀ v ∈ e.visits, Seq.VisitDedup data0 v

/-- A visit of `src/dbscan_seq.c` that extends the frontier only for a point read as
`UNCLASSIFIED`. -/
def Seq.VisitQuiet (data0 : Dataset) (v : Visit) : Prop :=
  (v.old = UNCLASSIFIED ∨ v.old = NOISE) ∧ v.found = (Seq.regionQuery v.point data0).length ∧
    (v.old = NOISE → v.found < MIN_POINTS ∧ v.after = v.before) ∧
    (v.after ≠ v.before → v.old = UNCLASSIFIED ∧ MIN_POINTS ≤ v.found)

/-- Sum of the neighbour counts of all points (`src/src/dbscan_seq.c`). -/
def SeqV2.totalNeighbors (data : Dataset) : Nat :=
  ((List.range data.length).map (fun p => (SeqV2.regionQuery p data).length)).sum

/-- A visit of `src/src/dbscan_seq.c`: the point was read as `UNCLASSIFIED` or `NOISE`, and the
frontier is left as it was or extended by the whole neighbour list of the point. -/
def SeqV2.VisitOnce (data0 : Dataset) (v : Visit) : Prop :=
  v.point < data0.length ∧ (v.old = UNCLASSIFIED ∨ v.old = NOISE) ∧
    v.found = (SeqV2.regionQuery v.point data0).length ∧
    (v.after = v.before ∨
      (MIN_POINTS ≤ v.found ∧ v.after = v.before ++ SeqV2.regionQuery v.point data0))

/-- An expansion of `src/src/dbscan_seq.c`: its frontier never exceeds the final one, no point is
relabelled twice, and the final length is at most the initial one plus the neighbour counts of
the relabelled points. -/
def SeqV2.ExpOnce (data0 : Dataset) (e : Expansion) : Prop :=
  e.seed < data0.length ∧ e.start = SeqV2.regionQuery e.seed data0 ∧
    FrontierRun e.start e.visits e.final ∧
    (∀ v ∈ e.visits, SeqV2.VisitOnce data0 v ∧ v.after.length ≤ e.final.length) ∧
    (e.seed :: e.visits.map Visit.point).Nodup ∧
    e.final.length ≤ e.start.length +
      ((e.visits.map Visit.point).map (fun p => (SeqV2.regionQuery p data0).length)).sum

/-! ### Steps of the run of `src/src/dbscan_seq.c`, named for the statements about them -/

/-- The state of `dbscan` after it labels point `i` as `NOISE`. -/
def SeqV2.noiseStep (i : Nat) (run : SeqV2.Run) : SeqV2.Run :=
  { data := setClusterId run.data i NOISE, expansions := run.expansions }

/-- The state in which `expandCluster(i, ...)` enters its loop. -/
def SeqV2.startLoop (i : Nat) (c : Int) (run : SeqV2.Run) : SeqV2.Loop :=
  { data := setClusterId run.data i c
    neighbors := SeqV2.regionQuery i run.data
    overflow := false
    visits := [] }

/-- The state after an iteration that relabels `cur`, finds it to be a core point and appends
its neighbour list. -/
def SeqV2.visitGrow (c : Int) (cur : Nat) (st : SeqV2.Loop) : SeqV2.Loop :=
  { data := setClusterId st.data cur c
    neighbors := st.neighbors ++ SeqV2.regionQuery cur (setClusterId st.data cur c)
    overflow := st.overflow
    visits := st.visits ++ [⟨cur, clusterId st.data cur,
      (SeqV2.regionQuery cur (setClusterId st.data cur c)).length, st.neighbors,
      st.neighbors ++ SeqV2.regionQuery cur (setClusterId st.data cur c)⟩] }

/-- The state in which the loop is left when the new frontier length does not fit in `int`. -/
def SeqV2.visitOverflow (c : Int) (cur : Nat) (st : SeqV2.Loop) : SeqV2.Loop :=
  { data := setClusterId st.data cur c
    neighbors := st.neighbors
    overflow := true
    visits := st.visits }

/-- The state after an iteration that relabels `cur` and finds fewer than `MIN_POINTS`
neighbours. -/
def SeqV2.visitKeep (c : Int) (cur : Nat) (st : SeqV2.Loop) : SeqV2.Loop :=
  { data := setClusterId st.data cur c
    neighbors := st.neighbors
    overflow := st.overflow
    visits := st.visits ++ [⟨cur, clusterId st.data cur,
      (SeqV2.regionQuery cur (setClusterId st.data cur c)).length, st.neighbors,
      st.neighbors⟩] }

/-- The state of `dbscan` when `expandCluster(i, ...)` has returned in the state `st`. -/
def SeqV2.closeRun (i : Nat) (run : SeqV2.Run) (st : SeqV2.Loop) : SeqV2.Run :=
  { data := st.data
    expansions := run.expansions ++
      [⟨i, SeqV2.regionQuery i run.data, st.visits, st.neighbors⟩] }

/-- Invariant of the outer loop of `src/src/dbscan_seq.c` behind the bound on the frontier: no
point has entered a frontier's source list twice, the points that have are labelled with a
positive id, and every recorded expansion is as `ExpOnce` says. -/
structure SeqV2.RunOnce (data0 : Dataset) (run : SeqV2.Run) : Prop where
  coords : coordsOf run.data = coordsOf data0
  nodup : (entered run.expansions).Nodup
  pos : ∀ p ∈ entered run.expansions, 0 < clusterId run.data p
  exps : ∀ x ∈ run.expansions, SeqV2.ExpOnce data0 x

/-- Invariant of the frontier loop of `src/src/dbscan_seq.c`, inside the expansion from seed `i`
entered in the state `run`. -/
structure SeqV2.LoopOnce (data0 : Dataset) (run : SeqV2.Run) (i : Nat) (st : SeqV2.Loop) :
    Prop where
  coords : coordsOf st.data = coordsOf data0
  coords0 : coordsOf run.data = coordsOf data0
  seed : i < data0.length
  nodup : (entered run.expansions ++ (i :: st.visits.map Visit.point)).Nodup
  pos : ∀ p ∈ entered run.expansions ++ (i :: st.visits.map Visit.point),
    0 < clusterId st.data p
  exps : ∀ x ∈ run.expansions, SeqV2.ExpOnce data0 x
  lt : ∀ x ∈ st.neighbors, x < data0.length
  run : FrontierRun (SeqV2.regionQuery i data0) st.visits st.neighbors
  visits : ∀ v ∈ st.visits, SeqV2.VisitOnce data0 v ∧ v.after.length ≤ st.neighbors.length
  bound : st.neighbors.length ≤ (SeqV2.regionQuery i data0).length +
    ((st.visits.map Visit.point).map (fun p => (SeqV2.regionQuery p data0).length)).sum
  over : st.overflow = true → SeqV2.INT_MAX < data0.length * (data0.length - 1)

/-! ## Sample datasets -/

/-- Three points in a row one unit apart, and a far point. -/
def sampleRow : Dataset :=
  [⟨0, 0, 0⟩, ⟨1, 0, 0⟩, ⟨2, 0, 0⟩, ⟨5, 5, 0⟩]

/-- Two dense groups (three coincident points and one point next to them, on either side) and a
point between them that is within `EPSILON` of one member of each. -/
def sampleBridge : Dataset :=
  [⟨-2, 0, 0⟩, ⟨-2, 0, 0⟩, ⟨-2, 0, 0⟩, ⟨-1, 0, 0⟩, ⟨0, 0, 0⟩, ⟨1, 0, 0⟩, ⟨2, 0, 0⟩, ⟨2, 0, 0⟩,
    ⟨2, 0, 0⟩]

/-- The same nine points in another index order: the right group holds index 0, the left group's
inner point has index 1, the right group's inner point index 2, the point between them index 3. -/
def sampleSplit : Dataset :=
  [⟨2, 0, 0⟩, ⟨-1, 0, 0⟩, ⟨1, 0, 0⟩, ⟨0, 0, 0⟩, ⟨-2, 0, 0⟩, ⟨-2, 0, 0⟩, ⟨-2, 0, 0⟩, ⟨2, 0, 0⟩,
    ⟨2, 0, 0⟩]

/-- A forest on three indices: `2 → 1 → 0`, with root `0`. -/
def sampleForest : Par.UnionFind :=
  [0, 0, 1]

/-- Two groups of three coincident points each, five units apart. -/
def sampleTriples : Dataset :=
  [⟨0, 0, 0⟩, ⟨0, 0, 0⟩, ⟨0, 0, 0⟩, ⟨5, 0, 0⟩, ⟨5, 0, 0⟩, ⟨5, 0, 0⟩]

/-- Four points on the corners of a square of side 1/2: all pairwise within `EPSILON`. -/
def sampleBlob : Dataset :=
  [⟨0, 0, 0⟩, ⟨.fin (1 / 2), 0, 0⟩, ⟨0, .fin (1 / 2), 0⟩, ⟨.fin (1 / 2), .fin (1 / 2), 0⟩]

/-- Three points pairwise more than `EPSILON` apart. -/
def sampleFar : Dataset :=
  [⟨0, 0, 0⟩, ⟨3, 0, 0⟩, ⟨0, 3, 0⟩]

/-- Two groups of four coincident points each, five units apart. -/
def sampleQuads : Dataset :=
  [⟨0, 0, 0⟩, ⟨0, 0, 0⟩, ⟨0, 0, 0⟩, ⟨0, 0, 0⟩, ⟨5, 0, 0⟩, ⟨5, 0, 0⟩, ⟨5, 0, 0⟩, ⟨5, 0, 0⟩]

/-- An end point that is labelled `NOISE` first (it has a single neighbour) and is reached later
from the cluster seeded at index 1. -/
def sampleLate : Dataset :=
  [⟨0, 0, 0⟩, ⟨1, 0, 0⟩, ⟨2, 0, 0⟩, ⟨2, 0, 0⟩]

/-- As many coincident points as it takes for `n * (n - 1)` to exceed `INT_MAX`: 46342. -/
def sampleCrowd : Dataset :=
  List.replicate 46342 ⟨0, 0, 0⟩

/-- Six coincident points. -/
def sampleSix : Dataset :=
  [⟨0, 0, 0⟩, ⟨0, 0, 0⟩, ⟨0, 0, 0⟩, ⟨0, 0, 0⟩, ⟨0, 0, 0⟩, ⟨0, 0, 0⟩]

/-- Two groups of six coincident points each, five units apart. -/
def sampleSixes : Dataset :=
  [⟨0, 0, 0⟩, ⟨0, 0, 0⟩, ⟨0, 0, 0⟩, ⟨0, 0, 0⟩, ⟨0, 0, 0⟩, ⟨0, 0, 0⟩,
    ⟨5, 0, 0⟩, ⟨5, 0, 0⟩, ⟨5, 0, 0⟩, ⟨5, 0, 0⟩, ⟨5, 0, 0⟩, ⟨5, 0, 0⟩]

/-- An end point with a single neighbour, that neighbour, and six coincident points one unit
further on. -/
def sampleEdge : Dataset :=
  [⟨-2, 0, 0⟩, ⟨-1, 0, 0⟩, ⟨0, 0, 0⟩, ⟨0, 0, 0⟩, ⟨0, 0, 0⟩, ⟨0, 0, 0⟩, ⟨0, 0, 0⟩, ⟨0, 0, 0⟩]

/-- The origin and two points just above the unit circle, at `(1, 2^-30)` and `(-1, 2^-30)`:
their distance from the origin is `sqrt(1 + 2^-60)`, more than 1, and the sum `1 + 2^-60` is
rounded to 1 in binary64. -/
def sampleMargin : Dataset :=
  [⟨0, 0, 0⟩, ⟨1, .fin (1 / 2 ^ 30), 0⟩, ⟨-1, .fin (1 / 2 ^ 30), 0⟩]

/-- A single point whose first coordinate is a NaN. -/
def sampleNaN : Dataset :=
  [⟨.nan, 0, 0⟩]

/-- A forest on four indices with the two roots 0 and 2: `1 → 0` and `3 → 2`. -/
def samplePairs : Par.UnionFind :=
  [0, 0, 2, 2]

/-- Four core points on the corners of a unit square, in the index order (1,1), (0,1), (0,0),
(1,0), each with one more neighbour outside the square on its diagonal: the corners have three
neighbours each (two adjacent corners and the outer point), the outer points one. -/
def sampleSquare : Dataset :=
  [⟨1, 1, 0⟩, ⟨0, 1, 0⟩, ⟨0, 0, 0⟩, ⟨1, 0, 0⟩, ⟨.fin (3 / 2), .fin (3 / 2), 0⟩,
    ⟨.fin (-1 / 2), .fin (3 / 2), 0⟩, ⟨.fin (-1 / 2), .fin (-1 / 2), 0⟩,
    ⟨.fin (3 / 2), .fin (-1 / 2), 0⟩]

/-- A schedule of four threads for phase 2 on `sampleSquare`.  Each thread takes an index
(thread `t` gets index `t`).  Thread 0 begins `uf_union(0, 1)` and finds the roots 0 and 1;
thread 3 runs `uf_union(3, 0)` to its end; thread 2 runs `uf_union(2, 1)` to its end and
`uf_union(2, 3)` up to its second pair of finds; thread 0 takes its locks and finds the roots
again; then thread 2 and thread 0 make their writes. -/
def raceSchedule : List Nat :=
  [0, 1, 2, 3,
   0, 0,
   3, 3, 3, 3, 3, 3, 3, 3, 3,
   2, 2, 2, 2, 2, 2, 2, 2, 2,
   2, 2, 2, 2, 2, 2,
   0, 0, 0, 0,
   2, 0]

/-- The forest left by `raceSchedule`: indices 2 and 3 are each other's parent. -/
def raceForest : Par.UnionFind :=
  [3, 2, 3, 2, 4, 5, 6, 7]

end DBSCAN

/-! # Proofs -/

namespace DBSCAN
namespace Core

theorem getD_set_int (lab : List Int) (i p : Nat) (c : Int) (hi : i < lab.length) :
    (lab.set i c).getD p 0 = if p = i then c else lab.getD p 0 := by
  simp only [List.getD_eq_getElem?_getD, List.getElem?_set]
  by_cases h : i = p
  · subst h; simp [hi]
  · have h' : ¬ p = i := fun e => h e.symm
    simp [h, h']

theorem pot_set (nb : Nat → List Nat) (c : Int) (hc : 0 < c) :
    ∀ (ls : List Int) (k j : Nat), j < ls.length → ls.getD j 0 ≤ 0 →
      pot nb k (ls.set j c) + (nb (k + j)).length = pot nb k ls := by
  intro ls
  induction ls with
  | nil => intro k j hj; simp at hj
  | cons l ls ih =>
    intro k j hj hle
    cases j with
    | zero =>
      simp only [List.getD_cons_zero] at hle
      simp only [List.set_cons_zero, pot, Nat.add_zero]
      have : ¬ c ≤ 0 := by omega
      simp [this, hle]; omega
    | succ j =>
      simp only [List.getD_cons_succ] at hle
      simp only [List.set_cons_succ, pot]
      have := ih (k + 1) j (by simpa using hj) hle
      have e : k + 1 + j = k + (j + 1) := by omega
      rw [e] at this
      omega

theorem pot_le (nb : Nat → List Nat) (n : Nat) (hlen : ∀ p, (nb p).length ≤ n) :
    ∀ (ls : List Int) (k : Nat), pot nb k ls ≤ ls.length * n := by
  intro ls
  induction ls with
  | nil => intro k; simp [pot]
  | cons l ls ih =>
    intro k
    simp only [pot, List.length_cons]
    have := ih (k + 1)
    have := hlen k
    split <;> nlinarith

end Core
end DBSCAN

namespace DBSCAN
namespace Core

theorem expandLoop_some (nb : Nat → List Nat) (app : List Nat → List Nat → List Nat) (n : Nat)
    (hnb : NbOK nb n) (happ : AppOK app) (c : Int) (hc : 0 < c) :
    ∀ (fuel i : Nat) (front : List Nat) (lab : List Int), lab.length = n →
      (∀ x ∈ front, x < n) → (front.length - i) + pot nb 0 lab < fuel →
      ∃ out, expandLoop nb app fuel i front c lab = some out := by
  intro fuel
  induction fuel with
  | zero => intro i front lab _ _ h; omega
  | succ fuel ih =>
    intro i front lab hlen hfront hfuel
    rw [expandLoop]
    cases hcur : front[i]? with
    | none => exact ⟨lab, rfl⟩
    | some cur =>
      obtain ⟨hi, hget⟩ := List.getElem?_eq_some_iff.mp hcur
      have hmem : cur ∈ front := hget ▸ List.getElem_mem hi
      have hcn : cur < n := hfront cur hmem
      simp only
      split
      · rename_i hrel
        have hle : lab.getD cur 0 ≤ 0 := by rcases hrel with h | h <;> omega
        have hpot := pot_set nb c hc lab 0 cur (by omega) hle
        simp only [Nat.zero_add] at hpot
        split
        · obtain ⟨E, hE, _, hEsub, hElen⟩ := happ front (nb cur)
          rw [hE]
          apply ih
          · simp [hlen]
          · intro x hx
            rcases List.mem_append.mp hx with h | h
            · exact hfront x h
            · exact hnb.lt cur x (hEsub x h)
          · simp only [List.length_append]; omega
        · apply ih
          · simp [hlen]
          · exact hfront
          · omega
      · apply ih _ _ _ hlen hfront
        omega

theorem coreChain_symm (nb : Nat → List Nat) (n : Nat) (hnb : NbOK nb n) {a b : Nat}
    (h : CoreChain nb n a b) : CoreChain nb n b a := by
  have hs : Symmetric (CoreEdge nb n) := by
    intro x y ⟨hx, hy, hxy⟩
    exact ⟨hy, hx, hnb.symm x y hx.1 hxy⟩
  exact Relation.ReflTransGen.symmetric hs h

theorem LInv_relabel (nb : Nat → List Nat) (n : Nat) (hnb : NbOK nb n) (c : Int) (s i : Nat)
    (front E : List Nat) (lab : List Int) (cur : Nat)
    (inv : LInv nb n c s i front lab) (hcur : front[i]? = some cur)
    (hrel : lab.getD cur 0 = 0 ∨ lab.getD cur 0 = -1)
    (hE1 : 3 ≤ (nb cur).length → ∀ x ∈ nb cur, x ∈ front ∨ x ∈ E)
    (hE2 : ∀ x ∈ E, x ∈ nb cur ∧ 3 ≤ (nb cur).length) :
    LInv nb n c s (i + 1) (front ++ E) (lab.set cur c) := by
  obtain ⟨hi, hget⟩ := List.getElem?_eq_some_iff.mp hcur
  have hmem : cur ∈ front := hget ▸ List.getElem_mem hi
  have hcn : cur < n := inv.frontLt cur hmem
  have hg : ∀ p, (lab.set cur c).getD p 0 = if p = cur then c else lab.getD p 0 :=
    fun p => getD_set_int lab cur p c (by rw [inv.len]; exact hcn)
  have hcpos := inv.cpos
  have hle : lab.getD cur 0 ≤ 0 := by rcases hrel with h | h <;> omega
  have hne : ∀ p, 0 < lab.getD p 0 → p ≠ cur := by
    intro p hp e; subst e; omega
  refine ⟨by simp [inv.len], hcpos, ?_, ?_, ?_, ?_, ?_, ?_, ?_, ?_, ?_, ?_, ?_⟩
  · intro p hp
    rw [hg]
    split
    · right; right; exact ⟨hcpos, le_refl _⟩
    · exact inv.range p hp
  · intro p hp
    rw [hg]
    split
    · intro h; omega
    · exact inv.noise p hp
  · intro q hq hcq
    rw [hg]
    split
    · intro _ h; omega
    · intro h1 h2 r hr
      obtain ⟨h3, h4⟩ := inv.closedOld q hq hcq h1 h2 r hr
      rw [hg, if_neg (hne r h3)]
      exact ⟨h3, h4⟩
  · intro q hq hcq
    rw [hg]
    split
    · rename_i e
      subst e
      intro _ r hr
      exact List.mem_append.mpr (hE1 hcq r hr)
    · intro h r hr
      exact List.mem_append_left _ (inv.frontCur q hq hcq h r hr)
  · intro k x hk hx
    rw [hg]
    split
    · omega
    · rename_i hxc
      have hk' : k < i ∨ k = i := by omega
      rcases hk' with hk' | hk'
      · have : k < front.length := by omega
        rw [List.getElem?_append_left this] at hx
        exact inv.done k x hk' hx
      · subst hk'
        rw [List.getElem?_append_left hi, hcur] at hx
        exact absurd (Option.some.inj hx).symm hxc
  · intro x hx
    rcases List.mem_append.mp hx with h | h
    · exact inv.frontLt x h
    · exact hnb.lt cur x (hE2 x h).1
  · intro x hx
    rcases List.mem_append.mp hx with h | h
    · obtain ⟨q, hq, hcq, hlq, hxq⟩ := inv.frontSrc x h
      refine ⟨q, hq, hcq, ?_, hxq⟩
      rw [hg]; split <;> first | rfl | exact hlq
    · exact ⟨cur, hcn, (hE2 x h).2, by rw [hg]; simp, (hE2 x h).1⟩
  · obtain ⟨h1, h2, h3⟩ := inv.seed
    refine ⟨h1, h2, ?_⟩
    rw [hg]; split <;> first | rfl | exact h3
  · intro p hp hcp
    rw [hg]
    split
    · rename_i e
      subst e
      intro _
      obtain ⟨q, hq, hcq, hlq, hxq⟩ := inv.frontSrc p hmem
      exact Relation.ReflTransGen.tail (inv.chainCur q hq hcq hlq) ⟨⟨hq, hcq⟩, ⟨hp, hcp⟩, hxq⟩
    · exact inv.chainCur p hp hcp
  · intro a b ha hb hca hcb
    rw [hg, hg]
    split
    · intro _ h; omega
    · split
      · intro _ h1 h2; omega
      · exact inv.chainOld a b ha hb hca hcb
  · intro p hp
    rw [hg]
    split
    · rename_i e
      subst e
      intro _ hnc
      obtain ⟨q, hq, hcq, hlq, hxq⟩ := inv.frontSrc p hmem
      refine ⟨q, hnb.symm q p hq hxq, hcq, ?_⟩
      rw [hg]; split <;> first | rfl | exact hlq
    · intro h1 hnc
      obtain ⟨q, hqp, hcq, hlq⟩ := inv.border p hp h1 hnc
      refine ⟨q, hqp, hcq, ?_⟩
      rw [hg, if_neg (hne q (by omega))]
      exact hlq

theorem LInv_skip (nb : Nat → List Nat) (n : Nat) (c : Int) (s i : Nat)
    (front : List Nat) (lab : List Int) (cur : Nat)
    (inv : LInv nb n c s i front lab) (hcur : front[i]? = some cur)
    (hrel : ¬ (lab.getD cur 0 = 0 ∨ lab.getD cur 0 = -1)) :
    LInv nb n c s (i + 1) front lab := by
  obtain ⟨hi, hget⟩ := List.getElem?_eq_some_iff.mp hcur
  have hmem : cur ∈ front := hget ▸ List.getElem_mem hi
  have hcn : cur < n := inv.frontLt cur hmem
  refine { inv with done := ?_ }
  intro k x hk hx
  have hk' : k < i ∨ k = i := by omega
  rcases hk' with hk' | hk'
  · exact inv.done k x hk' hx
  · subst hk'
    rw [hcur] at hx
    cases hx
    have := inv.range cur hcn
    omega

theorem LInv_init (nb : Nat → List Nat) (n : Nat) (hnb : NbOK nb n) (c : Int) (s : Nat)
    (lab : List Int) (inv : OInv nb n c lab) (hs : s < n) (hs0 : lab.getD s 0 = 0)
    (hcs : 3 ≤ (nb s).length) :
    LInv nb n c s 0 (nb s) (lab.set s c) := by
  have hg : ∀ p, (lab.set s c).getD p 0 = if p = s then c else lab.getD p 0 :=
    fun p => getD_set_int lab s p c (by rw [inv.len]; exact hs)
  have hcpos := inv.cpos
  have hlt : ∀ p, p < n → lab.getD p 0 < c := by
    intro p hp; have := inv.range p hp; omega
  have hne : ∀ p, 0 < lab.getD p 0 → p ≠ s := by
    intro p hp e; subst e; omega
  refine ⟨by simp [inv.len], hcpos, ?_, ?_, ?_, ?_, ?_, ?_, ?_, ?_, ?_, ?_, ?_⟩
  · intro p hp
    rw [hg]
    split
    · right; right; exact ⟨hcpos, le_refl _⟩
    · have := inv.range p hp; omega
  · intro p hp
    rw [hg]
    split
    · intro h; omega
    · exact inv.noise p hp
  · intro q hq hcq
    rw [hg]
    split
    · intro _ h; omega
    · intro h1 _ r hr
      obtain ⟨h3, h4⟩ := inv.closed q hq hcq h1 r hr
      rw [hg, if_neg (hne r h3)]
      exact ⟨h3, h4⟩
  · intro q hq hcq
    rw [hg]
    split
    · rename_i e
      subst e
      intro _ r hr
      exact hr
    · intro h; have := hlt q hq; omega
  · intro k x hk; omega
  · intro x hx; exact hnb.lt s x hx
  · intro x hx
    exact ⟨s, hs, hcs, by rw [hg]; simp, hx⟩
  · exact ⟨hs, hcs, by rw [hg]; simp⟩
  · intro p hp hcp
    rw [hg]
    split
    · rename_i e
      subst e
      intro _
      exact Relation.ReflTransGen.refl
    · intro h; have := hlt p hp; omega
  · intro a b ha hb hca hcb
    rw [hg, hg]
    split
    · intro _ h; omega
    · split
      · intro _ h1 h2; omega
      · intro h1 _ h2
        exact inv.chain a b ha hb hca hcb h1 h2
  · intro p hp
    rw [hg]
    split
    · rename_i e
      subst e
      intro _ hnc
      exact absurd hcs hnc
    · intro h1 hnc
      obtain ⟨q, hqp, hcq, hlq⟩ := inv.border p hp h1 hnc
      refine ⟨q, hqp, hcq, ?_⟩
      rw [hg, if_neg (hne q (by omega))]
      exact hlq

end Core
end DBSCAN

namespace DBSCAN
namespace Core

theorem Keeps.keeps_refl (lab : List Int) : Keeps lab lab :=
  fun _ => ⟨fun _ => rfl, fun h => h⟩

theorem Keeps.keeps_trans {a b c : List Int} (h1 : Keeps a b) (h2 : Keeps b c) : Keeps a c := by
  intro p
  obtain ⟨h1a, h1b⟩ := h1 p
  obtain ⟨h2a, h2b⟩ := h2 p
  refine ⟨fun h => ?_, fun h => h2b (h1b h)⟩
  have e := h1a h
  rw [h2a (by omega), e]

theorem Keeps.set (lab : List Int) (i : Nat) (c : Int) (hc : c ≠ 0)
    (hi : lab.getD i 0 ≤ 0) : Keeps lab (lab.set i c) := by
  intro p
  by_cases hlt : i < lab.length
  · rw [getD_set_int lab i p c hlt]
    split
    · rename_i e; subst e
      exact ⟨fun h => by omega, fun _ => hc⟩
    · exact ⟨fun _ => rfl, fun h => h⟩
  · rw [List.set_eq_of_length_le (by omega)]
    exact ⟨fun _ => rfl, fun h => h⟩

theorem LInv_exit (nb : Nat → List Nat) (n : Nat) (hnb : NbOK nb n) (c : Int) (s i : Nat)
    (front : List Nat) (lab : List Int) (inv : LInv nb n c s i front lab)
    (hi : front.length ≤ i) : OInv nb n (c + 1) lab := by
  have hcpos := inv.cpos
  have hdone : ∀ r ∈ front, 0 < lab.getD r 0 := by
    intro r hr
    obtain ⟨k, hk, hget⟩ := List.getElem_of_mem hr
    exact inv.done k r (by omega) (by rw [List.getElem?_eq_getElem hk, hget])
  refine ⟨inv.len, by omega, ?_, inv.noise, ?_, ?_, inv.border⟩
  · intro p hp
    have := inv.range p hp
    omega
  · intro q hq hcq hpos r hr
    have hrange := inv.range q hq
    by_cases hlt : lab.getD q 0 < c
    · exact inv.closedOld q hq hcq hpos hlt r hr
    · have hqc : lab.getD q 0 = c := by omega
      have hrf := inv.frontCur q hq hcq hqc r hr
      have hrpos := hdone r hrf
      refine ⟨hrpos, fun hcr => ?_⟩
      have hrn : r < n := hnb.lt q r hr
      have hrr := inv.range r hrn
      by_contra hne
      have hrlt : lab.getD r 0 < c := by omega
      have := (inv.closedOld r hrn hcr hrpos hrlt q (hnb.symm q r hq hr)).2 hcq
      omega
  · intro a b ha hb hca hcb hpos hab
    have hrange := inv.range a ha
    by_cases hlt : lab.getD a 0 < c
    · exact inv.chainOld a b ha hb hca hcb hpos hlt hab
    · have hac : lab.getD a 0 = c := by omega
      have h1 := inv.chainCur a ha hca hac
      have h2 := inv.chainCur b hb hcb (by omega)
      exact Relation.ReflTransGen.trans (coreChain_symm nb n hnb h1) h2

theorem expandLoop_inv (nb : Nat → List Nat) (app : List Nat → List Nat → List Nat) (n : Nat)
    (hnb : NbOK nb n) (happ : AppOK app) (c : Int) (s : Nat) :
    ∀ (fuel i : Nat) (front : List Nat) (lab out : List Int), LInv nb n c s i front lab →
      expandLoop nb app fuel i front c lab = some out →
      OInv nb n (c + 1) out ∧ Keeps lab out := by
  intro fuel
  induction fuel with
  | zero => intro i front lab out _ h; simp [expandLoop] at h
  | succ fuel ih =>
    intro i front lab out inv h
    rw [expandLoop] at h
    cases hcur : front[i]? with
    | none =>
      rw [hcur] at h
      simp only [Option.some.injEq] at h
      subst h
      have hi : front.length ≤ i := List.getElem?_eq_none_iff.mp hcur
      exact ⟨LInv_exit nb n hnb c s i front lab inv hi, Keeps.keeps_refl lab⟩
    | some cur =>
      rw [hcur] at h
      simp only at h
      have hcpos := inv.cpos
      split at h
      · rename_i hrel
        have hle : lab.getD cur 0 ≤ 0 := by rcases hrel with h | h <;> omega
        have hk : Keeps lab (lab.set cur c) := Keeps.set lab cur c (by omega) hle
        split at h
        · rename_i hcore
          obtain ⟨E, hE, hE1, hE2, _⟩ := happ front (nb cur)
          rw [hE] at h
          have inv' := LInv_relabel nb n hnb c s i front E lab cur inv hcur hrel
            (fun _ => hE1) (fun x hx => ⟨hE2 x hx, hcore⟩)
          obtain ⟨h1, h2⟩ := ih _ _ _ _ inv' h
          exact ⟨h1, hk.keeps_trans h2⟩
        · rename_i hcore
          have inv' := LInv_relabel nb n hnb c s i front [] lab cur inv hcur hrel
            (fun hc => absurd hc hcore) (fun x hx => by simp at hx)
          rw [List.append_nil] at inv'
          obtain ⟨h1, h2⟩ := ih _ _ _ _ inv' h
          exact ⟨h1, hk.keeps_trans h2⟩
      · rename_i hrel
        exact ih _ _ _ _ (LInv_skip nb n c s i front lab cur inv hcur hrel) h

theorem OInv_noise (nb : Nat → List Nat) (n : Nat) (c : Int) (lab : List Int) (i : Nat)
    (inv : OInv nb n c lab) (hi : i < n) (h0 : lab.getD i 0 = 0) (hnc : ¬ 3 ≤ (nb i).length) :
    OInv nb n c (lab.set i (-1)) := by
  have hg : ∀ p, (lab.set i (-1)).getD p 0 = if p = i then -1 else lab.getD p 0 :=
    fun p => getD_set_int lab i p (-1) (by rw [inv.len]; exact hi)
  have hne : ∀ p, 0 < lab.getD p 0 → p ≠ i := by
    intro p hp e; subst e; omega
  refine ⟨by simp [inv.len], inv.cpos, ?_, ?_, ?_, ?_, ?_⟩
  · intro p hp
    rw [hg]
    split
    · right; left; rfl
    · exact inv.range p hp
  · intro p hp
    rw [hg]
    split
    · rename_i e; subst e; intro _; exact hnc
    · exact inv.noise p hp
  · intro q hq hcq
    rw [hg]
    split
    · intro h; omega
    · intro h1 r hr
      obtain ⟨h3, h4⟩ := inv.closed q hq hcq h1 r hr
      rw [hg, if_neg (hne r h3)]
      exact ⟨h3, h4⟩
  · intro a b ha hb hca hcb
    rw [hg, hg]
    split
    · intro h; omega
    · split
      · intro h1 h2; omega
      · exact inv.chain a b ha hb hca hcb
  · intro p hp
    rw [hg]
    split
    · intro h; omega
    · intro h1 hnc'
      obtain ⟨q, hqp, hcq, hlq⟩ := inv.border p hp h1 hnc'
      refine ⟨q, hqp, hcq, ?_⟩
      rw [hg, if_neg (hne q (by omega))]
      exact hlq

theorem OInv_start (nb : Nat → List Nat) (n : Nat) (lab : List Int) (hlen : lab.length = n)
    (h0 : ∀ p, lab.getD p 0 = 0) : OInv nb n 1 lab := by
  refine ⟨hlen, le_refl _, ?_, ?_, ?_, ?_, ?_⟩
  · intro p _; left; exact h0 p
  · intro p _ h; rw [h0 p] at h; omega
  · intro q _ _ h; rw [h0 q] at h; omega
  · intro a b _ _ _ _ h; rw [h0 a] at h; omega
  · intro p _ h; rw [h0 p] at h; omega

theorem dbscanLoop_spec (nb : Nat → List Nat) (app : List Nat → List Nat → List Nat) (n : Nat)
    (hnb : NbOK nb n) (happ : AppOK app) (fuel : Nat) (hfuel : n + n * n < fuel) :
    ∀ (rest : List Nat) (c : Int) (lab : List Int), OInv nb n c lab → (∀ i ∈ rest, i < n) →
      ∃ out c', dbscanLoop nb app fuel rest c lab = some out ∧ OInv nb n c' out ∧
        Keeps lab out ∧ ∀ i ∈ rest, out.getD i 0 ≠ 0 := by
  intro rest
  induction rest with
  | nil =>
    intro c lab inv _
    exact ⟨lab, c, rfl, inv, Keeps.keeps_refl lab, fun i hi => by simp at hi⟩
  | cons i rest ih =>
    intro c lab inv hrest
    have hi : i < n := hrest i (List.mem_cons_self _ _)
    have hrest' : ∀ j ∈ rest, j < n := fun j hj => hrest j (List.mem_cons_of_mem _ hj)
    rw [dbscanLoop]
    split
    · rename_i hne
      obtain ⟨out, c', h1, h2, h3, h4⟩ := ih c lab inv hrest'
      refine ⟨out, c', h1, h2, h3, ?_⟩
      intro j hj
      rcases List.mem_cons.mp hj with e | hj
      · subst e; exact (h3 j).2 hne
      · exact h4 j hj
    · rename_i h0
      have h0 : lab.getD i 0 = 0 := by simpa using h0
      split
      · rename_i hnc
        have inv' := OInv_noise nb n c lab i inv hi h0 (by omega)
        have hk : Keeps lab (lab.set i (-1)) := Keeps.set lab i (-1) (by omega) (by omega)
        obtain ⟨out, c', h1, h2, h3, h4⟩ := ih c _ inv' hrest'
        refine ⟨out, c', h1, h2, hk.keeps_trans h3, ?_⟩
        intro j hj
        rcases List.mem_cons.mp hj with e | hj
        · subst e
          refine (h3 j).2 ?_
          rw [getD_set_int lab j j (-1) (by rw [inv.len]; exact hi)]
          simp
        · exact h4 j hj
      · rename_i hcore
        have hcore : 3 ≤ (nb i).length := by omega
        have hcpos := inv.cpos
        have linv := LInv_init nb n hnb c i lab inv hi h0 hcore
        have hk : Keeps lab (lab.set i c) := Keeps.set lab i c (by omega) (by omega)
        have hpot := pot_le nb n hnb.len (lab.set i c) 0
        have hlen : (lab.set i c).length = n := by simp [inv.len]
        rw [hlen] at hpot
        obtain ⟨out1, hout1⟩ := expandLoop_some nb app n hnb happ c (by omega) fuel 0 (nb i)
          (lab.set i c) hlen (fun x hx => hnb.lt i x hx) (by have := hnb.len i; omega)
        rw [hout1]
        obtain ⟨inv1, hk1⟩ := expandLoop_inv nb app n hnb happ c i fuel 0 (nb i) _ out1 linv hout1
        obtain ⟨out, c', h1, h2, h3, h4⟩ := ih (c + 1) out1 inv1 hrest'
        refine ⟨out, c', h1, h2, (hk.keeps_trans hk1).keeps_trans h3, ?_⟩
        intro j hj
        rcases List.mem_cons.mp hj with e | hj
        · subst e
          refine (hk1.keeps_trans h3 j).2 ?_
          rw [getD_set_int lab j j c (by rw [inv.len]; exact hi)]
          simp; omega
        · exact h4 j hj

/-- Result of the generic engine started from all-zero labels. -/
theorem dbscan_spec (nb : Nat → List Nat) (app : List Nat → List Nat → List Nat) (n : Nat)
    (hnb : NbOK nb n) (happ : AppOK app) (fuel : Nat) (hfuel : n + n * n < fuel)
    (lab : List Int) (hlen : lab.length = n) (h0 : ∀ p, lab.getD p 0 = 0) :
    ∃ out c, dbscanLoop nb app fuel (List.range n) 1 lab = some out ∧ OInv nb n c out ∧
      ∀ p, p < n → out.getD p 0 ≠ 0 := by
  obtain ⟨out, c, h1, h2, _, h4⟩ := dbscanLoop_spec nb app n hnb happ fuel hfuel (List.range n) 1
    lab (OInv_start nb n lab hlen h0) (fun i hi => List.mem_range.mp hi)
  exact ⟨out, c, h1, h2, fun p hp => h4 p (List.mem_range.mpr hp)⟩

theorem OInv.pos_of_core {nb : Nat → List Nat} {n : Nat} {c : Int} {out : List Int}
    (inv : OInv nb n c out) (hnz : ∀ p, p < n → out.getD p 0 ≠ 0) {p : Nat} (hp : p < n)
    (hc : 3 ≤ (nb p).length) : 0 < out.getD p 0 := by
  have h1 := inv.range p hp
  have h2 := hnz p hp
  have h3 := inv.noise p hp
  rcases h1 with h | h | h
  · exact absurd h h2
  · exact absurd hc (h3 h)
  · omega

theorem OInv.noise_iff {nb : Nat → List Nat} {n : Nat} {c : Int} {out : List Int}
    (hnb : NbOK nb n) (inv : OInv nb n c out) (hnz : ∀ p, p < n → out.getD p 0 ≠ 0)
    {p : Nat} (hp : p < n) :
    out.getD p 0 = -1 ↔ (¬ 3 ≤ (nb p).length ∧ ∀ q ∈ nb p, ¬ 3 ≤ (nb q).length) := by
  constructor
  · intro h
    refine ⟨inv.noise p hp h, fun q hq hcq => ?_⟩
    have hqn := hnb.lt p q hq
    have hqpos := inv.pos_of_core hnz hqn hcq
    have := (inv.closed q hqn hcq hqpos p (hnb.symm p q hp hq)).1
    omega
  · rintro ⟨h1, h2⟩
    have hr := inv.range p hp
    have := hnz p hp
    rcases hr with h | h | h
    · omega
    · exact h
    · obtain ⟨q, hq, hcq, _⟩ := inv.border p hp (by omega) h1
      exact absurd hcq (h2 q hq)

theorem OInv.core_same_iff {nb : Nat → List Nat} {n : Nat} {c : Int} {out : List Int}
    (inv : OInv nb n c out) (hnz : ∀ p, p < n → out.getD p 0 ≠ 0)
    {a b : Nat} (ha : IsCore nb n a) (hb : IsCore nb n b) :
    out.getD a 0 = out.getD b 0 ↔ CoreChain nb n a b := by
  constructor
  · intro h
    exact inv.chain a b ha.1 hb.1 ha.2 hb.2 (inv.pos_of_core hnz ha.1 ha.2) h
  · intro h
    clear hb
    induction h with
    | refl => rfl
    | @tail x y _ hedge ih =>
      obtain ⟨hx, hy, hxy⟩ := hedge
      have := (inv.closed x hx.1 hx.2 (inv.pos_of_core hnz hx.1 hx.2) y hxy).2 hy.2
      rw [ih, this]

end Core
end DBSCAN

namespace DBSCAN

theorem length_filter_le_of_imp (l : List Nat) (p q : Nat → Bool)
    (h : ∀ a ∈ l, p a = true → q a = true) : (l.filter p).length ≤ (l.filter q).length := by
  induction l with
  | nil => simp
  | cons a l ih =>
    have ih' := ih (fun b hb => h b (List.mem_cons_of_mem _ hb))
    have ha := h a (List.mem_cons_self _ _)
    simp only [List.filter_cons]
    cases hp : p a with
    | true =>
      rw [ha hp]
      simpa using ih'
    | false =>
      cases hq : q a with
      | true => simp only [Bool.false_eq_true, if_false, if_true, List.length_cons]; omega
      | false => simpa using ih'

theorem length_filter_excluding (l : List Nat) (q f : Nat → Bool) (p : Nat)
    (hf : ∀ j, j ≠ p → f j = q j) :
    (l.filter q).length ≤ (l.filter f).length + l.count p := by
  induction l with
  | nil => simp
  | cons a l ih =>
    simp only [List.filter_cons, List.count_cons]
    by_cases hap : a = p
    · subst hap
      cases hq : q a <;> cases hfa : f a <;> simp <;> omega
    · rw [hf a hap]
      have : (a == p) = false := by simpa using hap
      cases hq : q a <;> simp [this] <;> omega

theorem count_range_le_one (n p : Nat) : (List.range n).count p ≤ 1 :=
  List.nodup_iff_count_le_one.mp (List.nodup_range n) p

namespace Core

theorem getD_set_or (lab : List Int) (i p : Nat) (c : Int) :
    (lab.set i c).getD p 0 = lab.getD p 0 ∨ (lab.set i c).getD p 0 = c := by
  by_cases hi : i < lab.length
  · rw [getD_set_int lab i p c hi]
    split
    · exact Or.inr rfl
    · exact Or.inl rfl
  · rw [List.set_eq_of_length_le (by omega)]
    exact Or.inl rfl

/-- One expansion only writes the id `c`, over labels that were not positive. -/
theorem expandLoop_range (nb : Nat → List Nat) (app : List Nat → List Nat → List Nat) (c : Int)
    (hc : 0 < c) :
    ∀ (fuel i : Nat) (front : List Nat) (lab out : List Int),
      expandLoop nb app fuel i front c lab = some out →
      out.length = lab.length ∧ Keeps lab out ∧
        ∀ p, out.getD p 0 = lab.getD p 0 ∨ out.getD p 0 = c := by
  intro fuel
  induction fuel with
  | zero => intro i front lab out h; simp [expandLoop] at h
  | succ fuel ih =>
    intro i front lab out h
    rw [expandLoop] at h
    cases hcur : front[i]? with
    | none =>
      rw [hcur] at h
      simp only [Option.some.injEq] at h
      subst h
      exact ⟨rfl, Keeps.keeps_refl _, fun _ => Or.inl rfl⟩
    | some cur =>
      rw [hcur] at h
      simp only at h
      have hstep : ∀ front', expandLoop nb app fuel (i + 1) front' c (lab.set cur c) = some out →
          (lab.getD cur 0 = 0 ∨ lab.getD cur 0 = -1) →
          out.length = lab.length ∧ Keeps lab out ∧
            ∀ p, out.getD p 0 = lab.getD p 0 ∨ out.getD p 0 = c := by
        intro front' h' hrel
        obtain ⟨h1, h2, h3⟩ := ih _ _ _ _ h'
        have hle : lab.getD cur 0 ≤ 0 := by rcases hrel with e | e <;> omega
        refine ⟨by rw [h1]; simp, (Keeps.set lab cur c (by omega) hle).keeps_trans h2,
          fun p => ?_⟩
        rcases h3 p with e | e
        · rcases getD_set_or lab cur p c with e' | e'
          · exact Or.inl (e.trans e')
          · exact Or.inr (e.trans e')
        · exact Or.inr e
      split at h
      · rename_i hrel
        split at h
        · exact hstep _ h hrel
        · exact hstep _ h hrel
      · exact ih _ _ _ _ h



/-- The outer loop keeps positive labels and never clears a label. -/
theorem dbscanLoop_keeps (nb : Nat → List Nat) (app : List Nat → List Nat → List Nat)
    (fuel : Nat) :
    ∀ (rest : List Nat) (c : Int) (lab out : List Int), 0 < c →
      dbscanLoop nb app fuel rest c lab = some out → Keeps lab out := by
  intro rest
  induction rest with
  | nil =>
    intro c lab out _ h
    simp only [dbscanLoop, Option.some.injEq] at h
    subst h
    exact Keeps.keeps_refl _
  | cons i rest ih =>
    intro c lab out hc h
    rw [dbscanLoop] at h
    split at h
    · exact ih c lab out hc h
    · rename_i h0
      have h0 : lab.getD i 0 = 0 := by simpa using h0
      split at h
      · exact (Keeps.set lab i (-1) (by omega) (by omega)).keeps_trans (ih c _ out hc h)
      · split at h
        · simp at h
        · rename_i lab1 hex
          obtain ⟨_, hk, _⟩ := expandLoop_range nb app c hc _ _ _ _ _ hex
          exact ((Keeps.set lab i c (by omega) (by omega)).keeps_trans hk).keeps_trans
            (ih (c + 1) lab1 out (by omega) h)

/-- When point 0 is a core point of an all-unclassified dataset it ends with id 1. -/
theorem first_label (nb : Nat → List Nat) (app : List Nat → List Nat → List Nat)
    (fuel n : Nat) (lab out : List Int) (hn : 0 < n) (hlen : lab.length = n)
    (h0 : ∀ p, lab.getD p 0 = 0) (hcore : 3 ≤ (nb 0).length)
    (h : dbscanLoop nb app fuel (List.range n) 1 lab = some out) : out.getD 0 0 = 1 := by
  obtain ⟨m, rfl⟩ : ∃ m, n = m + 1 := ⟨n - 1, by omega⟩
  rw [List.range_eq_range', List.range'_succ, dbscanLoop] at h
  rw [if_neg (fun hne => hne (h0 0)), if_neg (by omega)] at h
  split at h
  · simp at h
  · rename_i lab1 hex
    obtain ⟨_, hk, _⟩ := expandLoop_range nb app 1 (by omega) _ _ _ _ _ hex
    have hk2 := dbscanLoop_keeps nb app fuel _ _ _ _ (by omega) h
    have hset : (lab.set 0 1).getD 0 0 = 1 := by
      rw [getD_set_int lab 0 0 1 (by omega), if_pos rfl]
    have h1 : lab1.getD 0 0 = 1 := by rw [(hk 0).1 (by rw [hset]; omega), hset]
    rw [(hk2 0).1 (by rw [h1]; omega), h1]



theorem dbscanLoop_some (nb : Nat → List Nat) (app : List Nat → List Nat → List Nat) (n : Nat)
    (hnb : NbOK nb n) (happ : AppOK app) (fuel : Nat) (hfuel : n + n * n < fuel) :
    ∀ (rest : List Nat) (c : Int) (lab : List Int), 0 < c → lab.length = n →
      (∀ i ∈ rest, i < n) → ∃ out, dbscanLoop nb app fuel rest c lab = some out := by
  intro rest
  induction rest with
  | nil => intro c lab _ _ _; exact ⟨lab, rfl⟩
  | cons i rest ih =>
    intro c lab hc hlen hrest
    have hrest' : ∀ j ∈ rest, j < n := fun j hj => hrest j (List.mem_cons_of_mem _ hj)
    rw [dbscanLoop]
    split
    · exact ih c lab hc hlen hrest'
    · split
      · exact ih c _ hc (by simp [hlen]) hrest'
      · have hlen' : (lab.set i c).length = n := by simp [hlen]
        have hpot := pot_le nb n hnb.len (lab.set i c) 0
        rw [hlen'] at hpot
        have hn := hnb.len i
        obtain ⟨lab1, h1⟩ := expandLoop_some nb app n hnb happ c hc fuel 0 (nb i) (lab.set i c)
          hlen' (fun x hx => hnb.lt i x hx) (by omega)
        rw [h1]
        have hl1 := (expandLoop_range nb app c hc fuel 0 (nb i) _ _ h1).1
        exact ih (c + 1) lab1 (by omega) (by omega) hrest'

end Core

end DBSCAN

namespace DBSCAN

theorem length_setClusterId (data : Dataset) (i : Nat) (c : Int) :
    (setClusterId data i c).length = data.length := by
  induction data generalizing i with
  | nil => rfl
  | cons p ps ih => cases i <;> simp [setClusterId, ih]

theorem labelsOf_setClusterId (data : Dataset) (i : Nat) (c : Int) :
    labelsOf (setClusterId data i c) = (labelsOf data).set i c := by
  induction data generalizing i with
  | nil => rfl
  | cons p ps ih =>
    cases i with
    | zero => simp [setClusterId, labelsOf]
    | succ i =>
      have := ih i
      simp only [labelsOf] at this
      simp [setClusterId, labelsOf, this]

theorem coordsOf_setClusterId (data : Dataset) (i : Nat) (c : Int) :
    coordsOf (setClusterId data i c) = coordsOf data := by
  induction data generalizing i with
  | nil => rfl
  | cons p ps ih =>
    cases i with
    | zero => simp [setClusterId, coordsOf]
    | succ i =>
      have := ih i
      simp only [coordsOf] at this
      simp [setClusterId, coordsOf, this]

theorem length_labelsOf (data : Dataset) : (labelsOf data).length = data.length := by
  simp [labelsOf]

theorem length_coordsOf (data : Dataset) : (coordsOf data).length = data.length := by
  simp [coordsOf]

theorem clusterId_eq_getD (data : Dataset) (i : Nat) :
    clusterId data i = (labelsOf data).getD i 0 := by
  induction data generalizing i with
  | nil => simp [clusterId, getPoint, labelsOf, UNCLASSIFIED]
  | cons p ps ih =>
    cases i with
    | zero => simp [clusterId, getPoint, labelsOf]
    | succ i =>
      have := ih i
      simp only [clusterId, getPoint, labelsOf] at this
      simpa [clusterId, getPoint, labelsOf] using this

theorem getPoint_coords (data : Dataset) (i : Nat) :
    ((getPoint data i).x, (getPoint data i).y) = (coordsOf data).getD i (0, 0) := by
  induction data generalizing i with
  | nil => simp [getPoint, coordsOf]
  | cons p ps ih =>
    cases i with
    | zero => simp [getPoint, coordsOf]
    | succ i =>
      have := ih i
      simp only [getPoint, coordsOf] at this
      simpa [getPoint, coordsOf] using this

theorem withinEpsilon_congr (d d' : Dataset) (h : coordsOf d = coordsOf d') (a b : Nat) :
    withinEpsilon (getPoint d a) (getPoint d b) = withinEpsilon (getPoint d' a) (getPoint d' b) := by
  have ha := getPoint_coords d a
  have hb := getPoint_coords d b
  rw [h] at ha hb
  rw [← getPoint_coords d' a] at ha
  rw [← getPoint_coords d' b] at hb
  simp only [Prod.mk.injEq] at ha hb
  simp only [withinEpsilon, euclidean_distance, ha.1, ha.2, hb.1, hb.2]

theorem Dbl.neg_neg (d : Dbl) : Dbl.neg (Dbl.neg d) = d := by
  cases d <;> simp [Dbl.neg]

theorem Dbl.round_neg (q : ℚ) : Dbl.round (-q) = Dbl.neg (Dbl.round q) := by
  unfold Dbl.round
  by_cases h0 : q = 0
  · subst h0
    simp [Dbl.neg]
  · have h0' : ¬ -q = 0 := fun h => h0 (neg_eq_zero.mp h)
    rw [if_neg h0, if_neg h0']
    have hnum : (-q).num.natAbs = q.num.natAbs := by simp
    have hden : (-q).den = q.den := by simp
    rw [hnum, hden]
    by_cases hp : 0 < q
    · have hn : ¬ 0 < -q := by
        intro h
        have := neg_pos.mp h
        exact absurd hp (not_lt.mpr (le_of_lt this))
      rw [if_pos hp, if_neg hn]
    · have hn : 0 < -q := by
        have : q < 0 := lt_of_le_of_ne (not_lt.mp hp) h0
        exact neg_pos.mpr this
      rw [if_neg hp, if_pos hn, Dbl.neg_neg]

theorem Dbl.sub_swap (a b : Dbl) : Dbl.sub b a = Dbl.neg (Dbl.sub a b) := by
  cases a with
  | fin x =>
    cases b with
    | fin y =>
      simp only [Dbl.sub]
      rw [← Dbl.round_neg]
      congr 1
      ring
    | inf t => simp [Dbl.sub, Dbl.neg]
    | nan => simp [Dbl.sub, Dbl.neg]
  | inf s =>
    cases b with
    | fin y => simp [Dbl.sub, Dbl.neg]
    | inf t =>
      simp only [Dbl.sub]
      by_cases h : s = t
      · subst h; simp [Dbl.neg]
      · have h' : ¬ t = s := fun e => h e.symm
        rw [if_neg h, if_neg h']
        cases s <;> cases t <;> simp_all [Dbl.neg]
    | nan => simp [Dbl.sub, Dbl.neg]
  | nan => cases b <;> simp [Dbl.sub, Dbl.neg]

theorem Dbl.pow2_neg (d : Dbl) : Dbl.pow2 (Dbl.neg d) = Dbl.pow2 d := by
  cases d with
  | fin x => simp [Dbl.pow2, Dbl.neg]
  | inf s => simp [Dbl.pow2, Dbl.neg]
  | nan => simp [Dbl.pow2, Dbl.neg]

theorem euclidean_distance_symm (p q : Point) :
    euclidean_distance p q = euclidean_distance q p := by
  unfold euclidean_distance
  rw [Dbl.sub_swap q.x p.x, Dbl.sub_swap q.y p.y, Dbl.pow2_neg, Dbl.pow2_neg]

theorem withinEpsilon_symm (p q : Point) : withinEpsilon p q = withinEpsilon q p := by
  unfold withinEpsilon
  rw [euclidean_distance_symm]

theorem Dbl.round_zero : Dbl.round 0 = Dbl.fin 0 := by
  simp [Dbl.round]

theorem Dbl.sub_self_fin (a : ℚ) : Dbl.sub (Dbl.fin a) (Dbl.fin a) = Dbl.fin 0 := by
  simp [Dbl.sub, Dbl.round_zero]

theorem Dbl.pow2_zero : Dbl.pow2 (Dbl.fin 0) = Dbl.fin 0 := by
  simp [Dbl.pow2, Dbl.round_zero]

theorem Dbl.add_zero_zero : Dbl.add (Dbl.fin 0) (Dbl.fin 0) = Dbl.fin 0 := by
  simp [Dbl.add, Dbl.round_zero]

theorem Dbl.sqrt_zero : Dbl.sqrt (Dbl.fin 0) = Dbl.fin 0 := by
  simp [Dbl.sqrt]

theorem Dbl.zero_le_epsilon : Dbl.le (Dbl.fin 0) EPSILON = true := by
  show Dbl.le (Dbl.fin 0) (Dbl.fin ((1 : Nat) : ℚ)) = true
  simp [Dbl.le]

theorem withinEpsilon_self (p : Point) (hp : p.Finite) : withinEpsilon p p = true := by
  obtain ⟨x, y, c⟩ := p
  obtain ⟨hx, hy⟩ := hp
  cases x with
  | fin a =>
    cases y with
    | fin b =>
      simp only [withinEpsilon, euclidean_distance, Dbl.sub_self_fin]
      rw [Dbl.pow2_zero, Dbl.add_zero_zero, Dbl.sqrt_zero, Dbl.zero_le_epsilon]
    | inf s => exact absurd hy (fun h => h)
    | nan => exact absurd hy (fun h => h)
  | inf s => exact absurd hx (fun h => h)
  | nan => exact absurd hx (fun h => h)

/-- A point with a NaN or infinite coordinate is not within `EPSILON` of itself: the difference
of the coordinate with itself is a NaN. -/
theorem withinEpsilon_self_of_not_finite (p : Point) (hp : ¬ p.Finite) :
    withinEpsilon p p = false := by
  obtain ⟨x, y, c⟩ := p
  cases x with
  | fin a =>
    cases y with
    | fin b => exact absurd ⟨trivial, trivial⟩ hp
    | inf s =>
      simp only [withinEpsilon, euclidean_distance, Dbl.sub_self_fin]
      simp [Dbl.sub, Dbl.pow2, Dbl.round_zero, Dbl.add, Dbl.sqrt, Dbl.le]
    | nan =>
      simp only [withinEpsilon, euclidean_distance, Dbl.sub_self_fin]
      simp [Dbl.sub, Dbl.pow2, Dbl.round_zero, Dbl.add, Dbl.sqrt, Dbl.le]
  | inf s =>
    cases y <;> simp [withinEpsilon, euclidean_distance, Dbl.sub, Dbl.pow2, Dbl.add, Dbl.sqrt,
      Dbl.le]
  | nan =>
    cases y <;> simp [withinEpsilon, euclidean_distance, Dbl.sub, Dbl.pow2, Dbl.add, Dbl.sqrt,
      Dbl.le]

theorem length_eq_of_coords (d d' : Dataset) (h : coordsOf d = coordsOf d') :
    d.length = d'.length := by
  rw [← length_coordsOf d, h, length_coordsOf]

theorem labelsOf_allUnclassified (data : Dataset) (h : AllUnclassified data) (p : Nat) :
    (labelsOf data).getD p 0 = 0 := by
  rw [← clusterId_eq_getD]
  unfold clusterId getPoint
  by_cases hp : p < data.length
  · rw [List.getD_eq_getElem _ _ hp]
    exact h _ (List.getElem_mem hp)
  · rw [List.getD_eq_default _ _ (by omega)]
    rfl

namespace Seq

theorem seq_regionQuery_congr (d d' : Dataset) (h : coordsOf d = coordsOf d') (p : Nat) :
    regionQuery p d = regionQuery p d' := by
  unfold regionQuery
  rw [length_eq_of_coords d d' h]
  congr 1
  funext i
  exact withinEpsilon_congr d d' h p i

theorem seq_mem_regionQuery (data : Dataset) (p q : Nat) :
    q ∈ regionQuery p data ↔
      q < data.length ∧ withinEpsilon (getPoint data p) (getPoint data q) = true := by
  simp [regionQuery]

theorem seq_nbOK (data : Dataset) : Core.NbOK (fun p => regionQuery p data) data.length := by
  refine ⟨?_, ?_, ?_⟩
  · intro p q hq
    exact ((seq_mem_regionQuery data p q).mp hq).1
  · intro p q hp hq
    have := (seq_mem_regionQuery data p q).mp hq
    exact (seq_mem_regionQuery data q p).mpr ⟨hp, by rw [withinEpsilon_symm]; exact this.2⟩
  · intro p
    simp only [regionQuery]
    exact (List.length_filter_le _ _).trans (by simp)

theorem seq_appOK : Core.AppOK appendIfAbsent := by
  intro F N
  induction N generalizing F with
  | nil => exact ⟨[], by simp [appendIfAbsent]⟩
  | cons x rest ih =>
    unfold appendIfAbsent
    split
    · rename_i hx
      obtain ⟨E, h1, h2, h3, h4⟩ := ih F
      refine ⟨E, h1, ?_, ?_, ?_⟩
      · intro y hy
        rcases List.mem_cons.mp hy with e | hy
        · subst e; exact Or.inl hx
        · exact h2 y hy
      · intro y hy; exact List.mem_cons_of_mem _ (h3 y hy)
      · simp only [List.length_cons]; omega
    · obtain ⟨E, h1, h2, h3, h4⟩ := ih (F ++ [x])
      refine ⟨x :: E, by simp [h1], ?_, ?_, ?_⟩
      · intro y hy
        rcases List.mem_cons.mp hy with e | hy
        · subst e; exact Or.inr (List.mem_cons_self _ _)
        · rcases h2 y hy with h | h
          · rcases List.mem_append.mp h with h | h
            · exact Or.inl h
            · simp only [List.mem_singleton] at h
              subst h; exact Or.inr (List.mem_cons_self _ _)
          · exact Or.inr (List.mem_cons_of_mem _ h)
      · intro y hy
        rcases List.mem_cons.mp hy with e | hy
        · subst e; exact List.mem_cons_self _ _
        · exact List.mem_cons_of_mem _ (h3 y hy)
      · simp only [List.length_cons]; omega

theorem seq_expandLoop_bridge (alloc : Realloc) (data0 : Dataset) :
    ∀ (fuel i : Nat) (c : Int) (st : Loop),
      coordsOf st.data = coordsOf data0 →
      (expandLoop alloc fuel i c st).map (fun o => labelsOf o.data) =
          Core.expandLoop (fun p => regionQuery p data0) appendIfAbsent fuel i st.neighbors c
            (labelsOf st.data)
        ∧ ∀ out, expandLoop alloc fuel i c st = some out →
            coordsOf out.data = coordsOf data0 := by
  intro fuel
  induction fuel with
  | zero => intro i c st _; simp [expandLoop, Core.expandLoop]
  | succ fuel ih =>
    intro i c st hco
    rw [expandLoop, Core.expandLoop]
    cases hcur : st.neighbors[i]? with
    | none =>
      simp only [Option.map_some', Option.some.injEq, true_and]
      intro out h; rw [← h]; exact hco
    | some cur =>
      have hco1 : coordsOf (setClusterId st.data cur c) = coordsOf data0 := by
        rw [coordsOf_setClusterId]; exact hco
      have hrq : regionQuery cur (setClusterId st.data cur c) = regionQuery cur data0 :=
        seq_regionQuery_congr _ _ hco1 cur
      simp only [clusterId_eq_getD, UNCLASSIFIED, NOISE, MIN_POINTS, hrq]
      split
      · split
        · have := ih (i + 1) c
            { data := setClusterId st.data cur c
              writes := st.writes ++ [⟨cur, (labelsOf st.data).getD cur 0, c⟩]
              neighbors := appendIfAbsent st.neighbors (regionQuery cur data0)
              size := max st.size (st.neighbors.length + (regionQuery cur data0).length)
              moved := st.moved ||
                alloc c i st.size (st.neighbors.length + (regionQuery cur data0).length)
              visits := st.visits ++ [⟨cur, (labelsOf st.data).getD cur 0,
                (regionQuery cur data0).length, st.neighbors,
                appendIfAbsent st.neighbors (regionQuery cur data0)⟩] } hco1
          simp only [labelsOf_setClusterId] at this
          exact this
        · have := ih (i + 1) c
            { data := setClusterId st.data cur c
              writes := st.writes ++ [⟨cur, (labelsOf st.data).getD cur 0, c⟩]
              neighbors := st.neighbors
              size := st.size
              moved := st.moved
              visits := st.visits ++ [⟨cur, (labelsOf st.data).getD cur 0,
                (regionQuery cur data0).length, st.neighbors, st.neighbors⟩] } hco1
          simp only [labelsOf_setClusterId] at this
          exact this
      · exact ih (i + 1) c st hco

/-- The frontier loop never clears the mark of a moved block, and sets it only on an answer
`true` of the allocator. -/
theorem seq_expandLoop_moved (alloc : Realloc) :
    ∀ (fuel i : Nat) (c : Int) (st out : Loop), expandLoop alloc fuel i c st = some out →
      (st.moved = true → out.moved = true) ∧
      ((∀ c i s r, alloc c i s r = false) → st.moved = false → out.moved = false) := by
  intro fuel
  induction fuel with
  | zero => intro i c st out h; simp [expandLoop] at h
  | succ fuel ih =>
    intro i c st out h
    rw [expandLoop] at h
    cases hcur : st.neighbors[i]? with
    | none =>
      rw [hcur] at h
      simp only [Option.some.injEq] at h
      subst h
      exact ⟨fun h => h, fun _ h => h⟩
    | some cur =>
      rw [hcur] at h
      simp only at h
      split at h
      · split at h
        · obtain ⟨h1, h2⟩ := ih _ _ _ _ h
          refine ⟨fun hm => h1 (by simp [hm]), fun ha hm => h2 ha ?_⟩
          simp [hm, ha]
        · obtain ⟨h1, h2⟩ := ih _ _ _ _ h
          exact ⟨fun hm => h1 hm, fun ha hm => h2 ha hm⟩
      · exact ih _ _ _ _ h

/-- The run of `dbscan` follows the engine over labels: when the latter returns, the run ends,
with the same labels if it ends by finishing the loop. -/
theorem seq_dbscanLoop_bridge (alloc : Realloc) (data0 : Dataset) (fuel : Nat) :
    ∀ (rest : List Nat) (c : Int) (run : Run) (outl : List Int),
      coordsOf run.data = coordsOf data0 →
      Core.dbscanLoop (fun p => regionQuery p data0) appendIfAbsent fuel rest c
        (labelsOf run.data) = some outl →
      ∃ e out, dbscanLoop alloc fuel rest c run = some (e, out) ∧
        coordsOf out.data = coordsOf data0 ∧
        (e = Ending.finished → labelsOf out.data = outl) := by
  intro rest
  induction rest with
  | nil =>
    intro c run outl hco h
    simp only [Core.dbscanLoop, Option.some.injEq] at h
    exact ⟨Ending.finished, run, rfl, hco, fun _ => h⟩
  | cons i rest ih =>
    intro c run outl hco h
    rw [Core.dbscanLoop] at h
    rw [dbscanLoop]
    have hrq : regionQuery i run.data = regionQuery i data0 := seq_regionQuery_congr _ _ hco i
    simp only [clusterId_eq_getD, UNCLASSIFIED, NOISE, MIN_POINTS, hrq]
    split
    · rename_i h0
      rw [if_pos h0] at h
      exact ih c run outl hco h
    · rename_i h0
      rw [if_neg h0] at h
      split
      · rename_i hlt
        rw [if_pos hlt] at h
        have hco1 : coordsOf (setClusterId run.data i (-1)) = coordsOf data0 := by
          rw [coordsOf_setClusterId]; exact hco
        exact ih c
          { data := setClusterId run.data i (-1)
            writes := run.writes ++ [⟨i, (labelsOf run.data).getD i 0, -1⟩]
            expansions := run.expansions } outl hco1
          (by simp only [labelsOf_setClusterId]; exact h)
      · rename_i hge
        rw [if_neg hge] at h
        have hco1 : coordsOf (setClusterId run.data i c) = coordsOf data0 := by
          rw [coordsOf_setClusterId]; exact hco
        have hb := seq_expandLoop_bridge alloc data0 fuel 0 c
          { data := setClusterId run.data i c
            writes := run.writes ++ [⟨i, (labelsOf run.data).getD i 0, c⟩]
            neighbors := regionQuery i data0
            size := regionQueryCapacity (regionQuery i data0).length
            moved := false
            visits := [] } hco1
        simp only [labelsOf_setClusterId] at hb
        unfold expandCluster
        simp only [clusterId_eq_getD]
        cases hex : Core.expandLoop (fun p => regionQuery p data0) appendIfAbsent fuel 0
            (regionQuery i data0) c ((labelsOf run.data).set i c) with
        | none => rw [hex] at h; simp at h
        | some lab1 =>
          rw [hex] at h hb
          simp only at h
          cases hst : expandLoop alloc fuel 0 c
            { data := setClusterId run.data i c
              writes := run.writes ++ [⟨i, (labelsOf run.data).getD i 0, c⟩]
              neighbors := regionQuery i data0
              size := regionQueryCapacity (regionQuery i data0).length
              moved := false
              visits := [] } with
          | none => rw [hst] at hb; simp at hb
          | some st =>
            rw [hst] at hb
            simp only [Option.map_some', Option.some.injEq] at hb
            simp only
            by_cases hm : st.moved = true
            · rw [if_pos hm]
              exact ⟨_, _, rfl, hb.2 st rfl, fun e => by cases e⟩
            · rw [if_neg hm]
              exact ih (c + 1)
                { data := st.data
                  writes := st.writes
                  expansions := run.expansions ++
                    [⟨i, regionQuery i data0, st.visits, st.neighbors⟩] } outl (hb.2 st rfl)
                (by simp only; rw [hb.1]; exact h)

/-- With an allocator that never moves a block, the run finishes its loop. -/
theorem seq_dbscanLoop_inPlace (alloc : Realloc) (ha : ∀ c i s r, alloc c i s r = false)
    (fuel : Nat) :
    ∀ (rest : List Nat) (c : Int) (run : Run) (e : Ending) (out : Run),
      dbscanLoop alloc fuel rest c run = some (e, out) → e = Ending.finished := by
  intro rest
  induction rest with
  | nil =>
    intro c run e out h
    simp only [dbscanLoop, Option.some.injEq, Prod.mk.injEq] at h
    exact h.1.symm
  | cons i rest ih =>
    intro c run e out h
    rw [dbscanLoop] at h
    split at h
    · exact ih _ _ _ _ h
    · simp only at h
      split at h
      · exact ih _ _ _ _ h
      · split at h
        · simp at h
        · rename_i st hst
          have hm := (seq_expandLoop_moved alloc fuel 0 c _ st hst).2 ha rfl
          rw [if_neg (by simp [hm])] at h
          exact ih _ _ _ _ h

end Seq

end DBSCAN

namespace DBSCAN

theorem Dbl.ite_inf_fin_cases (c : Prop) [Decidable c] (r : ℚ) :
    (∃ r', (if c then Dbl.inf false else Dbl.fin r) = Dbl.fin r') ∨
      (if c then Dbl.inf false else Dbl.fin r) = Dbl.inf false := by
  by_cases h : c
  · rw [if_pos h]; exact Or.inr rfl
  · rw [if_neg h]; exact Or.inl ⟨_, rfl⟩

theorem Dbl.roundPos_cases (p q : Nat) :
    (∃ r, Dbl.roundPos p q = Dbl.fin r) ∨ Dbl.roundPos p q = Dbl.inf false := by
  unfold Dbl.roundPos
  dsimp only
  exact Dbl.ite_inf_fin_cases _ _

theorem Dbl.round_cases_of_nonneg (q : ℚ) (h : 0 ≤ q) :
    (∃ r, Dbl.round q = Dbl.fin r) ∨ Dbl.round q = Dbl.inf false := by
  unfold Dbl.round
  split
  · exact Or.inl ⟨_, rfl⟩
  · rename_i h0
    rw [if_pos (lt_of_le_of_ne h (Ne.symm h0))]
    exact Dbl.roundPos_cases _ _

/-- A square is a finite number, the positive infinity or a NaN. -/
theorem Dbl.pow2_cases (d : Dbl) :
    (∃ r, Dbl.pow2 d = Dbl.fin r) ∨ Dbl.pow2 d = Dbl.inf false ∨ Dbl.pow2 d = Dbl.nan := by
  cases d with
  | fin a =>
    rcases Dbl.round_cases_of_nonneg (a * a) (mul_self_nonneg a) with h | h
    · exact Or.inl h
    · exact Or.inr (Or.inl h)
  | inf s => exact Or.inr (Or.inl rfl)
  | nan => exact Or.inr (Or.inr rfl)

theorem Dbl.pow2_sub_of_not_finite (a b : Dbl) (h : ¬ a.IsFinite) :
    Dbl.pow2 (Dbl.sub a b) = Dbl.inf false ∨ Dbl.pow2 (Dbl.sub a b) = Dbl.nan := by
  cases a with
  | fin x => exact absurd trivial h
  | inf s =>
    cases b with
    | fin y => exact Or.inl rfl
    | inf t =>
      by_cases hst : s = t
      · right; simp [Dbl.sub, hst, Dbl.pow2]
      · left; simp [Dbl.sub, hst, Dbl.pow2]
    | nan => exact Or.inr rfl
  | nan => exact Or.inr rfl

/-- The distance test fails as soon as one of the two squares is an infinity or a NaN. -/
theorem Dbl.le_sqrt_add_false (X Y : Dbl)
    (hX : (∃ r, X = Dbl.fin r) ∨ X = Dbl.inf false ∨ X = Dbl.nan)
    (hY : (∃ r, Y = Dbl.fin r) ∨ Y = Dbl.inf false ∨ Y = Dbl.nan)
    (hbad : (X = Dbl.inf false ∨ X = Dbl.nan) ∨ (Y = Dbl.inf false ∨ Y = Dbl.nan)) :
    Dbl.le (Dbl.sqrt (Dbl.add X Y)) EPSILON = false := by
  rcases hX with ⟨x, rfl⟩ | rfl | rfl <;> rcases hY with ⟨y, rfl⟩ | rfl | rfl
  · rcases hbad with (h | h) | (h | h) <;> cases h
  all_goals rfl

/-- Points within `EPSILON` of each other, as the code tests it, have finite coordinates. -/
theorem withinEpsilon_finite_left (p q : Point) (h : withinEpsilon p q = true) : p.Finite := by
  by_contra hf
  have hX := Dbl.pow2_cases (Dbl.sub p.x q.x)
  have hY := Dbl.pow2_cases (Dbl.sub p.y q.y)
  have hbad : (Dbl.pow2 (Dbl.sub p.x q.x) = Dbl.inf false ∨
        Dbl.pow2 (Dbl.sub p.x q.x) = Dbl.nan) ∨
      (Dbl.pow2 (Dbl.sub p.y q.y) = Dbl.inf false ∨ Dbl.pow2 (Dbl.sub p.y q.y) = Dbl.nan) := by
    by_cases hx : p.x.IsFinite
    · have hy : ¬ p.y.IsFinite := fun hy => hf ⟨hx, hy⟩
      exact Or.inr (Dbl.pow2_sub_of_not_finite _ _ hy)
    · exact Or.inl (Dbl.pow2_sub_of_not_finite _ _ hx)
  have := Dbl.le_sqrt_add_false _ _ hX hY hbad
  unfold withinEpsilon euclidean_distance at h
  rw [this] at h
  cases h

theorem withinEpsilon_self_of_within (p q : Point) (h : withinEpsilon p q = true) :
    withinEpsilon p p = true :=
  withinEpsilon_self p (withinEpsilon_finite_left p q h)

end DBSCAN

namespace DBSCAN

theorem clusterId_setClusterId_ne (data : Dataset) (i k : Nat) (c : Int) (h : k ≠ i) :
    clusterId (setClusterId data i c) k = clusterId data k := by
  rw [clusterId_eq_getD, clusterId_eq_getD, labelsOf_setClusterId]
  by_cases hi : i < (labelsOf data).length
  · rw [Core.getD_set_int _ _ _ _ hi, if_neg h]
  · rw [List.set_eq_of_length_le (by omega)]

theorem clusterId_setClusterId_self (data : Dataset) (i : Nat) (c : Int) (hi : i < data.length) :
    clusterId (setClusterId data i c) i = c := by
  rw [clusterId_eq_getD, labelsOf_setClusterId,
    Core.getD_set_int _ _ _ _ (by rw [length_labelsOf]; exact hi), if_pos rfl]

theorem clusterId_setClusterId_or (data : Dataset) (i p : Nat) (c : Int) :
    clusterId (setClusterId data i c) p = clusterId data p ∨
      clusterId (setClusterId data i c) p = c := by
  rw [clusterId_eq_getD, clusterId_eq_getD, labelsOf_setClusterId]
  exact Core.getD_set_or _ _ _ _

end DBSCAN

namespace DBSCAN

namespace Seq

/-- Invariant rule for the frontier loop: a property of the loop state that every relabelling
iteration preserves holds when the loop is left. -/
theorem seq_expand_rule (alloc : Realloc) (c : Int) (I : Loop → Prop)
    (hstep : ∀ (st : Loop) (k cur : Nat), I st → st.neighbors[k]? = some cur →
      (clusterId st.data cur = UNCLASSIFIED ∨ clusterId st.data cur = NOISE) →
      (MIN_POINTS ≤ (regionQuery cur (setClusterId st.data cur c)).length →
        I (visitGrow alloc c k cur st)) ∧
      (¬ MIN_POINTS ≤ (regionQuery cur (setClusterId st.data cur c)).length →
        I (visitKeep c cur st))) :
    ∀ (fuel i : Nat) (st out : Loop), I st → expandLoop alloc fuel i c st = some out →
      I out := by
  intro fuel
  induction fuel with
  | zero => intro i st out _ h; simp [expandLoop] at h
  | succ fuel ih =>
    intro i st out hI h
    rw [expandLoop] at h
    cases hcur : st.neighbors[i]? with
    | none =>
      rw [hcur] at h
      simp only [Option.some.injEq] at h
      subst h
      exact hI
    | some cur =>
      rw [hcur] at h
      simp only at h
      by_cases hrel : clusterId st.data cur = UNCLASSIFIED ∨ clusterId st.data cur = NOISE
      · simp only [if_pos hrel] at h
        obtain ⟨h1, h2⟩ := hstep st i cur hI hcur hrel
        by_cases hc : MIN_POINTS ≤ (regionQuery cur (setClusterId st.data cur c)).length
        · simp only [if_pos hc] at h
          exact ih _ _ _ (h1 hc) h
        · simp only [if_neg hc] at h
          exact ih _ _ _ (h2 hc) h
      · simp only [if_neg hrel] at h
        exact ih _ _ _ hI h

/-- Invariant rule for a run of `dbscan`, however it ends: `J` describes the state between two
iterations of the outer loop, `I` the state inside the expansion entered from the state `run`
with seed `i` and cluster id `c`. -/
theorem seq_run_rule (alloc : Realloc) (n fuel : Nat) (J : Run → Prop)
    (I : Run → Nat → Int → Loop → Prop)
    (hnoise : ∀ run i, J run → i < n → clusterId run.data i = UNCLASSIFIED →
      (regionQuery i run.data).length < MIN_POINTS → J (noiseStep i run))
    (hstart : ∀ run i c, J run → i < n → clusterId run.data i = UNCLASSIFIED →
      MIN_POINTS ≤ (regionQuery i run.data).length → 0 < c → I run i c (startLoop i c run))
    (hstep : ∀ run i c (st : Loop) (k cur : Nat), 0 < c → I run i c st →
      st.neighbors[k]? = some cur →
      (clusterId st.data cur = UNCLASSIFIED ∨ clusterId st.data cur = NOISE) →
      (MIN_POINTS ≤ (regionQuery cur (setClusterId st.data cur c)).length →
        I run i c (visitGrow alloc c k cur st)) ∧
      (¬ MIN_POINTS ≤ (regionQuery cur (setClusterId st.data cur c)).length →
        I run i c (visitKeep c cur st)))
    (hend : ∀ run i c st, I run i c st → J (closeRun i run st)) :
    ∀ (rest : List Nat) (c : Int) (run : Run) (e : Ending) (out : Run), 0 < c → J run →
      (∀ i ∈ rest, i < n) → dbscanLoop alloc fuel rest c run = some (e, out) → J out := by
  intro rest
  induction rest with
  | nil =>
    intro c run e out _ hJ _ h
    simp only [dbscanLoop, Option.some.injEq, Prod.mk.injEq] at h
    rw [← h.2]
    exact hJ
  | cons i rest ih =>
    intro c run e out hc hJ hrest h
    have hi : i < n := hrest i (List.mem_cons_self _ _)
    have hrest' : ∀ j ∈ rest, j < n := fun j hj => hrest j (List.mem_cons_of_mem _ hj)
    rw [dbscanLoop] at h
    split at h
    · exact ih c run e out hc hJ hrest' h
    · rename_i h0
      have h0 : clusterId run.data i = UNCLASSIFIED := by simpa using h0
      simp only at h
      split at h
      · rename_i hlt
        exact ih c _ e out hc (hnoise run i hJ hi h0 hlt) hrest' h
      · rename_i hge
        split at h
        · simp at h
        · rename_i st hex
          have hI0 := hstart run i c hJ hi h0 (by omega) hc
          have hI1 := seq_expand_rule alloc c (I run i c)
            (fun st k cur => hstep run i c st k cur hc) fuel 0 _ st hI0 hex
          have hJ1 := hend run i c st hI1
          split at h
          · simp only [Option.some.injEq, Prod.mk.injEq] at h
            rw [← h.2]
            exact hJ1
          · exact ih (c + 1) _ e out (by omega) hJ1 hrest' h

/-- The run of `dbscan` ends for every dataset and every allocator, given enough fuel. -/
theorem seq_dbscan_ends (alloc : Realloc) (data : Dataset) (fuel : Nat)
    (hfuel : fuelFor data.length ≤ fuel) :
    ∃ e run, dbscan alloc fuel data = some (e, run) ∧ coordsOf run.data = coordsOf data := by
  have hf : data.length + data.length * data.length < fuel := by
    unfold fuelFor at hfuel; omega
  obtain ⟨outl, h⟩ := Core.dbscanLoop_some (fun p => regionQuery p data) appendIfAbsent
    data.length (seq_nbOK data) seq_appOK fuel hf (List.range data.length) 1 (labelsOf data)
    (by decide) (length_labelsOf data) (fun i hi => List.mem_range.mp hi)
  obtain ⟨e, run, h1, h2, _⟩ := seq_dbscanLoop_bridge alloc data fuel (List.range data.length) 1
    ⟨data, [], []⟩ outl rfl h
  exact ⟨e, run, h1, h2⟩

/-- The call `expandCluster` returns whenever the cluster id is positive and the frontier holds
valid indices, whatever the allocator does. -/
theorem seq_expandCluster_returns (alloc : Realloc) (run : Run) (fuel point_idx : Nat)
    (neighbors : List Nat) (size : Nat) (cluster_id : Int) (hc : 0 < cluster_id)
    (hF : ∀ x ∈ neighbors, x < run.data.length)
    (hfuel : neighbors.length + run.data.length * run.data.length < fuel) :
    ∃ out, expandCluster alloc fuel point_idx neighbors size cluster_id run = some out := by
  have hlen : (labelsOf (setClusterId run.data point_idx cluster_id)).length
      = run.data.length := by
    rw [length_labelsOf, length_setClusterId]
  have hpot := Core.pot_le (fun p => regionQuery p run.data) run.data.length
    (seq_nbOK run.data).len (labelsOf (setClusterId run.data point_idx cluster_id)) 0
  rw [hlen] at hpot
  obtain ⟨outl, h⟩ := Core.expandLoop_some (fun p => regionQuery p run.data) appendIfAbsent
    run.data.length (seq_nbOK run.data) seq_appOK cluster_id hc fuel 0 neighbors
    (labelsOf (setClusterId run.data point_idx cluster_id)) hlen hF (by omega)
  have hb := (seq_expandLoop_bridge alloc run.data fuel 0 cluster_id
    { data := setClusterId run.data point_idx cluster_id
      writes := run.writes ++ [⟨point_idx, clusterId run.data point_idx, cluster_id⟩]
      neighbors := neighbors
      size := size
      moved := false
      visits := [] } (coordsOf_setClusterId run.data point_idx cluster_id)).1
  simp only at hb
  rw [h] at hb
  unfold expandCluster
  cases hd : expandLoop alloc fuel 0 cluster_id
    { data := setClusterId run.data point_idx cluster_id
      writes := run.writes ++ [⟨point_idx, clusterId run.data point_idx, cluster_id⟩]
      neighbors := neighbors
      size := size
      moved := false
      visits := [] } with
  | none => rw [hd] at hb; simp at hb
  | some out => exact ⟨out, rfl⟩

/-- With an allocator that never moves a block the run of `dbscan` finishes its loop. -/
theorem seq_dbscan_inPlace (alloc : Realloc) (ha : ∀ c i s r, alloc c i s r = false)
    (fuel : Nat) (data : Dataset) (e : Ending) (run : Run)
    (h : dbscan alloc fuel data = some (e, run)) : e = Ending.finished :=
  seq_dbscanLoop_inPlace alloc ha fuel _ _ _ _ _ h

end Seq

end DBSCAN

namespace DBSCAN

theorem near_symm (data : Dataset) {a b : Nat} (h : Near data a b) : Near data b a :=
  ⟨h.2.1, h.1, by rw [withinEpsilon_symm]; exact h.2.2⟩

theorem three_le_length_of_mem {l : List Nat} {a b c : Nat} (ha : a ∈ l) (hb : b ∈ l)
    (hc : c ∈ l) (hab : a ≠ b) (hac : a ≠ c) (hbc : b ≠ c) : 3 ≤ l.length := by
  have hnd : [a, b, c].Nodup := by simp [hab, hac, hbc]
  have hsub : [a, b, c] ⊆ l := by
    intro x hx
    simp only [List.mem_cons, List.mem_singleton, List.not_mem_nil, or_false] at hx
    rcases hx with e | e | e <;> subst e <;> assumption
  exact (List.subperm_of_subset hnd hsub).length_le

namespace Seq

theorem seq_chain_iff_core (data : Dataset) (a b : Nat) :
    ChainOf (IsCore data) data a b ↔
      Core.CoreChain (fun p => regionQuery p data) data.length a b := by
  constructor
  · intro h
    refine Relation.ReflTransGen.mono ?_ h
    intro x y ⟨hx, hy, hn⟩
    exact ⟨hx, hy, (seq_mem_regionQuery data x y).mpr ⟨hn.2.1, hn.2.2⟩⟩
  · intro h
    refine Relation.ReflTransGen.mono ?_ h
    intro x y ⟨hx, hy, hn⟩
    have := (seq_mem_regionQuery data x y).mp hn
    exact ⟨hx, hy, hx.1, this.1, this.2⟩

end Seq

end DBSCAN

namespace DBSCAN

theorem frontierRun_snoc : ∀ (vs : List Visit) (S F : List Nat) (v : Visit),
    FrontierRun S vs F → v.before = F → FrontierRun S (vs ++ [v]) v.after := by
  intro vs
  induction vs with
  | nil =>
    intro S F v h hv
    have hS : S = F := h
    exact ⟨by rw [hv, hS], rfl⟩
  | cons w ws ih =>
    intro S F v h hv
    exact ⟨h.1, ih _ _ _ h.2 hv⟩

theorem FrontOK.length_le {n : Nat} {F : List Nat} (h : FrontOK n F) : F.length ≤ n := by
  have hsub : F ⊆ List.range n := fun x hx => List.mem_range.mpr (h.2 x hx)
  have := (List.subperm_of_subset h.1 hsub).length_le
  simpa using this

namespace Seq

theorem frontOK_regionQuery (data : Dataset) (p : Nat) :
    FrontOK data.length (regionQuery p data) :=
  ⟨List.Nodup.filter _ (List.nodup_range _),
    fun x hx => ((seq_mem_regionQuery data p x).mp hx).1⟩

theorem frontOK_appendIfAbsent (n : Nat) : ∀ (N F : List Nat), FrontOK n F →
    (∀ x ∈ N, x < n) → FrontOK n (appendIfAbsent F N) := by
  intro N
  induction N with
  | nil => intro F hF _; exact hF
  | cons x rest ih =>
    intro F hF hN
    have hrest : ∀ y ∈ rest, y < n := fun y hy => hN y (List.mem_cons_of_mem _ hy)
    unfold appendIfAbsent
    split
    · exact ih F hF hrest
    · rename_i hx
      refine ih _ ⟨?_, ?_⟩ hrest
      · refine List.Nodup.append hF.1 (List.nodup_singleton x) ?_
        intro a ha hax
        rw [List.mem_singleton] at hax
        exact hx (hax ▸ ha)
      · intro y hy
        rcases List.mem_append.mp hy with h | h
        · exact hF.2 y h
        · rw [List.mem_singleton] at h
          rw [h]
          exact hN x (List.mem_cons_self _ _)

theorem replay_append (d : Dataset) (l1 l2 : List Write) :
    replay d (l1 ++ l2) = replay (replay d l1) l2 := by
  induction l1 generalizing d with
  | nil => rfl
  | cons w ws ih => simp only [List.cons_append, replay]; exact ih _

theorem faithful_append (d : Dataset) (l1 l2 : List Write) :
    Faithful d (l1 ++ l2) ↔ Faithful d l1 ∧ Faithful (replay d l1) l2 := by
  induction l1 generalizing d with
  | nil => simp [Faithful, replay]
  | cons w ws ih =>
    show (_ ∧ Faithful _ (ws ++ l2)) ↔ _
    rw [ih]
    simp only [Faithful, replay, and_assoc]

theorem replay_keeps_positive (d : Dataset) (l : List Write) (hf : Faithful d l)
    (hold : ∀ w ∈ l, w.old = UNCLASSIFIED ∨ w.old = NOISE) (k : Nat)
    (hk : 0 < clusterId d k) : clusterId (replay d l) k = clusterId d k := by
  induction l generalizing d with
  | nil => rfl
  | cons w ws ih =>
    obtain ⟨h1, h2⟩ := hf
    have hw := hold w (List.mem_cons_self _ _)
    have hne : k ≠ w.idx := by
      intro e; subst e
      rw [h1] at hk
      rcases hw with h | h <;> rw [h] at hk <;> simp [UNCLASSIFIED, NOISE] at hk
    have hstep := clusterId_setClusterId_ne d w.idx k w.new hne
    simp only [replay]
    rw [ih _ h2 (fun w' hw' => hold w' (List.mem_cons_of_mem _ hw')) (by rw [hstep]; exact hk),
      hstep]

theorem replay_other (d : Dataset) (l : List Write) (k : Nat) (h : ∀ w ∈ l, w.idx ≠ k) :
    clusterId (replay d l) k = clusterId d k := by
  induction l generalizing d with
  | nil => rfl
  | cons w ws ih =>
    simp only [replay]
    rw [ih _ (fun w' hw' => h w' (List.mem_cons_of_mem _ hw')),
      clusterId_setClusterId_ne d w.idx k w.new (fun e => h w (List.mem_cons_self _ _) e.symm)]

theorem logOK_write (data0 data : Dataset) (writes : List Write) (idx : Nat) (c : Int)
    (h : LogOK data0 data writes)
    (hold : clusterId data idx = UNCLASSIFIED ∨ clusterId data idx = NOISE) :
    LogOK data0 (setClusterId data idx c) (writes ++ [⟨idx, clusterId data idx, c⟩]) := by
  obtain ⟨h1, h2, h3⟩ := h
  refine ⟨?_, ?_, ?_⟩
  · rw [faithful_append]
    exact ⟨h1, by simp [Faithful, h2]⟩
  · rw [replay_append, h2]
    rfl
  · intro w hw
    simp only [List.mem_append, List.mem_singleton] at hw
    rcases hw with hw | hw
    · exact h3 w hw
    · subst hw; exact hold

/-- Whole-run invariant of the writes: however the run ends, its record of writes is sound. -/
theorem seq_run_log (alloc : Realloc) (data0 : Dataset) (fuel : Nat) (e : Ending) (out : Run)
    (h : dbscan alloc fuel data0 = some (e, out)) : LogOK data0 out.data out.writes := by
  refine seq_run_rule alloc data0.length fuel
    (fun run => LogOK data0 run.data run.writes)
    (fun _ _ _ st => LogOK data0 st.data st.writes)
    ?_ ?_ ?_ ?_ (List.range data0.length) 1 ⟨data0, [], []⟩ e out (by decide)
    ⟨trivial, rfl, fun w hw => by simp at hw⟩ (fun i hi => List.mem_range.mp hi) h
  · intro run i hJ _ h0 _
    exact logOK_write data0 run.data run.writes i NOISE hJ (Or.inl h0)
  · intro run i c hJ _ h0 _ _
    exact logOK_write data0 run.data run.writes i c hJ (Or.inl h0)
  · intro run i c st k cur _ hI _ hrel
    exact ⟨fun _ => logOK_write data0 st.data st.writes cur c hI hrel,
      fun _ => logOK_write data0 st.data st.writes cur c hI hrel⟩
  · intro run i c st hI
    exact hI

/-- Whole-run invariant behind the deduplicated frontier: however the run ends, every recorded
expansion has kept its frontier free of repetitions. -/
theorem seq_run_dedup (alloc : Realloc) (data0 : Dataset) (fuel : Nat) (e : Ending) (out : Run)
    (h : dbscan alloc fuel data0 = some (e, out)) :
    ∀ x ∈ out.expansions, ExpDedup data0 x := by
  have key := seq_run_rule alloc data0.length fuel
    (fun run => coordsOf run.data = coordsOf data0 ∧ ∀ x ∈ run.expansions, ExpDedup data0 x)
    (fun run i _ st => coordsOf run.data = coordsOf data0 ∧ coordsOf st.data = coordsOf data0 ∧
      (∀ x ∈ run.expansions, ExpDedup data0 x) ∧
      FrontierRun (regionQuery i run.data) st.visits st.neighbors ∧
      FrontOK data0.length st.neighbors ∧ ∀ v ∈ st.visits, VisitDedup data0 v)
    ?_ ?_ ?_ ?_ (List.range data0.length) 1 ⟨data0, [], []⟩ e out (by decide)
    ⟨rfl, fun x hx => by simp at hx⟩ (fun i hi => List.mem_range.mp hi) h
  · exact key.2
  · intro run i hJ _ _ _
    exact ⟨by show coordsOf (setClusterId run.data i NOISE) = _
              rw [coordsOf_setClusterId]; exact hJ.1, hJ.2⟩
  · intro run i c hJ _ _ _ _
    have hrq : regionQuery i run.data = regionQuery i data0 := seq_regionQuery_congr _ _ hJ.1 i
    refine ⟨hJ.1, ?_, hJ.2, rfl, ?_, fun v hv => by simp [startLoop] at hv⟩
    · show coordsOf (setClusterId run.data i c) = _
      rw [coordsOf_setClusterId]; exact hJ.1
    · show FrontOK data0.length (regionQuery i run.data)
      rw [hrq]; exact frontOK_regionQuery data0 i
  · intro run i c st k cur _ hI _ _
    obtain ⟨hco0, hco, hes, hrun, hF, hvs⟩ := hI
    have hco1 : coordsOf (setClusterId st.data cur c) = coordsOf data0 := by
      rw [coordsOf_setClusterId]; exact hco
    have hrq : regionQuery cur (setClusterId st.data cur c) = regionQuery cur data0 :=
      seq_regionQuery_congr _ _ hco1 cur
    have hF1 : FrontOK data0.length (appendIfAbsent st.neighbors (regionQuery cur data0)) :=
      frontOK_appendIfAbsent _ _ _ hF (frontOK_regionQuery data0 cur).2
    constructor
    · intro _
      refine ⟨hco0, hco1, hes, ?_, ?_, ?_⟩
      · exact frontierRun_snoc _ _ _ _ hrun rfl
      · show FrontOK data0.length
          (appendIfAbsent st.neighbors (regionQuery cur (setClusterId st.data cur c)))
        rw [hrq]; exact hF1
      · intro v hv
        rcases List.mem_append.mp hv with hv | hv
        · exact hvs v hv
        · rw [List.mem_singleton] at hv
          rw [hv]
          refine ⟨hF, ?_, Or.inr ?_⟩
          · show FrontOK data0.length
              (appendIfAbsent st.neighbors (regionQuery cur (setClusterId st.data cur c)))
            rw [hrq]; exact hF1
          · show appendIfAbsent st.neighbors (regionQuery cur (setClusterId st.data cur c)) =
              appendIfAbsent st.neighbors (regionQuery cur data0)
            rw [hrq]
    · intro _
      refine ⟨hco0, hco1, hes, frontierRun_snoc _ _ _ _ hrun rfl, hF, ?_⟩
      intro v hv
      rcases List.mem_append.mp hv with hv | hv
      · exact hvs v hv
      · rw [List.mem_singleton] at hv
        rw [hv]
        exact ⟨hF, hF, Or.inl rfl⟩
  · intro run i c st hI
    obtain ⟨hco0, hco, hes, hrun, hF, hvs⟩ := hI
    have hrq : regionQuery i run.data = regionQuery i data0 := seq_regionQuery_congr _ _ hco0 i
    refine ⟨hco, ?_⟩
    intro x hx
    rcases List.mem_append.mp hx with hx | hx
    · exact hes x hx
    · rw [List.mem_singleton] at hx
      rw [hx]
      refine ⟨?_, hrun, ?_, hF, hvs⟩
      · exact hrq
      · show FrontOK data0.length (regionQuery i run.data)
        rw [hrq]; exact frontOK_regionQuery data0 i

/-- Whole-run invariant behind the late relabelling of `NOISE` points: in a run started from an
all-`UNCLASSIFIED` dataset a point labelled `NOISE` has fewer than `MIN_POINTS` neighbours, so a
visit that reads `NOISE` leaves the frontier as it was. -/
theorem seq_run_quiet (alloc : Realloc) (data0 : Dataset) (hU : AllUnclassified data0)
    (fuel : Nat) (e : Ending) (out : Run) (h : dbscan alloc fuel data0 = some (e, out)) :
    ∀ x ∈ out.expansions,
      FrontierRun x.start x.visits x.final ∧ ∀ v ∈ x.visits, VisitQuiet data0 v := by
  have hstart0 : ∀ p, clusterId data0 p = NOISE → (regionQuery p data0).length < MIN_POINTS := by
    intro p hp
    rw [clusterId_eq_getD, labelsOf_allUnclassified data0 hU p] at hp
    exact absurd hp (by decide)
  have key := seq_run_rule alloc data0.length fuel
    (fun run => coordsOf run.data = coordsOf data0 ∧
      (∀ p, clusterId run.data p = NOISE → (regionQuery p data0).length < MIN_POINTS) ∧
      ∀ x ∈ run.expansions,
        FrontierRun x.start x.visits x.final ∧ ∀ v ∈ x.visits, VisitQuiet data0 v)
    (fun run i _ st => coordsOf st.data = coordsOf data0 ∧
      (∀ p, clusterId st.data p = NOISE → (regionQuery p data0).length < MIN_POINTS) ∧
      (∀ x ∈ run.expansions,
        FrontierRun x.start x.visits x.final ∧ ∀ v ∈ x.visits, VisitQuiet data0 v) ∧
      FrontierRun (regionQuery i run.data) st.visits st.neighbors ∧
      ∀ v ∈ st.visits, VisitQuiet data0 v)
    ?_ ?_ ?_ ?_ (List.range data0.length) 1 ⟨data0, [], []⟩ e out (by decide)
    ⟨rfl, hstart0, fun x hx => by simp at hx⟩ (fun i hi => List.mem_range.mp hi) h
  · exact key.2.2
  · intro run i hJ _ _ hlt
    refine ⟨?_, ?_, hJ.2.2⟩
    · show coordsOf (setClusterId run.data i NOISE) = _
      rw [coordsOf_setClusterId]; exact hJ.1
    · intro p hp
      have hp : clusterId (setClusterId run.data i NOISE) p = NOISE := hp
      by_cases hpi : p = i
      · rw [hpi, ← seq_regionQuery_congr run.data data0 hJ.1 i]
        exact hlt
      · rw [clusterId_setClusterId_ne run.data i p NOISE hpi] at hp
        exact hJ.2.1 p hp
  · intro run i c hJ _ _ _ hc
    refine ⟨?_, ?_, hJ.2.2, rfl, fun v hv => by simp [startLoop] at hv⟩
    · show coordsOf (setClusterId run.data i c) = _
      rw [coordsOf_setClusterId]; exact hJ.1
    · intro p hp
      have hp : clusterId (setClusterId run.data i c) p = NOISE := hp
      rcases clusterId_setClusterId_or run.data i p c with h1 | h1
      · rw [h1] at hp
        exact hJ.2.1 p hp
      · rw [h1] at hp
        unfold NOISE at hp
        omega
  · intro run i c st k cur hc hI _ hrel
    obtain ⟨hco, hnoise, hes, hrun, hvs⟩ := hI
    have hco1 : coordsOf (setClusterId st.data cur c) = coordsOf data0 := by
      rw [coordsOf_setClusterId]; exact hco
    have hrq : regionQuery cur (setClusterId st.data cur c) = regionQuery cur data0 :=
      seq_regionQuery_congr _ _ hco1 cur
    have hnoise1 : ∀ p, clusterId (setClusterId st.data cur c) p = NOISE →
        (regionQuery p data0).length < MIN_POINTS := by
      intro p hp
      rcases clusterId_setClusterId_or st.data cur p c with h1 | h1
      · rw [h1] at hp
        exact hnoise p hp
      · rw [h1] at hp
        unfold NOISE at hp
        omega
    constructor
    · intro hge
      refine ⟨hco1, hnoise1, hes, frontierRun_snoc _ _ _ _ hrun rfl, ?_⟩
      intro v hv
      rcases List.mem_append.mp hv with hv | hv
      · exact hvs v hv
      · rw [List.mem_singleton] at hv
        rw [hv]
        have hnot : clusterId st.data cur ≠ NOISE := fun hn => by
          have := hnoise cur hn
          rw [hrq] at hge
          omega
        refine ⟨hrel, congrArg List.length hrq, fun hn => absurd hn hnot, fun _ => ⟨?_, hge⟩⟩
        rcases hrel with h0 | h0
        · exact h0
        · exact absurd h0 hnot
    · intro hlt
      refine ⟨hco1, hnoise1, hes, frontierRun_snoc _ _ _ _ hrun rfl, ?_⟩
      intro v hv
      rcases List.mem_append.mp hv with hv | hv
      · exact hvs v hv
      · rw [List.mem_singleton] at hv
        rw [hv]
        exact ⟨hrel, congrArg List.length hrq, fun _ => ⟨Nat.lt_of_not_le hlt, rfl⟩,
          fun hne => absurd rfl hne⟩
  · intro run i c st hI
    obtain ⟨hco, hnoise, hes, hrun, hvs⟩ := hI
    refine ⟨hco, hnoise, ?_⟩
    intro x hx
    rcases List.mem_append.mp hx with hx | hx
    · exact hes x hx
    · rw [List.mem_singleton] at hx
      rw [hx]
      exact ⟨hrun, hvs⟩

end Seq

end DBSCAN

namespace DBSCAN
namespace Par

theorem RootAt.functionalAt {P : List Nat} {i r k : Nat} (h : RootAt P i r k) :
    ∀ {r' k' : Nat}, RootAt P i r' k' → r = r' ∧ k = k' := by
  induction h with
  | root r hr =>
    intro r' k' h'
    cases h' with
    | root _ _ => exact ⟨rfl, rfl⟩
    | step _ p _ _ hp hne _ =>
      rw [hr] at hp
      exact absurd (Option.some.inj hp).symm hne
  | step i p r k hp hne _ ih =>
    intro r' k' h'
    cases h' with
    | root _ hr =>
      rw [hr] at hp
      exact absurd (Option.some.inj hp).symm hne
    | step _ p' _ k'' hp' _ hrest =>
      rw [hp] at hp'
      cases hp'
      obtain ⟨h1, h2⟩ := ih hrest
      exact ⟨h1, by rw [h2]⟩

theorem RootAt.isRootAt {P : List Nat} {i r k : Nat} (h : RootAt P i r k) : P[r]? = some r := by
  induction h with
  | root r hr => exact hr
  | step _ _ _ _ _ _ _ ih => exact ih

theorem RootAt.ltAt {P : List Nat} {i r k : Nat} (h : RootAt P i r k) : i < P.length := by
  cases h with
  | root _ hr => exact (List.getElem?_eq_some_iff.mp hr).1
  | step _ _ _ _ hp _ _ => exact (List.getElem?_eq_some_iff.mp hp).1

theorem RootAt.suffix {P : List Nat} {i r k : Nat} (h : RootAt P i r k) :
    ∀ j, j ≤ k → ∃ x, RootAt P x r j := by
  induction h with
  | root r hr =>
    intro j hj
    have : j = 0 := by omega
    subst this
    exact ⟨r, RootAt.root r hr⟩
  | step i p r k hp hne hrest ih =>
    intro j hj
    by_cases hjk : j ≤ k
    · exact ih j hjk
    · have : j = k + 1 := by omega
      subst this
      exact ⟨i, RootAt.step i p r k hp hne hrest⟩

/-- A path of parent links to a root visits each index at most once, so it has fewer links than
the forest has indices. -/
theorem RootAt.depth_lt {P : List Nat} {i r k : Nat} (h : RootAt P i r k) : k < P.length := by
  by_contra hk
  have hk : P.length ≤ k := by omega
  have hex : ∀ j : Fin (P.length + 1), ∃ x : Fin P.length, RootAt P x.1 r j.1 := by
    intro j
    obtain ⟨x, hx⟩ := h.suffix j.1 (by have := j.2; omega)
    exact ⟨⟨x, hx.ltAt⟩, hx⟩
  choose f hf using hex
  obtain ⟨a, b, hab, hfab⟩ := Fintype.exists_ne_map_eq_of_card_lt f (by simp)
  have h1 := hf a
  have h2 := hf b
  rw [hfab] at h1
  have := (h1.functionalAt h2).2
  exact hab (Fin.ext this)

theorem Root.functional {P : List Nat} {i r r' : Nat} (h : Root P i r) (h' : Root P i r') :
    r = r' := by
  obtain ⟨k, hk⟩ := h
  obtain ⟨k', hk'⟩ := h'
  exact (hk.functionalAt hk').1

theorem Root.isRoot {P : List Nat} {i r : Nat} (h : Root P i r) : P[r]? = some r := by
  obtain ⟨k, hk⟩ := h
  exact hk.isRootAt

theorem Root.lt {P : List Nat} {i r : Nat} (h : Root P i r) : i < P.length := by
  obtain ⟨k, hk⟩ := h
  exact hk.ltAt

theorem Root.root_lt {P : List Nat} {i r : Nat} (h : Root P i r) : r < P.length :=
  (List.getElem?_eq_some_iff.mp h.isRoot).1

theorem Root.self {P : List Nat} {r : Nat} (h : P[r]? = some r) : Root P r r :=
  ⟨0, RootAt.root r h⟩

theorem Root.of_root {P : List Nat} {i r : Nat} (h : Root P i r) : Root P r r :=
  Root.self h.isRoot

theorem Root.step {P : List Nat} {i p r : Nat} (hp : P[i]? = some p) (hne : p ≠ i)
    (h : Root P p r) : Root P i r := by
  obtain ⟨k, hk⟩ := h
  exact ⟨k + 1, RootAt.step i p r k hp hne hk⟩

theorem SameRoots.roots_refl (P : List Nat) : SameRoots P P :=
  ⟨rfl, fun _ _ => Iff.rfl⟩

theorem SameRoots.roots_trans {P Q R : List Nat} (h1 : SameRoots P Q) (h2 : SameRoots Q R) :
    SameRoots P R :=
  ⟨h1.1.trans h2.1, fun x r => (h1.2 x r).trans (h2.2 x r)⟩

theorem SameRoots.forest {P Q : List Nat} (h : SameRoots P Q) (hf : Forest P) : Forest Q := by
  intro i hi
  obtain ⟨r, hr⟩ := hf i (by rw [h.1]; exact hi)
  exact ⟨r, (h.2 i r).mp hr⟩

theorem SameRoots.sameSet {P Q : List Nat} (h : SameRoots P Q) (x y : Nat) :
    SameSet P x y ↔ SameSet Q x y := by
  constructor
  · rintro ⟨r, h1, h2⟩; exact ⟨r, (h.2 x r).mp h1, (h.2 y r).mp h2⟩
  · rintro ⟨r, h1, h2⟩; exact ⟨r, (h.2 x r).mpr h1, (h.2 y r).mpr h2⟩

/-- Redirecting a non-root index straight to its root leaves every root unchanged. -/
theorem sameRoots_compress (P : List Nat) (i r : Nat) (hir : Root P i r) (hne : r ≠ i) :
    SameRoots P (P.set i r) := by
  have hi : i < P.length := hir.lt
  have hrr : P[r]? = some r := hir.isRoot
  have hset : ∀ x, (P.set i r)[x]? = if x = i then some r else P[x]? := by
    intro x
    rw [List.getElem?_set]
    by_cases hx : i = x
    · subst hx; simp [hi]
    · have : ¬ x = i := fun e => hx e.symm
      simp [hx, this]
  have hroot' : (P.set i r)[r]? = some r := by rw [hset, if_neg hne]; exact hrr
  refine ⟨by simp, fun x r' => ⟨?_, ?_⟩⟩
  · rintro ⟨k, hk⟩
    induction hk with
    | root r' hr' =>
      have hne' : r' ≠ i := by
        intro e; subst e
        exact hne (hir.functional (Root.self hr'))
      exact Root.self (by rw [hset, if_neg hne']; exact hr')
    | step x p r' k hp hpne hrest ih =>
      by_cases hx : x = i
      · subst hx
        have : r' = r := Root.functional ⟨k + 1, RootAt.step x p r' k hp hpne hrest⟩ hir
        subst this
        exact Root.step (by rw [hset, if_pos rfl]) hne (Root.self hroot')
      · exact Root.step (by rw [hset, if_neg hx]; exact hp) hpne ih
  · rintro ⟨k, hk⟩
    induction hk with
    | root r' hr' =>
      have hne' : r' ≠ i := by
        intro e; subst e
        rw [hset, if_pos rfl] at hr'
        exact hne (Option.some.inj hr')
      rw [hset, if_neg hne'] at hr'
      exact Root.self hr'
    | step x p r' k hp hpne hrest ih =>
      by_cases hx : x = i
      · subst hx
        rw [hset, if_pos rfl] at hp
        cases hp
        have : r = r' := Root.functional (Root.self hrr) ih
        subst this
        exact hir
      · rw [hset, if_neg hx] at hp
        exact Root.step hp hpne ih

/-- With fuel above the depth of `i`, `uf_find` returns the root of `i` and a forest with the
same roots. -/
theorem uf_find_spec : ∀ (fuel : Nat) (P : List Nat) (i r k : Nat), RootAt P i r k → k < fuel →
    ∃ P', uf_find fuel P i = some (P', r) ∧ SameRoots P P' := by
  intro fuel
  induction fuel with
  | zero => intro P i r k _ h; omega
  | succ fuel ih =>
    intro P i r k h hk
    rw [uf_find]
    cases h with
    | root _ hr =>
      rw [hr]
      simp only [if_true]
      exact ⟨P, rfl, SameRoots.roots_refl P⟩
    | step _ p _ k' hp hne hrest =>
      rw [hp]
      simp only [if_neg hne]
      obtain ⟨P1, h1, h2⟩ := ih P p r k' hrest (by omega)
      rw [h1]
      refine ⟨P1.set i r, rfl, h2.roots_trans ?_⟩
      have hir : Root P1 i r := (h2.2 i r).mp ⟨k' + 1, RootAt.step i p r k' hp hne hrest⟩
      have hne' : r ≠ i := by
        intro e; subst e
        have := hrest.isRootAt
        rw [this] at hp
        exact hne (Option.some.inj hp).symm
      exact sameRoots_compress P1 i r hir hne'

theorem uf_find_ok (fuel : Nat) (P : List Nat) (i : Nat) (hf : Forest P) (hi : i < P.length)
    (hfuel : P.length ≤ fuel) :
    ∃ P' r, uf_find fuel P i = some (P', r) ∧ SameRoots P P' ∧ Root P i r := by
  obtain ⟨r, k, hk⟩ := hf i hi
  obtain ⟨P', h1, h2⟩ := uf_find_spec fuel P i r k hk (by have := hk.depth_lt; omega)
  exact ⟨P', r, h1, h2, ⟨k, hk⟩⟩

end Par
end DBSCAN

namespace DBSCAN
namespace Par

theorem SameSet.symm {P : List Nat} {x y : Nat} (h : SameSet P x y) : SameSet P y x := by
  obtain ⟨r, h1, h2⟩ := h
  exact ⟨r, h2, h1⟩

theorem SameSet.set_trans {P : List Nat} {x y z : Nat} (h1 : SameSet P x y) (h2 : SameSet P y z) :
    SameSet P x z := by
  obtain ⟨r, hx, hy⟩ := h1
  obtain ⟨r', hy', hz⟩ := h2
  have := hy.functional hy'
  subst this
  exact ⟨r, hx, hz⟩

theorem SameSet.set_refl {P : List Nat} (hf : Forest P) {x : Nat} (hx : x < P.length) :
    SameSet P x x := by
  obtain ⟨r, hr⟩ := hf x hx
  exact ⟨r, hr, hr⟩

/-- Attaching the root `rj` under the different root `ri` sends the root `rj` to `ri` and keeps
every other root. -/
theorem root_link (P : List Nat) (ri rj : Nat) (hri : P[ri]? = some ri) (hrj : P[rj]? = some rj)
    (hne : ri ≠ rj) (x r : Nat) (h : Root P x r) :
    Root (P.set rj ri) x (if r = rj then ri else r) := by
  have hj : rj < P.length := (List.getElem?_eq_some_iff.mp hrj).1
  have hset : ∀ x, (P.set rj ri)[x]? = if x = rj then some ri else P[x]? := by
    intro x
    rw [List.getElem?_set]
    by_cases hx : rj = x
    · subst hx; simp [hj]
    · have : ¬ x = rj := fun e => hx e.symm
      simp [hx, this]
  have hri' : (P.set rj ri)[ri]? = some ri := by rw [hset, if_neg hne]; exact hri
  obtain ⟨k, hk⟩ := h
  induction hk with
  | root r hr =>
    by_cases hr' : r = rj
    · subst hr'
      rw [if_pos rfl]
      exact Root.step (by rw [hset, if_pos rfl]) hne (Root.self hri')
    · rw [if_neg hr']
      exact Root.self (by rw [hset, if_neg hr']; exact hr)
  | step x p r k hp hpne _ ih =>
    have hx : x ≠ rj := by
      intro e; subst e
      rw [hrj] at hp
      exact hpne (Option.some.inj hp).symm
    exact Root.step (by rw [hset, if_neg hx]; exact hp) hpne ih

/-- The function `uf_union` returns, keeps the forest invariant, and merges exactly the sets of `i`
and `j`. -/
theorem uf_union_spec (fuel : Nat) (P : List Nat) (i j : Nat) (hf : Forest P)
    (hi : i < P.length) (hj : j < P.length) (hfuel : P.length ≤ fuel) :
    ∃ P', uf_union fuel P i j = some P' ∧ Forest P' ∧ P'.length = P.length ∧
      ∀ x y, SameSet P' x y ↔
        (SameSet P x y ∨ (SameSet P x i ∧ SameSet P j y) ∨ (SameSet P x j ∧ SameSet P i y)) := by
  obtain ⟨P1, ri, hfind1, hs1, hri⟩ := uf_find_ok fuel P i hf hi hfuel
  have hf1 := hs1.forest hf
  obtain ⟨P2, rj, hfind2, hs2, hrj1⟩ := uf_find_ok fuel P1 j hf1 (by rw [← hs1.1]; exact hj)
    (by rw [← hs1.1]; exact hfuel)
  have hs12 := hs1.roots_trans hs2
  have hf2 := hs12.forest hf
  have hrj : Root P j rj := (hs1.2 j rj).mpr hrj1
  unfold uf_union
  rw [hfind1]
  simp only
  rw [hfind2]
  simp only
  by_cases hne : ri = rj
  · subst hne
    simp only [ne_eq, not_true_eq_false, if_false]
    refine ⟨P2, rfl, hf2, hs12.1.symm, fun x y => ?_⟩
    rw [← hs12.sameSet]
    have hij : SameSet P i j := ⟨ri, hri, hrj⟩
    constructor
    · intro h; exact Or.inl h
    · rintro (h | ⟨h1, h2⟩ | ⟨h1, h2⟩)
      · exact h
      · exact (h1.set_trans hij).set_trans h2
      · exact (h1.set_trans hij.symm).set_trans h2
  · simp only [ne_eq, hne, not_false_eq_true, if_true]
    obtain ⟨P3, ri', hfind3, hs3, hri3⟩ := uf_find_ok fuel P2 i hf2 (by rw [← hs12.1]; exact hi)
      (by rw [← hs12.1]; exact hfuel)
    have hs13 := hs12.roots_trans hs3
    have hf3 := hs13.forest hf
    obtain ⟨P4, rj', hfind4, hs4, hrj4⟩ := uf_find_ok fuel P3 j hf3 (by rw [← hs13.1]; exact hj)
      (by rw [← hs13.1]; exact hfuel)
    have hs14 := hs13.roots_trans hs4
    have hf4 := hs14.forest hf
    have e1 : ri' = ri := Root.functional ((hs12.2 i ri').mpr hri3) hri
    have e2 : rj' = rj := Root.functional ((hs13.2 j rj').mpr hrj4) hrj
    subst e1 e2
    rw [hfind3]
    simp only
    rw [hfind4]
    simp only [hne, not_false_eq_true, if_true]
    have hri4 : P4[ri']? = some ri' := ((hs14.2 i ri').mp hri).isRoot
    have hrj4' : P4[rj']? = some rj' := ((hs14.2 j rj').mp hrj).isRoot
    have hlink := root_link P4 ri' rj' hri4 hrj4' hne
    have hlen : (P4.set rj' ri').length = P.length := by simp [hs14.1]
    have hnew : ∀ x r, Root P x r → Root (P4.set rj' ri') x (if r = rj' then ri' else r) :=
      fun x r h => hlink x r ((hs14.2 x r).mp h)
    refine ⟨_, rfl, ?_, hlen, fun x y => ⟨?_, ?_⟩⟩
    · intro x hx
      obtain ⟨r, hr⟩ := hf x (by rw [← hlen]; exact hx)
      exact ⟨_, hnew x r hr⟩
    · rintro ⟨r, hx, hy⟩
      obtain ⟨rx, hrx⟩ := hf x (by rw [← hlen]; exact hx.lt)
      obtain ⟨ry, hry⟩ := hf y (by rw [← hlen]; exact hy.lt)
      have ex := Root.functional (hnew x rx hrx) hx
      have ey := Root.functional (hnew y ry hry) hy
      by_cases hxj : rx = rj'
      · by_cases hyj : ry = rj'
        · rw [hxj] at hrx
          rw [hyj] at hry
          exact Or.inl ⟨rj', hrx, hry⟩
        · rw [if_pos hxj] at ex
          rw [if_neg hyj] at ey
          have hyi : ry = ri' := by rw [ey, ← ex]
          rw [hxj] at hrx
          rw [hyi] at hry
          exact Or.inr (Or.inr ⟨⟨rj', hrx, hrj⟩, ⟨ri', hri, hry⟩⟩)
      · by_cases hyj : ry = rj'
        · rw [if_neg hxj] at ex
          rw [if_pos hyj] at ey
          have hxi : rx = ri' := by rw [ex, ← ey]
          rw [hxi] at hrx
          rw [hyj] at hry
          exact Or.inr (Or.inl ⟨⟨ri', hrx, hri⟩, ⟨rj', hrj, hry⟩⟩)
        · rw [if_neg hxj] at ex
          rw [if_neg hyj] at ey
          have hxy : rx = ry := by rw [ex, ey]
          rw [hxy] at hrx
          exact Or.inl ⟨ry, hrx, hry⟩
    · have hI := hnew i ri' hri
      rw [if_neg hne] at hI
      have hJ := hnew j rj' hrj
      rw [if_pos rfl] at hJ
      have hIJ : SameSet (P4.set rj' ri') i j := ⟨ri', hI, hJ⟩
      have hmono : ∀ x y, SameSet P x y → SameSet (P4.set rj' ri') x y := by
        rintro x y ⟨r, h1, h2⟩
        exact ⟨_, hnew x r h1, hnew y r h2⟩
      rintro (h | ⟨h1, h2⟩ | ⟨h1, h2⟩)
      · exact hmono x y h
      · exact ((hmono _ _ h1).set_trans hIJ).set_trans (hmono _ _ h2)
      · exact ((hmono _ _ h1).set_trans hIJ.symm).set_trans (hmono _ _ h2)

theorem forest_uf_init (n : Nat) : Forest (uf_init n) := by
  intro i hi
  have hi' : i < n := by simpa [uf_init] using hi
  exact ⟨i, Root.self (by simp [uf_init, List.getElem?_range hi'])⟩

theorem sameSet_uf_init (n : Nat) {x y : Nat} (h : SameSet (uf_init n) x y) : x = y := by
  have key : ∀ {a r : Nat}, Root (uf_init n) a r → a = r := by
    rintro a r ⟨k, hk⟩
    cases hk with
    | root _ _ => rfl
    | step _ p _ _ hp hne _ =>
      have ha := (List.getElem?_eq_some_iff.mp hp).1
      have ha' : a < n := by simpa [uf_init] using ha
      simp [uf_init, List.getElem?_range ha'] at hp
      exact absurd hp.symm hne
  obtain ⟨r, h1, h2⟩ := h
  rw [key h1, key h2]

end Par
end DBSCAN

namespace DBSCAN
namespace Par

theorem unionNeighbors_spec (nb : Nat → List Nat) (n : Nat) (hnb : Core.NbOK nb n)
    (ic : List Bool) (hic : ∀ i, ic.getD i false = true ↔ Core.IsCore nb n i)
    (fuel : Nat) (hfuel : n ≤ fuel) (i : Nat) (hci : Core.IsCore nb n i) :
    ∀ (rest : List Nat) (P : List Nat), P2Inv nb n P → (∀ j ∈ rest, j ∈ nb i) →
      ∃ P', unionNeighbors fuel ic i rest P = some P' ∧ P2Inv nb n P' ∧
        (∀ x y, SameSet P x y → SameSet P' x y) ∧
        ∀ j ∈ rest, Core.IsCore nb n j → SameSet P' i j := by
  intro rest
  induction rest with
  | nil =>
    intro P inv _
    exact ⟨P, rfl, inv, fun _ _ h => h, fun j hj => by simp at hj⟩
  | cons j rest ih =>
    intro P inv hrest
    have hrest' : ∀ j' ∈ rest, j' ∈ nb i := fun j' h => hrest j' (List.mem_cons_of_mem _ h)
    have hji : j ∈ nb i := hrest j (List.mem_cons_self _ _)
    rw [unionNeighbors]
    by_cases hcj : ic.getD j false = true
    · rw [if_pos hcj]
      have hcj' := (hic j).mp hcj
      obtain ⟨hf, hlen, hsound⟩ := inv
      obtain ⟨P1, hun, hf1, hlen1, hchar⟩ := uf_union_spec fuel P i j hf
        (by rw [hlen]; exact hci.1) (by rw [hlen]; exact hcj'.1) (by rw [hlen]; exact hfuel)
      rw [hun]
      simp only
      have hedge : Core.CoreChain nb n i j := Relation.ReflTransGen.single ⟨hci, hcj', hji⟩
      have inv1 : P2Inv nb n P1 := by
        refine ⟨hf1, hlen1.trans hlen, fun x y h => ?_⟩
        rcases (hchar x y).mp h with h | ⟨h1, h2⟩ | ⟨h1, h2⟩
        · exact hsound x y h
        · exact ((hsound _ _ h1).trans hedge).trans (hsound _ _ h2)
        · exact ((hsound _ _ h1).trans (Core.coreChain_symm nb n hnb hedge)).trans
            (hsound _ _ h2)
      obtain ⟨P', h1, h2, h3, h4⟩ := ih P1 inv1 hrest'
      have hmono1 : ∀ x y, SameSet P x y → SameSet P1 x y :=
        fun x y h => (hchar x y).mpr (Or.inl h)
      refine ⟨P', h1, h2, fun x y h => h3 x y (hmono1 x y h), ?_⟩
      intro j' hj' hcj''
      rcases List.mem_cons.mp hj' with e | hj'
      · subst e
        apply h3
        exact (hchar i j').mpr (Or.inr (Or.inl
          ⟨SameSet.set_refl hf (by rw [hlen]; exact hci.1),
            SameSet.set_refl hf (by rw [hlen]; exact hcj'.1)⟩))
      · exact h4 j' hj' hcj''
    · rw [if_neg hcj]
      obtain ⟨P', h1, h2, h3, h4⟩ := ih P inv hrest'
      refine ⟨P', h1, h2, h3, ?_⟩
      intro j' hj' hcj''
      rcases List.mem_cons.mp hj' with e | hj'
      · subst e
        exact absurd ((hic j').mpr hcj'') hcj
      · exact h4 j' hj' hcj''

theorem phase2_spec (nb : Nat → List Nat) (n : Nat) (hnb : Core.NbOK nb n)
    (nbs : List (List Nat)) (hnbs : ∀ i, i < n → nbs.getD i [] = nb i)
    (ic : List Bool) (hic : ∀ i, ic.getD i false = true ↔ Core.IsCore nb n i)
    (fuel : Nat) (hfuel : n ≤ fuel) :
    ∀ (rest : List Nat) (P : List Nat), P2Inv nb n P → (∀ i ∈ rest, i < n) →
      ∃ P', phase2 fuel nbs ic rest P = some P' ∧ P2Inv nb n P' ∧
        (∀ x y, SameSet P x y → SameSet P' x y) ∧
        ∀ i ∈ rest, Core.IsCore nb n i → ∀ j ∈ nb i, Core.IsCore nb n j → SameSet P' i j := by
  intro rest
  induction rest with
  | nil =>
    intro P inv _
    exact ⟨P, rfl, inv, fun _ _ h => h, fun j hj => by simp at hj⟩
  | cons i rest ih =>
    intro P inv hrest
    have hrest' : ∀ j' ∈ rest, j' < n := fun j' h => hrest j' (List.mem_cons_of_mem _ h)
    have hi : i < n := hrest i (List.mem_cons_self _ _)
    rw [phase2]
    by_cases hci : ic.getD i false = true
    · rw [if_pos hci, hnbs i hi]
      have hci' := (hic i).mp hci
      obtain ⟨P1, hun, inv1, hmono1, hdone1⟩ := unionNeighbors_spec nb n hnb ic hic fuel hfuel i
        hci' (nb i) P inv (fun j hj => hj)
      rw [hun]
      simp only
      obtain ⟨P', h1, h2, h3, h4⟩ := ih P1 inv1 hrest'
      refine ⟨P', h1, h2, fun x y h => h3 x y (hmono1 x y h), ?_⟩
      intro i' hi' hci'' j hj hcj
      rcases List.mem_cons.mp hi' with e | hi'
      · subst e
        exact h3 _ _ (hdone1 j hj hcj)
      · exact h4 i' hi' hci'' j hj hcj
    · rw [if_neg hci]
      obtain ⟨P', h1, h2, h3, h4⟩ := ih P inv hrest'
      refine ⟨P', h1, h2, h3, ?_⟩
      intro i' hi' hci'' j hj hcj
      rcases List.mem_cons.mp hi' with e | hi'
      · subst e
        exact absurd ((hic i').mpr hci'') hci
      · exact h4 i' hi' hci'' j hj hcj

/-- After phase 2 two points of the dataset share a root exactly when a chain of core points
joins them. -/
theorem phase2_components (nb : Nat → List Nat) (n : Nat) (hnb : Core.NbOK nb n)
    (nbs : List (List Nat)) (hnbs : ∀ i, i < n → nbs.getD i [] = nb i)
    (ic : List Bool) (hic : ∀ i, ic.getD i false = true ↔ Core.IsCore nb n i)
    (fuel : Nat) (hfuel : n ≤ fuel) :
    ∃ P, phase2 fuel nbs ic (List.range n) (uf_init n) = some P ∧ Forest P ∧ P.length = n ∧
      ∀ x y, x < n → (SameSet P x y ↔ Core.CoreChain nb n x y) := by
  have inv0 : P2Inv nb n (uf_init n) := by
    refine ⟨forest_uf_init n, by simp [uf_init], fun x y h => ?_⟩
    rw [sameSet_uf_init n h]
    exact Relation.ReflTransGen.refl
  obtain ⟨P, h1, ⟨hf, hlen, hsound⟩, _, hdone⟩ := phase2_spec nb n hnb nbs hnbs ic hic fuel hfuel
    (List.range n) (uf_init n) inv0 (fun i hi => List.mem_range.mp hi)
  refine ⟨P, h1, hf, hlen, fun x y hx => ⟨hsound x y, fun h => ?_⟩⟩
  induction h with
  | refl => exact SameSet.set_refl hf (by rw [hlen]; exact hx)
  | @tail u v _ hedge ih =>
    obtain ⟨hu, hv, huv⟩ := hedge
    exact ih.set_trans (hdone u (List.mem_range.mpr hu.1) hu v huv hv)

end Par
end DBSCAN

namespace DBSCAN

namespace Par

theorem mapInv_set (n : Nat) (cmap : List Int) (counter : Int) (root : Nat)
    (inv : MapInv n cmap counter) (hroot : root < n) :
    MapInv n (cmap.set root counter) (counter + 1) := by
  have hg : ∀ p, (cmap.set root counter).getD p 0 = if p = root then counter
      else cmap.getD p 0 :=
    fun p => Core.getD_set_int cmap root p counter (by rw [inv.len]; exact hroot)
  have hc := inv.cpos
  refine ⟨by simp [inv.len], by omega, ?_, ?_⟩
  · intro r hr
    rw [hg]
    split
    · right; omega
    · have := inv.range r hr; omega
  · intro r r' hr hr'
    rw [hg, hg]
    have h1 := inv.range r hr
    have h2 := inv.range r' hr'
    split
    · split
      · intro _ _; omega
      · intro _ h; omega
    · split
      · intro _ h; omega
      · exact inv.inj r r' hr hr'

theorem buildClusterMap_spec (n : Nat) (ic : List Bool) (fuel : Nat) (hfuel : n ≤ fuel) :
    ∀ (rest : List Nat) (P : List Nat) (cmap : List Int) (counter : Int),
      Forest P → P.length = n → MapInv n cmap counter → (∀ i ∈ rest, i < n) →
      ∃ P' cmap' counter', buildClusterMap fuel ic rest P cmap counter
          = some (P', cmap', counter') ∧
        SameRoots P P' ∧ MapInv n cmap' counter' ∧
        (∀ r, cmap.getD r 0 ≠ 0 → cmap'.getD r 0 = cmap.getD r 0) ∧
        ∀ i ∈ rest, ic.getD i false = true → ∀ r, Root P i r → cmap'.getD r 0 ≠ 0 := by
  intro rest
  induction rest with
  | nil =>
    intro P cmap counter _ _ inv _
    exact ⟨P, cmap, counter, rfl, SameRoots.roots_refl P, inv, fun _ _ => rfl,
      fun i hi => by simp at hi⟩
  | cons i rest ih =>
    intro P cmap counter hf hlen inv hrest
    have hrest' : ∀ j' ∈ rest, j' < n := fun j' h => hrest j' (List.mem_cons_of_mem _ h)
    have hi : i < n := hrest i (List.mem_cons_self _ _)
    rw [buildClusterMap]
    by_cases hci : ic.getD i false = true
    · rw [if_pos hci]
      obtain ⟨P1, root, hfind, hs1, hroot⟩ := uf_find_ok fuel P i hf (by rw [hlen]; exact hi)
        (by rw [hlen]; exact hfuel)
      rw [hfind]
      simp only
      have hf1 := hs1.forest hf
      have hlen1 : P1.length = n := by rw [← hs1.1]; exact hlen
      have hrn : root < n := by rw [← hlen]; exact hroot.root_lt
      by_cases h0 : cmap.getD root 0 = 0
      · rw [if_pos h0]
        have inv1 := mapInv_set n cmap counter root inv hrn
        have hg : ∀ p, (cmap.set root counter).getD p 0 = if p = root then counter
            else cmap.getD p 0 :=
          fun p => Core.getD_set_int cmap root p counter (by rw [inv.len]; exact hrn)
        obtain ⟨P', cmap', counter', h1, h2, h3, h4, h5⟩ := ih P1 _ _ hf1 hlen1 inv1 hrest'
        refine ⟨P', cmap', counter', h1, hs1.roots_trans h2, h3, ?_, ?_⟩
        · intro r hr
          have hne : r ≠ root := by intro e; subst e; exact hr h0
          rw [h4 r (by rw [hg, if_neg hne]; exact hr), hg, if_neg hne]
        · intro i' hi' hci' r hr
          rcases List.mem_cons.mp hi' with e | hi'
          · subst e
            have := Root.functional hr hroot
            subst this
            have hc := inv.cpos
            rw [h4 r (by rw [hg, if_pos rfl]; omega), hg, if_pos rfl]
            omega
          · exact h5 i' hi' hci' r ((hs1.2 i' r).mp hr)
      · rw [if_neg h0]
        obtain ⟨P', cmap', counter', h1, h2, h3, h4, h5⟩ := ih P1 _ _ hf1 hlen1 inv hrest'
        refine ⟨P', cmap', counter', h1, hs1.roots_trans h2, h3, h4, ?_⟩
        intro i' hi' hci' r hr
        rcases List.mem_cons.mp hi' with e | hi'
        · subst e
          have := Root.functional hr hroot
          subst this
          rw [h4 r h0]; exact h0
        · exact h5 i' hi' hci' r ((hs1.2 i' r).mp hr)
    · rw [if_neg hci]
      obtain ⟨P', cmap', counter', h1, h2, h3, h4, h5⟩ := ih P cmap counter hf hlen inv hrest'
      refine ⟨P', cmap', counter', h1, h2, h3, h4, ?_⟩
      intro i' hi' hci' r hr
      rcases List.mem_cons.mp hi' with e | hi'
      · subst e; exact absurd hci' hci
      · exact h5 i' hi' hci' r hr

theorem labelCores_spec (n : Nat) (ic : List Bool) (cmap : List Int) (fuel : Nat)
    (hfuel : n ≤ fuel) :
    ∀ (rest : List Nat) (P : List Nat) (data : Dataset),
      Forest P → P.length = n → data.length = n → rest.Nodup → (∀ i ∈ rest, i < n) →
      ∃ P' data', labelCores fuel ic cmap rest P data = some (P', data') ∧
        SameRoots P P' ∧ coordsOf data' = coordsOf data ∧
        (∀ i, i ∉ rest → clusterId data' i = clusterId data i) ∧
        ∀ i ∈ rest,
          (ic.getD i false = true → ∃ r, Root P i r ∧ clusterId data' i = cmap.getD r 0) ∧
          (¬ ic.getD i false = true → clusterId data' i = NOISE) := by
  intro rest
  induction rest with
  | nil =>
    intro P data _ _ _ _ _
    exact ⟨P, data, rfl, SameRoots.roots_refl P, rfl, fun _ _ => rfl, fun i hi => by simp at hi⟩
  | cons i rest ih =>
    intro P data hf hlen hdlen hnd hrest
    have hrest' : ∀ j' ∈ rest, j' < n := fun j' h => hrest j' (List.mem_cons_of_mem _ h)
    have hi : i < n := hrest i (List.mem_cons_self _ _)
    obtain ⟨hinot, hnd'⟩ := List.nodup_cons.mp hnd
    rw [labelCores]
    by_cases hci : ic.getD i false = true
    · rw [if_pos hci]
      obtain ⟨P1, root, hfind, hs1, hroot⟩ := uf_find_ok fuel P i hf (by rw [hlen]; exact hi)
        (by rw [hlen]; exact hfuel)
      rw [hfind]
      simp only
      have hf1 := hs1.forest hf
      have hlen1 : P1.length = n := by rw [← hs1.1]; exact hlen
      obtain ⟨P', data', h1, h2, h3, h4, h5⟩ := ih P1 (setClusterId data i (cmap.getD root 0))
        hf1 hlen1 (by rw [length_setClusterId]; exact hdlen) hnd' hrest'
      refine ⟨P', data', h1, hs1.roots_trans h2, by rw [h3, coordsOf_setClusterId], ?_, ?_⟩
      · intro k hk
        have hki : k ≠ i := fun e => hk (e ▸ List.mem_cons_self _ _)
        have hkr : k ∉ rest := fun h => hk (List.mem_cons_of_mem _ h)
        rw [h4 k hkr, clusterId_setClusterId_ne _ _ _ _ hki]
      · intro k hk
        rcases List.mem_cons.mp hk with e | hk
        · subst e
          refine ⟨fun _ => ⟨root, hroot, ?_⟩, fun h => absurd hci h⟩
          rw [h4 k hinot, clusterId_setClusterId_self _ _ _ (by rw [hdlen]; exact hi)]
        · obtain ⟨h5a, h5b⟩ := h5 k hk
          refine ⟨fun h => ?_, h5b⟩
          obtain ⟨r, hr, he⟩ := h5a h
          exact ⟨r, (hs1.2 k r).mpr hr, he⟩
    · rw [if_neg hci]
      obtain ⟨P', data', h1, h2, h3, h4, h5⟩ := ih P (setClusterId data i NOISE)
        hf hlen (by rw [length_setClusterId]; exact hdlen) hnd' hrest'
      refine ⟨P', data', h1, h2, by rw [h3, coordsOf_setClusterId], ?_, ?_⟩
      · intro k hk
        have hki : k ≠ i := fun e => hk (e ▸ List.mem_cons_self _ _)
        have hkr : k ∉ rest := fun h => hk (List.mem_cons_of_mem _ h)
        rw [h4 k hkr, clusterId_setClusterId_ne _ _ _ _ hki]
      · intro k hk
        rcases List.mem_cons.mp hk with e | hk
        · subst e
          refine ⟨fun h => absurd h hci, fun _ => ?_⟩
          rw [h4 k hinot, clusterId_setClusterId_self _ _ _ (by rw [hdlen]; exact hi)]
        · exact h5 k hk

theorem labelBorders_spec (n : Nat) (nbs : List (List Nat)) (ic : List Bool) (cmap : List Int)
    (fuel : Nat) (hfuel : n ≤ fuel)
    (hnbs : ∀ i j, j ∈ nbs.getD i [] → j < n) :
    ∀ (rest : List Nat) (P : List Nat) (data : Dataset),
      Forest P → P.length = n → data.length = n → rest.Nodup → (∀ i ∈ rest, i < n) →
      ∃ P' data', labelBorders fuel nbs ic cmap rest P data = some (P', data') ∧
        SameRoots P P' ∧ coordsOf data' = coordsOf data ∧
        (∀ i, i ∉ rest → clusterId data' i = clusterId data i) ∧
        ∀ i ∈ rest,
          (ic.getD i false = true → clusterId data' i = clusterId data i) ∧
          (¬ ic.getD i false = true →
            (∀ j, (nbs.getD i []).find? (fun j => ic.getD j false) = some j →
              ∃ r, Root P j r ∧ clusterId data' i = cmap.getD r 0) ∧
            ((nbs.getD i []).find? (fun j => ic.getD j false) = none →
              clusterId data' i = clusterId data i)) := by
  intro rest
  induction rest with
  | nil =>
    intro P data _ _ _ _ _
    exact ⟨P, data, rfl, SameRoots.roots_refl P, rfl, fun _ _ => rfl, fun i hi => by simp at hi⟩
  | cons i rest ih =>
    intro P data hf hlen hdlen hnd hrest
    have hrest' : ∀ j' ∈ rest, j' < n := fun j' h => hrest j' (List.mem_cons_of_mem _ h)
    have hi : i < n := hrest i (List.mem_cons_self _ _)
    obtain ⟨hinot, hnd'⟩ := List.nodup_cons.mp hnd
    rw [labelBorders]
    by_cases hci : ic.getD i false = true
    · rw [if_pos hci]
      obtain ⟨P', data', h1, h2, h3, h4, h5⟩ := ih P data hf hlen hdlen hnd' hrest'
      refine ⟨P', data', h1, h2, h3, fun k hk => h4 k (fun h => hk (List.mem_cons_of_mem _ h)),
        ?_⟩
      intro k hk
      rcases List.mem_cons.mp hk with e | hk
      · subst e
        exact ⟨fun _ => h4 k hinot, fun h => absurd hci h⟩
      · exact h5 k hk
    · rw [if_neg hci]
      cases hfd : (nbs.getD i []).find? (fun j => ic.getD j false) with
      | none =>
        simp only
        obtain ⟨P', data', h1, h2, h3, h4, h5⟩ := ih P data hf hlen hdlen hnd' hrest'
        refine ⟨P', data', h1, h2, h3,
          fun k hk => h4 k (fun h => hk (List.mem_cons_of_mem _ h)), ?_⟩
        intro k hk
        rcases List.mem_cons.mp hk with e | hk
        · subst e
          refine ⟨fun h => absurd h hci, fun _ => ⟨fun j hj => ?_, fun _ => h4 k hinot⟩⟩
          rw [hfd] at hj; cases hj
        · exact h5 k hk
      | some j =>
        simp only
        have hjn : j < n := hnbs i j (List.mem_of_find?_eq_some hfd)
        obtain ⟨P1, root, hfind, hs1, hroot⟩ := uf_find_ok fuel P j hf (by rw [hlen]; exact hjn)
          (by rw [hlen]; exact hfuel)
        rw [hfind]
        simp only
        have hf1 := hs1.forest hf
        have hlen1 : P1.length = n := by rw [← hs1.1]; exact hlen
        obtain ⟨P', data', h1, h2, h3, h4, h5⟩ := ih P1 (setClusterId data i (cmap.getD root 0))
          hf1 hlen1 (by rw [length_setClusterId]; exact hdlen) hnd' hrest'
        refine ⟨P', data', h1, hs1.roots_trans h2, by rw [h3, coordsOf_setClusterId], ?_, ?_⟩
        · intro k hk
          have hki : k ≠ i := fun e => hk (e ▸ List.mem_cons_self _ _)
          have hkr : k ∉ rest := fun h => hk (List.mem_cons_of_mem _ h)
          rw [h4 k hkr, clusterId_setClusterId_ne _ _ _ _ hki]
        · intro k hk
          rcases List.mem_cons.mp hk with e | hk
          · subst e
            refine ⟨fun h => absurd h hci, fun _ => ⟨fun j' hj' => ?_, fun h => ?_⟩⟩
            · rw [hfd] at hj'
              cases hj'
              refine ⟨root, hroot, ?_⟩
              rw [h4 k hinot, clusterId_setClusterId_self _ _ _ (by rw [hdlen]; exact hi)]
            · rw [hfd] at h; cases h
          · have hki : k ≠ i := fun e => hinot (e ▸ hk)
            obtain ⟨h5a, h5b⟩ := h5 k hk
            refine ⟨fun h => ?_, fun h => ?_⟩
            · rw [h5a h, clusterId_setClusterId_ne _ _ _ _ hki]
            · obtain ⟨h5c, h5d⟩ := h5b h
              refine ⟨fun j' hj' => ?_, fun hn => ?_⟩
              · obtain ⟨r, hr, he⟩ := h5c j' hj'
                exact ⟨r, (hs1.2 j' r).mpr hr, he⟩
              · rw [h5d hn, clusterId_setClusterId_ne _ _ _ _ hki]

end Par
end DBSCAN

namespace DBSCAN
namespace Par

theorem par_mem_neighborList (data : Dataset) (p q : Nat) :
    q ∈ neighborList data p ↔
      q < data.length ∧ p ≠ q ∧ withinEpsilon (getPoint data p) (getPoint data q) = true := by
  simp [neighborList]

theorem par_nbOK (data : Dataset) : Core.NbOK (neighborList data) data.length := by
  refine ⟨?_, ?_, ?_⟩
  · intro p q hq
    exact ((par_mem_neighborList data p q).mp hq).1
  · intro p q hp hq
    have := (par_mem_neighborList data p q).mp hq
    exact (par_mem_neighborList data q p).mpr
      ⟨hp, fun e => this.2.1 e.symm, by rw [withinEpsilon_symm]; exact this.2.2⟩
  · intro p
    simp only [neighborList]
    exact (List.length_filter_le _ _).trans (by simp)

theorem par_neighborList_sorted (data : Dataset) (p : Nat) :
    (neighborList data p).Pairwise (fun i j => i < j) := by
  unfold neighborList
  exact List.Pairwise.filter _ (List.pairwise_lt_range _)

theorem phase1_getD (data : Dataset) (i : Nat) (hi : i < data.length) :
    (phase1 data).getD i [] = neighborList data i := by
  simp [phase1, List.getD_eq_getElem?_getD, List.getElem?_map, List.getElem?_range hi]

theorem phase1_mem_lt (data : Dataset) (i j : Nat) (h : j ∈ (phase1 data).getD i []) :
    j < data.length := by
  by_cases hi : i < data.length
  · rw [phase1_getD data i hi] at h
    exact ((par_mem_neighborList data i j).mp h).1
  · rw [List.getD_eq_default _ _ (by simp [phase1]; omega)] at h
    simp at h

theorem coreFlags_getD (data : Dataset) (i : Nat) :
    (coreFlags (phase1 data)).getD i false = true ↔
      Core.IsCore (neighborList data) data.length i := by
  unfold Core.IsCore
  by_cases hi : i < data.length
  · simp [coreFlags, phase1, List.getD_eq_getElem?_getD, List.getElem?_map,
      List.getElem?_range hi, hi, MIN_POINTS]
  · rw [List.getD_eq_default _ _ (by simp [coreFlags, phase1]; omega)]
    simp [hi]

theorem find?_sorted_min (p : Nat → Bool) :
    ∀ (l : List Nat) (j0 : Nat), l.Pairwise (fun i j => i < j) → l.find? p = some j0 →
      ∀ j ∈ l, p j = true → j0 ≤ j := by
  intro l
  induction l with
  | nil => intro j0 _ h; simp at h
  | cons a l ih =>
    intro j0 hs h j hj hp
    rw [List.pairwise_cons] at hs
    rw [List.find?_cons] at h
    cases hpa : p a with
    | true =>
      rw [hpa] at h
      simp only [Option.some.injEq] at h
      subst h
      rcases List.mem_cons.mp hj with e | hj
      · omega
      · exact Nat.le_of_lt (hs.1 j hj)
    | false =>
      rw [hpa] at h
      simp only at h
      rcases List.mem_cons.mp hj with e | hj
      · subst e; rw [hpa] at hp; cases hp
      · exact ih j0 hs.2 h j hj hp

theorem mapInv_start (n : Nat) : MapInv n (List.replicate n 0) 1 := by
  have hg : ∀ r, (List.replicate n (0 : Int)).getD r 0 = 0 := by
    intro r
    simp only [List.getD_eq_getElem?_getD, List.getElem?_replicate]
    split <;> rfl
  refine ⟨by simp, le_refl _, fun r _ => Or.inl (hg r), fun r r' _ _ h => absurd (hg r) h⟩

/-- The engine of `src/src/dbscan_par.c` returns, keeps the coordinates, and labels the points as
`Labelled` describes. -/
theorem par_dbscan_correct (data : Dataset) (fuel : Nat) (hfuel : fuelFor data.length ≤ fuel) :
    ∃ out, dbscan fuel data = some out ∧ coordsOf out = coordsOf data ∧
      Labelled (neighborList data) data.length (clusterId out) := by
  have hf : data.length ≤ fuel := by unfold fuelFor at hfuel; omega
  have hnb := par_nbOK data
  have hic := coreFlags_getD data
  have hicb : ∀ j, (coreFlags (phase1 data)).getD j false = true ↔
      (j < data.length ∧ 3 ≤ (neighborList data j).length) := hic
  obtain ⟨P, hP, hfP, hlenP, hcomp⟩ := phase2_components (neighborList data) data.length hnb
    (phase1 data) (phase1_getD data) (coreFlags (phase1 data)) hic fuel hf
  obtain ⟨P1, cmap, counter, hB, hs1, hmap, _, hnz⟩ := buildClusterMap_spec data.length
    (coreFlags (phase1 data)) fuel hf (List.range data.length) P (List.replicate data.length 0) 1
    hfP hlenP (mapInv_start data.length) (fun i hi => List.mem_range.mp hi)
  have hfP1 := hs1.forest hfP
  have hlenP1 : P1.length = data.length := by rw [← hs1.1]; exact hlenP
  obtain ⟨P2, data1, hC, hs2, hco1, _, hlab1⟩ := labelCores_spec data.length
    (coreFlags (phase1 data)) cmap fuel hf (List.range data.length) P1 data hfP1 hlenP1 rfl
    (List.nodup_range _) (fun i hi => List.mem_range.mp hi)
  have hfP2 := hs2.forest hfP1
  have hlenP2 : P2.length = data.length := by rw [← hs2.1]; exact hlenP1
  have hlen1 : data1.length = data.length := length_eq_of_coords _ _ hco1
  obtain ⟨P3, data2, hD, _, hco2, _, hlab2⟩ := labelBorders_spec data.length (phase1 data)
    (coreFlags (phase1 data)) cmap fuel hf (phase1_mem_lt data) (List.range data.length) P2 data1
    hfP2 hlenP2 hlen1 (List.nodup_range _) (fun i hi => List.mem_range.mp hi)
  have hrun : dbscan fuel data = some data2 := by
    unfold dbscan
    simp only [hP, hB, hC, hD]
  -- the label of a core point is the id mapped to its root after phase 2
  have hcore : ∀ i, Core.IsCore (neighborList data) data.length i →
      ∃ r, Root P i r ∧ cmap.getD r 0 ≠ 0 ∧ clusterId data2 i = cmap.getD r 0 := by
    intro i hi
    have hflag := (hic i).mpr hi
    have hmem := List.mem_range.mpr hi.1
    obtain ⟨r, hr, he⟩ := (hlab1 i hmem).1 hflag
    have hr' : Root P i r := (hs1.2 i r).mpr hr
    exact ⟨r, hr', hnz i hmem hflag r hr', by rw [(hlab2 i hmem).1 hflag, he]⟩
  refine ⟨data2, hrun, hco2.trans hco1, ⟨?_, ?_, ?_, ?_⟩⟩
  · intro i hi
    obtain ⟨r, hr, hne, he⟩ := hcore i hi
    have := hmap.range r (by rw [← hlenP]; exact hr.root_lt)
    rw [he]; omega
  · intro a b ha hb
    obtain ⟨ra, hra, hnea, hea⟩ := hcore a ha
    obtain ⟨rb, hrb, hneb, heb⟩ := hcore b hb
    rw [hea, heb, ← hcomp a b ha.1]
    constructor
    · intro h
      have := hmap.inj ra rb (by rw [← hlenP]; exact hra.root_lt)
        (by rw [← hlenP]; exact hrb.root_lt) hnea h
      subst this
      exact ⟨ra, hra, hrb⟩
    · rintro ⟨r, h1, h2⟩
      rw [Root.functional hra h1, Root.functional hrb h2]
  · intro i hi hnc j hj hcj hmin
    have hmem := List.mem_range.mpr hi
    have hflag : ¬ (coreFlags (phase1 data)).getD i false = true :=
      fun h => hnc ((hic i).mp h).2
    have hjn : j < data.length := hnb.lt i j hj
    obtain ⟨hsome, _⟩ := (hlab2 i hmem).2 hflag
    rw [phase1_getD data i hi] at hsome
    cases hfd : (neighborList data i).find? (fun j => (coreFlags (phase1 data)).getD j false) with
    | none =>
      have := List.find?_eq_none.mp hfd j hj
      exact absurd ((hic j).mpr ⟨hjn, hcj⟩) (by simpa using this)
    | some j0 =>
      have hj0mem := List.mem_of_find?_eq_some hfd
      have hj0flag : (coreFlags (phase1 data)).getD j0 false = true :=
        List.find?_some (p := fun j => (coreFlags (phase1 data)).getD j false) hfd
      have hj0core := (hic j0).mp hj0flag
      have hle1 := hmin j0 hj0mem hj0core.2
      have hle2 := find?_sorted_min _ _ j0 (par_neighborList_sorted data i) hfd j hj
        ((hic j).mpr ⟨hjn, hcj⟩)
      have hjj : j = j0 := by omega
      subst hjj
      obtain ⟨r, hr, he⟩ := hsome j hfd
      obtain ⟨r', hr', _, he'⟩ := hcore j hj0core
      have : r = r' := Root.functional ((hs1.roots_trans hs2).2 j r |>.mpr hr) hr'
      rw [he, he', this]
  · intro i hi hnc hnone
    have hmem := List.mem_range.mpr hi
    have hflag : ¬ (coreFlags (phase1 data)).getD i false = true :=
      fun h => hnc ((hic i).mp h).2
    obtain ⟨_, hnone'⟩ := (hlab2 i hmem).2 hflag
    rw [phase1_getD data i hi] at hnone'
    have hfd : (neighborList data i).find? (fun j => (coreFlags (phase1 data)).getD j false)
        = none := by
      rw [List.find?_eq_none]
      intro j hj h
      exact hnone j hj ((hic j).mp h).2
    rw [hnone' hfd]
    exact (hlab1 i hmem).2 hflag

end Par
end DBSCAN

namespace DBSCAN
namespace SeqV2

theorem seqV2_regionQuery_eq (data : Dataset) (p : Nat) :
    regionQuery p data = Par.neighborList data p := rfl

theorem seqV2_regionQuery_congr (d d' : Dataset) (h : coordsOf d = coordsOf d') (p : Nat) :
    regionQuery p d = regionQuery p d' := by
  unfold regionQuery
  rw [length_eq_of_coords d d' h]
  congr 1
  funext i
  rw [withinEpsilon_congr d d' h p i]

theorem seqV2_appOK : Core.AppOK (fun F N => F ++ N) :=
  fun _ N => ⟨N, rfl, fun _ hx => Or.inr hx, fun _ hx => hx, le_refl _⟩

theorem seqV2_regionQuery_lt (data : Dataset) (p x : Nat) (hx : x ∈ regionQuery p data) :
    x < data.length :=
  (Par.par_nbOK data).lt p x hx

/-- The frontier loop follows the engine over labels: when the latter returns, the loop is left,
with the same labels unless the frontier length has left the range of `int`. -/
theorem seqV2_expandLoop_bridge (data0 : Dataset) :
    ∀ (fuel i : Nat) (c : Int) (st : Loop) (outl : List Int),
      coordsOf st.data = coordsOf data0 →
      Core.expandLoop (Par.neighborList data0) (fun F N => F ++ N) fuel i st.neighbors c
        (labelsOf st.data) = some outl →
      ∃ out, expandLoop fuel i c st = some out ∧ coordsOf out.data = coordsOf data0 ∧
        (out.overflow = false → labelsOf out.data = outl) := by
  intro fuel
  induction fuel with
  | zero => intro i c st outl _ h; simp [Core.expandLoop] at h
  | succ fuel ih =>
    intro i c st outl hco h
    rw [Core.expandLoop] at h
    rw [expandLoop]
    cases hcur : st.neighbors[i]? with
    | none =>
      rw [hcur] at h
      simp only [Option.some.injEq] at h
      exact ⟨st, rfl, hco, fun _ => h⟩
    | some cur =>
      rw [hcur] at h
      have hco1 : coordsOf (setClusterId st.data cur c) = coordsOf data0 := by
        rw [coordsOf_setClusterId]; exact hco
      have hrq : regionQuery cur (setClusterId st.data cur c) = Par.neighborList data0 cur :=
        seqV2_regionQuery_congr _ _ hco1 cur
      simp only [clusterId_eq_getD, UNCLASSIFIED, NOISE, MIN_POINTS, hrq] at h ⊢
      split
      · rename_i hrel
        rw [if_pos hrel] at h
        split
        · rename_i hge
          rw [if_pos hge] at h
          split
          · exact ⟨_, rfl, hco1, fun hf => by simp at hf⟩
          · exact ih (i + 1) c
              { data := setClusterId st.data cur c
                neighbors := st.neighbors ++ Par.neighborList data0 cur
                overflow := st.overflow
                visits := st.visits ++ [⟨cur, (labelsOf st.data).getD cur 0,
                  (Par.neighborList data0 cur).length, st.neighbors,
                  st.neighbors ++ Par.neighborList data0 cur⟩] } outl hco1
              (by simp only [labelsOf_setClusterId]; exact h)
        · rename_i hlt
          rw [if_neg hlt] at h
          exact ih (i + 1) c
            { data := setClusterId st.data cur c
              neighbors := st.neighbors
              overflow := st.overflow
              visits := st.visits ++ [⟨cur, (labelsOf st.data).getD cur 0,
                (Par.neighborList data0 cur).length, st.neighbors, st.neighbors⟩] } outl hco1
            (by simp only [labelsOf_setClusterId]; exact h)
      · rename_i hrel
        rw [if_neg hrel] at h
        exact ih (i + 1) c st outl hco h

/-- The run of `dbscan` follows the engine over labels: when the latter returns, the run ends,
with the same labels if it ends by finishing the loop. -/
theorem seqV2_dbscanLoop_bridge (data0 : Dataset) (fuel : Nat) :
    ∀ (rest : List Nat) (c : Int) (run : Run) (outl : List Int),
      coordsOf run.data = coordsOf data0 →
      Core.dbscanLoop (Par.neighborList data0) (fun F N => F ++ N) fuel rest c
        (labelsOf run.data) = some outl →
      ∃ e out, dbscanLoop fuel rest c run = some (e, out) ∧
        coordsOf out.data = coordsOf data0 ∧
        (e = Ending.finished → labelsOf out.data = outl) := by
  intro rest
  induction rest with
  | nil =>
    intro c run outl hco h
    simp only [Core.dbscanLoop, Option.some.injEq] at h
    exact ⟨Ending.finished, run, rfl, hco, fun _ => h⟩
  | cons i rest ih =>
    intro c run outl hco h
    rw [Core.dbscanLoop] at h
    rw [dbscanLoop]
    have hrq : regionQuery i run.data = Par.neighborList data0 i :=
      seqV2_regionQuery_congr _ _ hco i
    simp only [clusterId_eq_getD, UNCLASSIFIED, NOISE, MIN_POINTS, hrq]
    split
    · rename_i h0
      rw [if_pos h0] at h
      exact ih c run outl hco h
    · rename_i h0
      rw [if_neg h0] at h
      split
      · rename_i hlt
        rw [if_pos hlt] at h
        have hco1 : coordsOf (setClusterId run.data i (-1)) = coordsOf data0 := by
          rw [coordsOf_setClusterId]; exact hco
        exact ih c
          { data := setClusterId run.data i (-1), expansions := run.expansions } outl hco1
          (by simp only [labelsOf_setClusterId]; exact h)
      · rename_i hge
        rw [if_neg hge] at h
        have hco1 : coordsOf (setClusterId run.data i c) = coordsOf data0 := by
          rw [coordsOf_setClusterId]; exact hco
        unfold expandCluster
        cases hex : Core.expandLoop (Par.neighborList data0) (fun F N => F ++ N) fuel 0
            (Par.neighborList data0 i) c ((labelsOf run.data).set i c) with
        | none => rw [hex] at h; simp at h
        | some lab1 =>
          rw [hex] at h
          simp only at h
          obtain ⟨st, hst, hcst, hlst⟩ := seqV2_expandLoop_bridge data0 fuel 0 c
            { data := setClusterId run.data i c
              neighbors := Par.neighborList data0 i
              overflow := false
              visits := [] } lab1 hco1 (by simp only [labelsOf_setClusterId]; exact hex)
          rw [hst]
          simp only
          by_cases hm : st.overflow = true
          · rw [if_pos hm]
            exact ⟨_, _, rfl, hcst, fun e => by cases e⟩
          · rw [if_neg hm]
            exact ih (c + 1)
              { data := st.data
                expansions := run.expansions ++
                  [⟨i, Par.neighborList data0 i, st.visits, st.neighbors⟩] } outl hcst
              (by simp only; rw [hlst (by simpa using hm)]; exact h)

/-- Invariant rule for the frontier loop: a property of the loop state that every relabelling
iteration preserves holds when the loop is left. -/
theorem seqV2_expand_rule (c : Int) (I : Loop → Prop)
    (hstep : ∀ (st : Loop) (k cur : Nat), I st → st.neighbors[k]? = some cur →
      (clusterId st.data cur = UNCLASSIFIED ∨ clusterId st.data cur = NOISE) →
      (MIN_POINTS ≤ (regionQuery cur (setClusterId st.data cur c)).length →
        ¬ INT_MAX < st.neighbors.length +
          (regionQuery cur (setClusterId st.data cur c)).length →
        I (visitGrow c cur st)) ∧
      (MIN_POINTS ≤ (regionQuery cur (setClusterId st.data cur c)).length →
        INT_MAX < st.neighbors.length +
          (regionQuery cur (setClusterId st.data cur c)).length →
        I (visitOverflow c cur st)) ∧
      (¬ MIN_POINTS ≤ (regionQuery cur (setClusterId st.data cur c)).length →
        I (visitKeep c cur st))) :
    ∀ (fuel i : Nat) (st out : Loop), I st → expandLoop fuel i c st = some out → I out := by
  intro fuel
  induction fuel with
  | zero => intro i st out _ h; simp [expandLoop] at h
  | succ fuel ih =>
    intro i st out hI h
    rw [expandLoop] at h
    cases hcur : st.neighbors[i]? with
    | none =>
      rw [hcur] at h
      simp only [Option.some.injEq] at h
      subst h
      exact hI
    | some cur =>
      rw [hcur] at h
      simp only at h
      by_cases hrel : clusterId st.data cur = UNCLASSIFIED ∨ clusterId st.data cur = NOISE
      · simp only [if_pos hrel] at h
        obtain ⟨h1, h2, h3⟩ := hstep st i cur hI hcur hrel
        by_cases hc : MIN_POINTS ≤ (regionQuery cur (setClusterId st.data cur c)).length
        · simp only [if_pos hc] at h
          by_cases ho : INT_MAX < st.neighbors.length +
              (regionQuery cur (setClusterId st.data cur c)).length
          · simp only [if_pos ho, Option.some.injEq] at h
            rw [← h]
            exact h2 hc ho
          · simp only [if_neg ho] at h
            exact ih _ _ _ (h1 hc ho) h
        · simp only [if_neg hc] at h
          exact ih _ _ _ (h3 hc) h
      · simp only [if_neg hrel] at h
        exact ih _ _ _ hI h

/-- Invariant rule for a run of `dbscan`, however it ends: `J` describes the state between two
iterations of the outer loop, `I` the state inside the expansion entered from the state `run`
with seed `i` and cluster id `c`, and `K` is what an overflow implies. -/
theorem seqV2_run_rule (n fuel : Nat) (J : Run → Prop) (I : Run → Nat → Int → Loop → Prop)
    (K : Prop)
    (hnoise : ∀ run i, J run → i < n → clusterId run.data i = UNCLASSIFIED →
      (regionQuery i run.data).length < MIN_POINTS → J (noiseStep i run))
    (hstart : ∀ run i c, J run → i < n → clusterId run.data i = UNCLASSIFIED →
      MIN_POINTS ≤ (regionQuery i run.data).length → 0 < c → I run i c (startLoop i c run))
    (hstep : ∀ run i c (st : Loop) (k cur : Nat), 0 < c → I run i c st →
      st.neighbors[k]? = some cur →
      (clusterId st.data cur = UNCLASSIFIED ∨ clusterId st.data cur = NOISE) →
      (MIN_POINTS ≤ (regionQuery cur (setClusterId st.data cur c)).length →
        ¬ INT_MAX < st.neighbors.length +
          (regionQuery cur (setClusterId st.data cur c)).length →
        I run i c (visitGrow c cur st)) ∧
      (MIN_POINTS ≤ (regionQuery cur (setClusterId st.data cur c)).length →
        INT_MAX < st.neighbors.length +
          (regionQuery cur (setClusterId st.data cur c)).length →
        I run i c (visitOverflow c cur st)) ∧
      (¬ MIN_POINTS ≤ (regionQuery cur (setClusterId st.data cur c)).length →
        I run i c (visitKeep c cur st)))
    (hend : ∀ run i c st, I run i c st → J (closeRun i run st))
    (hfault : ∀ run i c st, I run i c st → st.overflow = true → K) :
    ∀ (rest : List Nat) (c : Int) (run : Run) (e : Ending) (out : Run), 0 < c → J run →
      (∀ i ∈ rest, i < n) → dbscanLoop fuel rest c run = some (e, out) →
      J out ∧ (e ≠ Ending.finished → K) := by
  intro rest
  induction rest with
  | nil =>
    intro c run e out _ hJ _ h
    simp only [dbscanLoop, Option.some.injEq, Prod.mk.injEq] at h
    rw [← h.2, ← h.1]
    exact ⟨hJ, fun hne => absurd rfl hne⟩
  | cons i rest ih =>
    intro c run e out hc hJ hrest h
    have hi : i < n := hrest i (List.mem_cons_self _ _)
    have hrest' : ∀ j ∈ rest, j < n := fun j hj => hrest j (List.mem_cons_of_mem _ hj)
    rw [dbscanLoop] at h
    split at h
    · exact ih c run e out hc hJ hrest' h
    · rename_i h0
      have h0 : clusterId run.data i = UNCLASSIFIED := by simpa using h0
      simp only at h
      split at h
      · rename_i hlt
        exact ih c _ e out hc (hnoise run i hJ hi h0 hlt) hrest' h
      · rename_i hge
        split at h
        · simp at h
        · rename_i st hex
          have hI0 := hstart run i c hJ hi h0 (by omega) hc
          have hI1 := seqV2_expand_rule c (I run i c)
            (fun st k cur => hstep run i c st k cur hc) fuel 0 _ st hI0 hex
          have hJ1 := hend run i c st hI1
          split at h
          · rename_i hov
            simp only [Option.some.injEq, Prod.mk.injEq] at h
            rw [← h.2]
            exact ⟨hJ1, fun _ => hfault run i c st hI1 hov⟩
          · exact ih (c + 1) _ e out (by omega) hJ1 hrest' h

/-- The run of `dbscan` ends for every dataset, given enough fuel. -/
theorem seqV2_dbscan_ends (data : Dataset) (fuel : Nat) (hfuel : fuelFor data.length ≤ fuel) :
    ∃ e run, dbscan fuel data = some (e, run) ∧ coordsOf run.data = coordsOf data := by
  have hf : data.length + data.length * data.length < fuel := by
    unfold fuelFor at hfuel; omega
  obtain ⟨outl, h⟩ := Core.dbscanLoop_some (Par.neighborList data) (fun F N => F ++ N)
    data.length (Par.par_nbOK data) seqV2_appOK fuel hf (List.range data.length) 1
    (labelsOf data) (by decide) (length_labelsOf data) (fun i hi => List.mem_range.mp hi)
  obtain ⟨e, run, h1, h2, _⟩ := seqV2_dbscanLoop_bridge data fuel (List.range data.length) 1
    ⟨data, []⟩ outl rfl h
  exact ⟨e, run, h1, h2⟩

end SeqV2
end DBSCAN

namespace DBSCAN

theorem entered_append (es : List Expansion) (e : Expansion) :
    entered (es ++ [e]) = entered es ++ (e.seed :: e.visits.map Visit.point) := by
  simp [entered]

theorem sum_map_le_of_nodup (f : Nat → Nat) (n : Nat) (L : List Nat) (hnd : L.Nodup)
    (hlt : ∀ x ∈ L, x < n) : (L.map f).sum ≤ ((List.range n).map f).sum := by
  have hsub : L ⊆ List.range n := fun x hx => List.mem_range.mpr (hlt x hx)
  obtain ⟨l, hperm, hsl⟩ := List.subperm_of_subset hnd hsub
  rw [← (hperm.map f).sum_eq]
  exact (hsl.map f).sum_le_sum (fun _ _ => Nat.zero_le _)

/-- Giving a positive label to a point whose label is not positive: the point joins the list of
positively labelled points, which stays free of repetitions. -/
theorem entered_step (data : Dataset) (L : List Nat) (cur : Nat) (c : Int) (hc : 0 < c)
    (hcur : cur < data.length) (hold : clusterId data cur ≤ 0) (hnd : L.Nodup)
    (hpos : ∀ p ∈ L, 0 < clusterId data p) :
    (L ++ [cur]).Nodup ∧ ∀ p ∈ L ++ [cur], 0 < clusterId (setClusterId data cur c) p := by
  have hnot : cur ∉ L := fun hmem => by
    have := hpos cur hmem
    omega
  constructor
  · refine List.Nodup.append hnd (List.nodup_singleton cur) ?_
    intro a ha hac
    rw [List.mem_singleton] at hac
    exact hnot (hac ▸ ha)
  · intro p hp
    rcases List.mem_append.mp hp with hp | hp
    · have hne : p ≠ cur := fun e => hnot (e ▸ hp)
      rw [clusterId_setClusterId_ne data cur p c hne]
      exact hpos p hp
    · rw [List.mem_singleton] at hp
      rw [hp, clusterId_setClusterId_self data cur c hcur]
      exact hc

namespace SeqV2

theorem seqV2_regionQuery_length_le (data : Dataset) (p : Nat) (hp : p < data.length) :
    (regionQuery p data).length ≤ data.length - 1 := by
  have hnd : (regionQuery p data).Nodup := List.Nodup.filter _ (List.nodup_range _)
  have hsub : regionQuery p data ⊆ (List.range data.length).erase p := by
    intro x hx
    have := (Par.par_mem_neighborList data p x).mp hx
    exact (List.Nodup.mem_erase_iff (List.nodup_range _)).mpr
      ⟨fun e => this.2.1 e.symm, List.mem_range.mpr this.1⟩
  have h1 := (List.subperm_of_subset hnd hsub).length_le
  rw [List.length_erase_of_mem (List.mem_range.mpr hp), List.length_range] at h1
  exact h1

theorem seqV2_totalNeighbors_le (data : Dataset) :
    totalNeighbors data ≤ data.length * (data.length - 1) := by
  unfold totalNeighbors
  have h := List.sum_le_card_nsmul
    ((List.range data.length).map (fun p => (regionQuery p data).length)) (data.length - 1)
    (by
      intro x hx
      obtain ⟨p, hp, rfl⟩ := List.mem_map.mp hx
      exact seqV2_regionQuery_length_le data p (List.mem_range.mp hp))
  simpa using h

/-- Whole-run invariant behind the bound on the frontier without deduplication, however the run
ends; an overflow of the frontier length implies `INT_MAX < n * (n - 1)`. -/
theorem seqV2_run_once (data0 : Dataset) (fuel : Nat) (e : Ending) (out : Run)
    (h : dbscan fuel data0 = some (e, out)) :
    RunOnce data0 out ∧
      (e ≠ Ending.finished → INT_MAX < data0.length * (data0.length - 1)) := by
  refine seqV2_run_rule data0.length fuel (RunOnce data0)
    (fun run i _ st => LoopOnce data0 run i st)
    (INT_MAX < data0.length * (data0.length - 1))
    ?_ ?_ ?_ ?_ ?_ (List.range data0.length) 1 ⟨data0, []⟩ e out (by decide)
    ⟨rfl, by simp [entered], fun p hp => by simp [entered] at hp, fun x hx => by simp at hx⟩
    (fun i hi => List.mem_range.mp hi) h
  · intro run i hJ _ h0 _
    refine ⟨?_, hJ.nodup, ?_, hJ.exps⟩
    · show coordsOf (setClusterId run.data i NOISE) = _
      rw [coordsOf_setClusterId]; exact hJ.coords
    · intro p hp
      have hpos := hJ.pos p hp
      have hne : p ≠ i := fun e => by
        rw [e, h0] at hpos
        exact absurd hpos (by decide)
      show 0 < clusterId (setClusterId run.data i NOISE) p
      rw [clusterId_setClusterId_ne run.data i p NOISE hne]
      exact hpos
  · intro run i c hJ hi h0 _ hc
    have hlen : run.data.length = data0.length := length_eq_of_coords _ _ hJ.coords
    have hst := entered_step run.data (entered run.expansions) i c hc (by omega)
      (by rw [h0]; decide) hJ.nodup hJ.pos
    have hrq : regionQuery i run.data = regionQuery i data0 :=
      seqV2_regionQuery_congr _ _ hJ.coords i
    refine ⟨?_, hJ.coords, hi, hst.1, hst.2, hJ.exps, ?_, ?_, ?_, ?_, ?_⟩
    · show coordsOf (setClusterId run.data i c) = _
      rw [coordsOf_setClusterId]; exact hJ.coords
    · intro x hx
      have hx : x ∈ regionQuery i run.data := hx
      rw [hrq] at hx
      exact seqV2_regionQuery_lt data0 i x hx
    · show FrontierRun (regionQuery i data0) [] (regionQuery i run.data)
      rw [hrq]; rfl
    · intro v hv
      simp [startLoop] at hv
    · show (regionQuery i run.data).length ≤ _
      rw [hrq]; simp [startLoop]
    · intro hov
      simp [startLoop] at hov
  · intro run i c st k cur hc hI hk hrel
    have hmem : cur ∈ st.neighbors := List.getElem?_mem hk
    have hlen : st.data.length = data0.length := length_eq_of_coords _ _ hI.coords
    have hcur : cur < data0.length := hI.lt cur hmem
    have hco1 : coordsOf (setClusterId st.data cur c) = coordsOf data0 := by
      rw [coordsOf_setClusterId]; exact hI.coords
    have hrq : regionQuery cur (setClusterId st.data cur c) = regionQuery cur data0 :=
      seqV2_regionQuery_congr _ _ hco1 cur
    have hold : clusterId st.data cur ≤ 0 := by
      rcases hrel with h0 | h0 <;> rw [h0] <;> decide
    have hstep := entered_step st.data
      (entered run.expansions ++ (i :: st.visits.map Visit.point)) cur c hc
      (by omega) hold hI.nodup hI.pos
    have hshape : ∀ v : Visit, v.point = cur →
        entered run.expansions ++ (i :: (st.visits ++ [v]).map Visit.point) =
          (entered run.expansions ++ (i :: st.visits.map Visit.point)) ++ [cur] := by
      intro v hv
      simp [hv]
    have hsum : ∀ v : Visit, v.point = cur →
        (((st.visits ++ [v]).map Visit.point).map
            (fun p => (regionQuery p data0).length)).sum =
          ((st.visits.map Visit.point).map (fun p => (regionQuery p data0).length)).sum +
            (regionQuery cur data0).length := by
      intro v hv
      simp [hv]
    have hbound := hI.bound
    refine ⟨?_, ?_, ?_⟩
    · intro hge _
      refine ⟨hco1, hI.coords0, hI.seed, ?_, ?_, hI.exps, ?_, ?_, ?_, ?_, hI.over⟩
      · show (entered run.expansions ++ (i :: (st.visits ++ [_]).map Visit.point)).Nodup
        rw [hshape _ rfl]; exact hstep.1
      · intro p hp
        have hp' : p ∈ entered run.expansions ++ (i :: (st.visits ++ [_]).map Visit.point) :=
          hp
        rw [hshape _ rfl] at hp'
        exact hstep.2 p hp'
      · intro x hx
        have hx : x ∈ st.neighbors ++ regionQuery cur (setClusterId st.data cur c) := hx
        rw [hrq] at hx
        rcases List.mem_append.mp hx with hx | hx
        · exact hI.lt x hx
        · exact seqV2_regionQuery_lt data0 cur x hx
      · exact frontierRun_snoc _ _ _ _ hI.run rfl
      · intro v hv
        have hv : v ∈ st.visits ++ [_] := hv
        show _ ∧ v.after.length ≤
          (st.neighbors ++ regionQuery cur (setClusterId st.data cur c)).length
        rcases List.mem_append.mp hv with hv | hv
        · refine ⟨(hI.visits v hv).1, ?_⟩
          have := (hI.visits v hv).2
          rw [List.length_append]
          omega
        · rw [List.mem_singleton] at hv
          rw [hv]
          refine ⟨⟨hcur, hrel, congrArg List.length hrq, Or.inr ⟨hge, ?_⟩⟩, le_refl _⟩
          show st.neighbors ++ regionQuery cur (setClusterId st.data cur c) = _
          rw [hrq]
      · show (st.neighbors ++ regionQuery cur (setClusterId st.data cur c)).length ≤
          _ + (((st.visits ++ [_]).map Visit.point).map _).sum
        rw [hsum _ rfl, List.length_append, hrq]
        omega
    · intro _ hov
      have hnot : cur ∉ entered run.expansions ++ (i :: st.visits.map Visit.point) :=
        fun hm => by
          have := hI.pos cur hm
          omega
      refine ⟨hco1, hI.coords0, hI.seed, hI.nodup, ?_, hI.exps, hI.lt, hI.run, hI.visits,
        hI.bound, ?_⟩
      · intro p hp
        have hne : p ≠ cur := fun e => hnot (e ▸ hp)
        show 0 < clusterId (setClusterId st.data cur c) p
        rw [clusterId_setClusterId_ne st.data cur p c hne]
        exact hI.pos p hp
      · intro _
        have hnd : ((i :: st.visits.map Visit.point) ++ [cur]).Nodup := by
          have h1 := hstep.1
          rw [List.append_assoc] at h1
          exact List.Nodup.of_append_right h1
        have hlt : ∀ x ∈ (i :: st.visits.map Visit.point) ++ [cur], x < data0.length := by
          intro x hx
          rcases List.mem_append.mp hx with hx | hx
          · rcases List.mem_cons.mp hx with hx | hx
            · rw [hx]; exact hI.seed
            · obtain ⟨v, hv, rfl⟩ := List.mem_map.mp hx
              exact (hI.visits v hv).1.1
          · rw [List.mem_singleton] at hx
            rw [hx]; exact hcur
        have hs := sum_map_le_of_nodup (fun p => (regionQuery p data0).length) data0.length
          _ hnd hlt
        have ht := seqV2_totalNeighbors_le data0
        unfold totalNeighbors at ht
        rw [hrq] at hov
        simp only [List.map_append, List.map_cons, List.sum_append, List.sum_cons,
          List.map_nil, List.sum_nil] at hs
        omega
    · intro hlt
      refine ⟨hco1, hI.coords0, hI.seed, ?_, ?_, hI.exps, hI.lt,
        frontierRun_snoc _ _ _ _ hI.run rfl, ?_, ?_, hI.over⟩
      · show (entered run.expansions ++ (i :: (st.visits ++ [_]).map Visit.point)).Nodup
        rw [hshape _ rfl]; exact hstep.1
      · intro p hp
        have hp' : p ∈ entered run.expansions ++ (i :: (st.visits ++ [_]).map Visit.point) :=
          hp
        rw [hshape _ rfl] at hp'
        exact hstep.2 p hp'
      · intro v hv
        have hv : v ∈ st.visits ++ [_] := hv
        rcases List.mem_append.mp hv with hv | hv
        · exact hI.visits v hv
        · rw [List.mem_singleton] at hv
          rw [hv]
          exact ⟨⟨hcur, hrel, congrArg List.length hrq, Or.inl rfl⟩, le_refl _⟩
      · show st.neighbors.length ≤ _ + (((st.visits ++ [_]).map Visit.point).map _).sum
        rw [hsum _ rfl]
        omega
  · intro run i c st hI
    have hrq : regionQuery i run.data = regionQuery i data0 :=
      seqV2_regionQuery_congr _ _ hI.coords0 i
    refine ⟨hI.coords, ?_, ?_, ?_⟩
    · show (entered (run.expansions ++ [_])).Nodup
      rw [entered_append]; exact hI.nodup
    · show ∀ p ∈ entered (run.expansions ++ [_]), _
      rw [entered_append]; exact hI.pos
    · intro x hx
      have hx : x ∈ run.expansions ++ [_] := hx
      rcases List.mem_append.mp hx with hx | hx
      · exact hI.exps x hx
      · rw [List.mem_singleton] at hx
        rw [hx]
        refine ⟨hI.seed, hrq, ?_, hI.visits, List.Nodup.of_append_right hI.nodup, ?_⟩
        · show FrontierRun (regionQuery i run.data) st.visits st.neighbors
          rw [hrq]; exact hI.run
        · show st.neighbors.length ≤ (regionQuery i run.data).length + _
          rw [hrq]; exact hI.bound
  · intro run i c st hI hov
    exact hI.over hov

theorem seqV2_final_le_total (data0 : Dataset) (e : Expansion) (he : ExpOnce data0 e) :
    e.final.length ≤ totalNeighbors data0 := by
  obtain ⟨hseed, hstart, _, hvs, hnd, hbound⟩ := he
  have hlt : ∀ x ∈ e.seed :: e.visits.map Visit.point, x < data0.length := by
    intro x hx
    rcases List.mem_cons.mp hx with hx | hx
    · rw [hx]; exact hseed
    · obtain ⟨v, hv, rfl⟩ := List.mem_map.mp hx
      exact (hvs v hv).1.1
  have := sum_map_le_of_nodup (fun p => (regionQuery p data0).length) data0.length _ hnd hlt
  unfold totalNeighbors
  rw [hstart] at hbound
  simp only [List.map_cons, List.sum_cons] at this
  omega

end SeqV2

end DBSCAN

namespace DBSCAN

namespace SeqV2

/-- In a dataset whose points are pairwise within `EPSILON`, the neighbour list of a point is
every other index. -/
theorem seqV2_blob_regionQuery (data : Dataset)
    (hw : ∀ a b, a < data.length → b < data.length → a ≠ b →
      withinEpsilon (getPoint data a) (getPoint data b) = true)
    (p : Nat) (hp : p < data.length) :
    regionQuery p data = (List.range data.length).filter (fun i => decide (p ≠ i)) := by
  unfold regionQuery
  apply List.filter_congr
  intro i hi
  by_cases hpi : p = i
  · simp [hpi]
  · simp [hpi, hw p i hp (List.mem_range.mp hi) hpi]

theorem seqV2_blob_length (data : Dataset)
    (hw : ∀ a b, a < data.length → b < data.length → a ≠ b →
      withinEpsilon (getPoint data a) (getPoint data b) = true)
    (p : Nat) (hp : p < data.length) :
    (regionQuery p data).length = data.length - 1 := by
  rw [seqV2_blob_regionQuery data hw p hp]
  have h1 : (List.range data.length).filter (fun i => decide (p ≠ i))
      = (List.range data.length).erase p := by
    rw [List.Nodup.erase_eq_filter (List.nodup_range _)]
    apply List.filter_congr
    intro i _
    by_cases h : p = i
    · simp [h]
    · have h' : ¬ i = p := fun e => h e.symm
      simp [h, h']
  rw [h1, List.length_erase_of_mem (List.mem_range.mpr hp), List.length_range]

theorem seqV2_blob_first (n j : Nat) (hj : j + 1 < n) :
    ((List.range n).filter (fun i => decide (0 ≠ i)))[j]? = some (j + 1) := by
  cases n with
  | zero => omega
  | succ m =>
    rw [List.range_succ_eq_map, List.filter_cons]
    simp only [ne_eq, not_true_eq_false, decide_False, Bool.false_eq_true, ↓reduceIte]
    have hall : (List.map Nat.succ (List.range m)).filter (fun i => decide (0 ≠ i))
        = List.map Nat.succ (List.range m) := by
      apply List.filter_eq_self.mpr
      intro a ha
      obtain ⟨b, _, rfl⟩ := List.mem_map.mp ha
      simp
    rw [hall]
    rw [List.getElem?_map, List.getElem?_range (by omega)]
    rfl

theorem seqV2_blob_arith (n : Nat) (hn : 2 ≤ n) :
    (n - 2 + 1) * (n - 1) + (n - 1) = n * (n - 1) := by
  obtain ⟨k, rfl⟩ : ∃ k, n = k + 2 := ⟨n - 2, by omega⟩
  have h1 : k + 2 - 2 = k := by omega
  have h2 : k + 2 - 1 = k + 1 := by omega
  rw [h1, h2]
  ring

/-- The frontier loop on pairwise near points: while the loop is inside the seed's own neighbour
list, every iteration appends `n - 1` entries; the loop is left by overflow as soon as the
length leaves the range of `int`. -/
theorem seqV2_blob_loop (data0 : Dataset)
    (hw : ∀ a b, a < data0.length → b < data0.length → a ≠ b →
      withinEpsilon (getPoint data0 a) (getPoint data0 b) = true)
    (hn4 : 4 ≤ data0.length) (c : Int) :
    ∀ (m fuel i : Nat) (st : Loop), coordsOf st.data = coordsOf data0 → m < fuel →
      i + m + 1 < data0.length →
      (∀ j, j + 1 < data0.length → st.neighbors[j]? = some (j + 1)) →
      (∀ p, i < p → p < data0.length → clusterId st.data p = UNCLASSIFIED) →
      INT_MAX < st.neighbors.length + (m + 1) * (data0.length - 1) →
      ∃ out, expandLoop fuel i c st = some out ∧ out.overflow = true := by
  intro m
  induction m with
  | zero =>
    intro fuel i st hco hfuel hi hF hlab hbig
    obtain ⟨fuel', rfl⟩ : ∃ f, fuel = f + 1 := ⟨fuel - 1, by omega⟩
    have hco1 : coordsOf (setClusterId st.data (i + 1) c) = coordsOf data0 := by
      rw [coordsOf_setClusterId]; exact hco
    have hrq : regionQuery (i + 1) (setClusterId st.data (i + 1) c) = regionQuery (i + 1) data0 :=
      seqV2_regionQuery_congr _ _ hco1 (i + 1)
    have hlen := seqV2_blob_length data0 hw (i + 1) (by omega)
    rw [expandLoop, hF i (by omega)]
    simp only
    rw [if_pos (Or.inl (hlab (i + 1) (by omega) (by omega))), hrq, hlen,
      if_pos (by unfold MIN_POINTS; omega), if_pos (by omega)]
    exact ⟨_, rfl, rfl⟩
  | succ m ih =>
    intro fuel i st hco hfuel hi hF hlab hbig
    obtain ⟨fuel', rfl⟩ : ∃ f, fuel = f + 1 := ⟨fuel - 1, by omega⟩
    have hco1 : coordsOf (setClusterId st.data (i + 1) c) = coordsOf data0 := by
      rw [coordsOf_setClusterId]; exact hco
    have hrq : regionQuery (i + 1) (setClusterId st.data (i + 1) c) = regionQuery (i + 1) data0 :=
      seqV2_regionQuery_congr _ _ hco1 (i + 1)
    have hlen := seqV2_blob_length data0 hw (i + 1) (by omega)
    rw [expandLoop, hF i (by omega)]
    simp only
    rw [if_pos (Or.inl (hlab (i + 1) (by omega) (by omega))), hrq, hlen,
      if_pos (by unfold MIN_POINTS; omega)]
    by_cases hov : INT_MAX < st.neighbors.length + (data0.length - 1)
    · rw [if_pos hov]
      exact ⟨_, rfl, rfl⟩
    · rw [if_neg hov]
      have hFlen : data0.length - 1 ≤ st.neighbors.length := by
        by_contra hlt
        have := hF (data0.length - 2) (by omega)
        have h2 : data0.length - 2 < st.neighbors.length :=
          (List.getElem?_eq_some_iff.mp this).1
        omega
      refine ih fuel' (i + 1) _ hco1 (by omega) (by omega) ?_ ?_ ?_
      · intro j hj
        show (st.neighbors ++ regionQuery (i + 1) data0)[j]? = some (j + 1)
        rw [List.getElem?_append_left (by omega)]
        exact hF j hj
      · intro p hp hpn
        show clusterId (setClusterId st.data (i + 1) c) p = UNCLASSIFIED
        rw [clusterId_setClusterId_ne st.data (i + 1) p c (by omega)]
        exact hlab p (by omega) hpn
      · show INT_MAX < (st.neighbors ++ regionQuery (i + 1) data0).length + _
        rw [List.length_append, hlen]
        have : (m + 1 + 1) * (data0.length - 1)
            = (data0.length - 1) + (m + 1) * (data0.length - 1) := by ring
        omega

/-- On a dataset of pairwise near points whose number `n` has `n * (n - 1)` above `INT_MAX`, the
run of `dbscan` ends inside the first expansion, with the frontier length out of the range of
`int`. -/
theorem seqV2_blob_overflow (data : Dataset) (hU : AllUnclassified data)
    (hw : ∀ a b, a < data.length → b < data.length → a ≠ b →
      withinEpsilon (getPoint data a) (getPoint data b) = true)
    (hbig : INT_MAX < data.length * (data.length - 1)) (fuel : Nat)
    (hfuel : data.length ≤ fuel) :
    ∃ run, dbscan fuel data = some (Ending.intOverflow 0, run) := by
  have hn4 : 4 ≤ data.length := by
    by_contra h
    have h3 : data.length ≤ 3 := by omega
    have : data.length * (data.length - 1) ≤ 3 * 3 :=
      Nat.mul_le_mul h3 (by omega)
    unfold INT_MAX at hbig
    omega
  obtain ⟨m, hm⟩ : ∃ m, data.length = m + 1 := ⟨data.length - 1, by omega⟩
  have h0 : clusterId data 0 = UNCLASSIFIED := by
    rw [clusterId_eq_getD]
    exact labelsOf_allUnclassified data hU 0
  have hlen0 := seqV2_blob_length data hw 0 (by omega)
  obtain ⟨out, hout, hov⟩ := seqV2_blob_loop data hw hn4 1 (data.length - 2) fuel 0
    { data := setClusterId data 0 1
      neighbors := regionQuery 0 data
      overflow := false
      visits := [] }
    (coordsOf_setClusterId data 0 1) (by omega) (by omega)
    (by
      intro j hj
      show (regionQuery 0 data)[j]? = some (j + 1)
      rw [seqV2_blob_regionQuery data hw 0 (by omega)]
      exact seqV2_blob_first data.length j hj)
    (by
      intro p hp hpn
      show clusterId (setClusterId data 0 1) p = UNCLASSIFIED
      rw [clusterId_setClusterId_ne data 0 p 1 (by omega), clusterId_eq_getD]
      exact labelsOf_allUnclassified data hU p)
    (by
      show INT_MAX < (regionQuery 0 data).length + _
      rw [hlen0]
      have := seqV2_blob_arith data.length (by omega)
      omega)
  have hge : ¬ (regionQuery 0 data).length < MIN_POINTS := by
    rw [hlen0]; unfold MIN_POINTS; omega
  unfold dbscan
  rw [hm, List.range_succ_eq_map, dbscanLoop]
  simp only [h0, ne_eq, not_true_eq_false, ↓reduceIte, hge]
  unfold expandCluster
  rw [hout]
  simp only [hov, ↓reduceIte]
  exact ⟨_, rfl⟩

end SeqV2

end DBSCAN

namespace DBSCAN

theorem getPoint_sampleCrowd (a : Nat) : getPoint sampleCrowd a = ⟨0, 0, 0⟩ := by
  unfold getPoint sampleCrowd
  rw [List.getD_eq_getElem?_getD, List.getElem?_replicate]
  split <;> rfl

theorem length_sampleCrowd : sampleCrowd.length = 46342 := by
  unfold sampleCrowd
  exact List.length_replicate _ _

theorem allUnclassified_sampleCrowd : AllUnclassified sampleCrowd := by
  intro p hp
  unfold sampleCrowd at hp
  rw [List.eq_of_mem_replicate hp]
  rfl

theorem within_sampleCrowd (a b : Nat) :
    withinEpsilon (getPoint sampleCrowd a) (getPoint sampleCrowd b) = true := by
  rw [getPoint_sampleCrowd, getPoint_sampleCrowd]
  exact withinEpsilon_self _ ⟨trivial, trivial⟩

end DBSCAN

namespace DBSCAN

namespace Seq

/-- C7 (`src/dbscan_seq.c`, monotonic relabelling): the run of `dbscan` ends for every answer of
the allocator, at the end of its loop or at the call of `free` on a block that `realloc` had
moved.  Whichever it is, the writes made up to there are all recorded (replaying them on the
initial dataset gives the dataset as the run leaves it, and each recorded old value is the one
found), every write replaces `UNCLASSIFIED` or `NOISE`, the first write to a point replaces
`UNCLASSIFIED`, and a point that holds a positive id after any prefix of the writes holds the
same id after any longer prefix. -/
theorem writes_replace_only_unclassified_or_noise (alloc : Realloc) (data : Dataset)
    (hU : AllUnclassified data) (fuel : Nat) (hfuel : fuelFor data.length ≤ fuel) :
    ∃ e run, dbscan alloc fuel data = some (e, run) ∧
      Faithful data run.writes ∧ replay data run.writes = run.data ∧
      (∀ w ∈ run.writes, w.old = UNCLASSIFIED ∨ w.old = NOISE) ∧
      (∀ l1 w l2, run.writes = l1 ++ w :: l2 → (∀ w1 ∈ l1, w1.idx ≠ w.idx) →
        w.old = UNCLASSIFIED) ∧
      (∀ l1 l2, run.writes = l1 ++ l2 → ∀ k, 0 < clusterId (replay data l1) k →
        ∀ l3 l4, l2 = l3 ++ l4 →
          clusterId (replay data (l1 ++ l3)) k = clusterId (replay data l1) k) := by
  obtain ⟨e, run, hrun, _⟩ := seq_dbscan_ends alloc data fuel hfuel
  obtain ⟨h1, h2, h3⟩ := seq_run_log alloc data fuel e run hrun
  refine ⟨e, run, hrun, h1, h2, h3, ?_, ?_⟩
  · intro l1 w l2 hsplit hfirst
    rw [hsplit] at h1
    have hw := ((faithful_append data l1 (w :: l2)).mp h1).2.1
    rw [← hw, replay_other data l1 w.idx hfirst, clusterId_eq_getD]
    exact labelsOf_allUnclassified data hU w.idx
  · intro l1 l2 hsplit k hk l3 l4 hsplit2
    subst hsplit2
    rw [hsplit] at h1 h3
    rw [replay_append]
    have hf2 := ((faithful_append data l1 (l3 ++ l4)).mp h1).2
    have hf3 := ((faithful_append (replay data l1) l3 l4).mp hf2).1
    exact replay_keeps_positive _ l3 hf3
      (fun w hw => h3 w (by simp [hw])) k hk

theorem writes_replace_only_unclassified_or_noise_witness :
    ∃ e run, dbscan growMoves 73 sampleEdge = some (e, run) ∧
      Faithful sampleEdge run.writes ∧ replay sampleEdge run.writes = run.data ∧
      (∀ w ∈ run.writes, w.old = UNCLASSIFIED ∨ w.old = NOISE) ∧
      (∀ l1 w l2, run.writes = l1 ++ w :: l2 → (∀ w1 ∈ l1, w1.idx ≠ w.idx) →
        w.old = UNCLASSIFIED) ∧
      (∀ l1 l2, run.writes = l1 ++ l2 → ∀ k, 0 < clusterId (replay sampleEdge l1) k →
        ∀ l3 l4, l2 = l3 ++ l4 →
          clusterId (replay sampleEdge (l1 ++ l3)) k = clusterId (replay sampleEdge l1) k) :=
  writes_replace_only_unclassified_or_noise growMoves sampleEdge (by decide) 73 (by decide)

/-- The writes of the run on `sampleEdge`, which ends at the stale `free`: point 0 is written
twice, first `NOISE` over `UNCLASSIFIED`, then the id 1 over `NOISE`. -/
theorem sampleEdge_writes :
    (dbscan growMoves 73 sampleEdge).map
        (fun r => (r.1, r.2.writes.map (fun w => (w.idx, w.old, w.new)))) =
      some (Ending.staleFree 1, [(0, 0, -1), (1, 0, 1), (0, -1, 1), (2, 0, 1), (3, 0, 1),
        (4, 0, 1), (5, 0, 1), (6, 0, 1), (7, 0, 1)]) := by
  decide!

/-- C22 (`src/dbscan_seq.c`, frontier deduplication): the run of `dbscan` ends for every answer
of the allocator, at the end of its loop or at the stale `free`, and in every expansion made up
to there the frontier starts as the seed's `regionQuery` result, the recorded visits account for
every change of it up to loop exit, and every frontier on the way (initial, before and after each
visit, final) has no index twice and at most `n` entries; a visit leaves the frontier as it was
or appends the neighbours that are not yet in it. -/
theorem frontier_has_no_index_twice (alloc : Realloc) (data : Dataset) (fuel : Nat)
    (hfuel : fuelFor data.length ≤ fuel) :
    ∃ e run, dbscan alloc fuel data = some (e, run) ∧
      ∀ x ∈ run.expansions, x.start = regionQuery x.seed data ∧
        FrontierRun x.start x.visits x.final ∧
        x.start.Nodup ∧ x.start.length ≤ data.length ∧
        x.final.Nodup ∧ x.final.length ≤ data.length ∧
        ∀ v ∈ x.visits, v.before.Nodup ∧ v.before.length ≤ data.length ∧
          v.after.Nodup ∧ v.after.length ≤ data.length ∧
          (v.after = v.before ∨
            v.after = appendIfAbsent v.before (regionQuery v.point data)) := by
  obtain ⟨e, run, hrun, _⟩ := seq_dbscan_ends alloc data fuel hfuel
  refine ⟨e, run, hrun, ?_⟩
  intro x hx
  obtain ⟨hst, hfr, hS, hF, hvs⟩ := seq_run_dedup alloc data fuel e run hrun x hx
  refine ⟨hst, hfr, hS.1, hS.length_le, hF.1, hF.length_le, ?_⟩
  intro v hv
  obtain ⟨hb, ha, hg⟩ := hvs v hv
  exact ⟨hb.1, hb.length_le, ha.1, ha.length_le, hg⟩

theorem frontier_has_no_index_twice_witness :
    ∃ e run, dbscan inPlace 157 sampleSixes = some (e, run) ∧
      ∀ x ∈ run.expansions, x.start = regionQuery x.seed sampleSixes ∧
        FrontierRun x.start x.visits x.final ∧
        x.start.Nodup ∧ x.start.length ≤ sampleSixes.length ∧
        x.final.Nodup ∧ x.final.length ≤ sampleSixes.length ∧
        ∀ v ∈ x.visits, v.before.Nodup ∧ v.before.length ≤ sampleSixes.length ∧
          v.after.Nodup ∧ v.after.length ≤ sampleSixes.length ∧
          (v.after = v.before ∨
            v.after = appendIfAbsent v.before (regionQuery v.point sampleSixes)) :=
  frontier_has_no_index_twice inPlace sampleSixes 157 (by decide)

/-- The frontiers of the run on `sampleSplit`, which ends at the stale `free` after its only
expansion: the seed's four neighbours, and nine entries at loop exit, each index once. -/
theorem sampleSplit_frontier :
    (dbscan growMoves 91 sampleSplit).map
        (fun r => (r.1, r.2.expansions.map (fun x => (x.seed, x.start, x.final)))) =
      some (Ending.staleFree 0, [(0, [0, 2, 7, 8], [0, 2, 7, 8, 3, 1, 4, 5, 6])]) := by
  decide!

/-- C23 (`src/dbscan_seq.c`, started from an all-`UNCLASSIFIED` dataset): the run of `dbscan`
ends for every answer of the allocator, at the end of its loop or at the stale `free`, and every
visit of every expansion made up to there read `UNCLASSIFIED` or `NOISE` for its point and
counted the neighbours of that point; a visit that read `NOISE` counted fewer than `MIN_POINTS`
and left the frontier as it was, and a visit that changed the frontier read `UNCLASSIFIED` and
counted at least `MIN_POINTS`. -/
theorem noise_visits_leave_frontier (alloc : Realloc) (data : Dataset)
    (hU : AllUnclassified data) (fuel : Nat) (hfuel : fuelFor data.length ≤ fuel) :
    ∃ e run, dbscan alloc fuel data = some (e, run) ∧
      ∀ x ∈ run.expansions, FrontierRun x.start x.visits x.final ∧
        ∀ v ∈ x.visits, (v.old = UNCLASSIFIED ∨ v.old = NOISE) ∧
          v.found = (regionQuery v.point data).length ∧
          (v.old = NOISE → v.found < MIN_POINTS ∧ v.after = v.before) ∧
          (v.after ≠ v.before → v.old = UNCLASSIFIED ∧ MIN_POINTS ≤ v.found) := by
  obtain ⟨e, run, hrun, _⟩ := seq_dbscan_ends alloc data fuel hfuel
  exact ⟨e, run, hrun, seq_run_quiet alloc data hU fuel e run hrun⟩

theorem noise_visits_leave_frontier_witness :
    ∃ e run, dbscan growMoves 21 sampleLate = some (e, run) ∧
      ∀ x ∈ run.expansions, FrontierRun x.start x.visits x.final ∧
        ∀ v ∈ x.visits, (v.old = UNCLASSIFIED ∨ v.old = NOISE) ∧
          v.found = (regionQuery v.point sampleLate).length ∧
          (v.old = NOISE → v.found < MIN_POINTS ∧ v.after = v.before) ∧
          (v.after ≠ v.before → v.old = UNCLASSIFIED ∧ MIN_POINTS ≤ v.found) :=
  noise_visits_leave_frontier growMoves sampleLate (by decide) 21 (by decide)

/-- The query is issued for `NOISE` points as well: on `sampleLate` the run reaches the end of
its loop, and its single expansion (seed 1) visits point 0, read as `NOISE`, and counts its two
neighbours, then points 2 and 3, read as `UNCLASSIFIED`, with three neighbours each. -/
theorem sampleLate_visits :
    (dbscan growMoves 21 sampleLate).map (fun r => r.1) = some Ending.finished ∧
    (dbscan growMoves 21 sampleLate).map
        (fun r => r.2.expansions.map
          (fun x => (x.seed, x.visits.map (fun v => (v.point, v.old, v.found))))) =
      some [(1, [(0, -1, 2), (2, 0, 3), (3, 0, 3)])] := by
  decide!

end Seq

end DBSCAN

namespace DBSCAN

namespace Seq

/-- C9, the claim as stated fails (`src/dbscan_seq.c`, `regionQuery`): on `sampleMargin` the query
for point 0 lists point 1, whose exact distance from point 0 exceeds `EPSILON` (the sum
`1 + 2^-60` is rounded to 1 before the square root is taken), and on `sampleNaN` the query for
point 0 does not list point 0 (a comparison with a NaN is false). -/
theorem regionQuery_differs_from_exact_ball :
    regionQuery 0 sampleMargin = [0, 1, 2] ∧
    ¬ WithinExact (getPoint sampleMargin 0) (getPoint sampleMargin 1) ∧
    euclidean_distance (getPoint sampleMargin 0) (getPoint sampleMargin 1) = 1 ∧
    regionQuery 0 sampleNaN = [] := by
  decide!

/-- C9 as amended (`src/dbscan_seq.c`, `regionQuery`): for a valid index `p` the result is
strictly ascending and lists exactly the indices `i < n` for which the value of
`euclidean_distance(points[p], points[i])`, computed in double precision, is at most `EPSILON`;
a point whose computed distance is exactly `EPSILON` is listed, and `p` itself is listed when its
coordinates are finite, and not listed otherwise. -/
theorem regionQuery_lists_closed_ball (data : Dataset) (p : Nat) (hp : p < data.length) :
    (regionQuery p data).Pairwise (fun i j => i < j) ∧
      (∀ i, i ∈ regionQuery p data ↔
        (i < data.length ∧
          Dbl.le (euclidean_distance (getPoint data p) (getPoint data i)) EPSILON = true)) ∧
      (∀ i, i < data.length →
        euclidean_distance (getPoint data p) (getPoint data i) = EPSILON →
        i ∈ regionQuery p data) ∧
      (p ∈ regionQuery p data ↔ (getPoint data p).Finite) := by
  refine ⟨?_, ?_, ?_, ?_⟩
  · unfold regionQuery
    exact List.Pairwise.filter _ (List.pairwise_lt_range _)
  · intro i
    rw [seq_mem_regionQuery]
    rfl
  · intro i hi h
    rw [seq_mem_regionQuery]
    refine ⟨hi, ?_⟩
    unfold withinEpsilon
    rw [h]
    decide!
  · rw [seq_mem_regionQuery]
    constructor
    · intro h
      by_contra hf
      rw [withinEpsilon_self_of_not_finite _ hf] at h
      exact absurd h.2 (by decide)
    · intro hf
      exact ⟨hp, withinEpsilon_self _ hf⟩

theorem regionQuery_lists_closed_ball_witness :
    (regionQuery 1 sampleRow).Pairwise (fun i j => i < j) ∧
      (∀ i, i ∈ regionQuery 1 sampleRow ↔
        (i < sampleRow.length ∧
          Dbl.le (euclidean_distance (getPoint sampleRow 1) (getPoint sampleRow i)) EPSILON
            = true)) ∧
      (∀ i, i < sampleRow.length →
        euclidean_distance (getPoint sampleRow 1) (getPoint sampleRow i) = EPSILON →
        i ∈ regionQuery 1 sampleRow) ∧
      (1 ∈ regionQuery 1 sampleRow ↔ (getPoint sampleRow 1).Finite) :=
  regionQuery_lists_closed_ball sampleRow 1 (by decide)

/-- The query for point 1 of `sampleRow`: the points 0 and 2, at computed distance exactly
`EPSILON`, are listed with point 1 itself, the far point 3 is not. -/
theorem sampleRow_regionQuery :
    regionQuery 1 sampleRow = [0, 1, 2] ∧
    euclidean_distance (getPoint sampleRow 1) (getPoint sampleRow 0) = EPSILON := by
  decide!

end Seq

end DBSCAN

namespace DBSCAN
namespace Par

theorem forest_in_range (P : List Nat) (hf : Forest P) (i p : Nat) (h : P[i]? = some p) :
    p < P.length := by
  have hi : i < P.length := (List.getElem?_eq_some_iff.mp h).1
  obtain ⟨r, k, hk⟩ := hf i hi
  cases hk with
  | root _ hr =>
    rw [hr] at h
    cases h
    exact hi
  | step _ p' _ _ hp _ hrest =>
    rw [hp] at h
    cases h
    exact hrest.ltAt

theorem ufInv_of_forest (P : List Nat) (hf : Forest P) : UFInv P :=
  ⟨forest_in_range P hf, hf⟩

theorem onPath_root {P : List Nat} {r x : Nat} (hr : P[r]? = some r) (h : OnPath P r x) :
    x = r := by
  cases h with
  | here _ => rfl
  | next _ p _ hp hne _ =>
    rw [hr] at hp
    exact absurd (Option.some.inj hp).symm hne

theorem onPath_step {P : List Nat} {i p x : Nat} (hp : P[i]? = some p) (hne : p ≠ i) :
    OnPath P i x ↔ (x = i ∨ OnPath P p x) := by
  constructor
  · intro h
    cases h with
    | here _ => exact Or.inl rfl
    | next _ p' _ hp' _ hrest =>
      rw [hp] at hp'
      cases hp'
      exact Or.inr hrest
  · rintro (e | h)
    · subst e; exact OnPath.here _
    · exact OnPath.next i p x hp hne h

/-- Effect of `uf_find` on the parent array: the indices on the path from `i` point to the root,
the others are untouched. -/
theorem uf_find_path : ∀ (fuel : Nat) (P : List Nat) (i r k : Nat), RootAt P i r k → k < fuel →
    ∃ P', uf_find fuel P i = some (P', r) ∧ P'.length = P.length ∧
      (∀ x, OnPath P i x → P'[x]? = some r) ∧ (∀ x, ¬ OnPath P i x → P'[x]? = P[x]?) := by
  intro fuel
  induction fuel with
  | zero => intro P i r k _ h; omega
  | succ fuel ih =>
    intro P i r k h hk
    rw [uf_find]
    cases h with
    | root _ hr =>
      rw [hr]
      simp only [if_true]
      refine ⟨P, rfl, rfl, fun x hx => ?_, fun _ _ => rfl⟩
      rw [onPath_root hr hx]; exact hr
    | step _ p _ k' hp hne hrest =>
      rw [hp]
      simp only [if_neg hne]
      obtain ⟨P1, h1, hlen, hon, hoff⟩ := ih P p r k' hrest (by omega)
      rw [h1]
      have hi : i < P1.length := by rw [hlen]; exact (List.getElem?_eq_some_iff.mp hp).1
      have hset : ∀ x, (P1.set i r)[x]? = if x = i then some r else P1[x]? := by
        intro x
        rw [List.getElem?_set]
        by_cases hx : i = x
        · subst hx; simp [hi]
        · have : ¬ x = i := fun e => hx e.symm
          simp [hx, this]
      refine ⟨P1.set i r, rfl, by simp [hlen], fun x hx => ?_, fun x hx => ?_⟩
      · rw [hset]
        split
        · rfl
        · rename_i hxi
          rcases (onPath_step hp hne).mp hx with e | h
          · exact absurd e hxi
          · exact hon x h
      · have hxi : x ≠ i := fun e => hx (e ▸ OnPath.here _)
        rw [hset, if_neg hxi]
        exact hoff x (fun h => hx ((onPath_step hp hne).mpr (Or.inr h)))

/-- The steps of `uf_union`, named: the roots `ri`, `rj` of `i`, `j`, the forest `P4` left by the
finds (same roots as `P`), and the attachment when the roots differ. -/
theorem uf_union_detail (fuel : Nat) (P : List Nat) (i j : Nat) (hf : Forest P)
    (hi : i < P.length) (hj : j < P.length) (hfuel : P.length ≤ fuel) :
    ∃ P' ri rj P4, uf_union fuel P i j = some P' ∧ Root P i ri ∧ Root P j rj ∧
      SameRoots P P4 ∧ (ri = rj → P' = P4) ∧ (ri ≠ rj → P' = P4.set rj ri) := by
  obtain ⟨P1, ri, hfind1, hs1, hri⟩ := uf_find_ok fuel P i hf hi hfuel
  have hf1 := hs1.forest hf
  obtain ⟨P2, rj, hfind2, hs2, hrj1⟩ := uf_find_ok fuel P1 j hf1 (by rw [← hs1.1]; exact hj)
    (by rw [← hs1.1]; exact hfuel)
  have hs12 := hs1.roots_trans hs2
  have hf2 := hs12.forest hf
  have hrj : Root P j rj := (hs1.2 j rj).mpr hrj1
  unfold uf_union
  rw [hfind1]
  simp only
  rw [hfind2]
  simp only
  by_cases hne : ri = rj
  · subst hne
    simp only [ne_eq, not_true_eq_false, if_false]
    exact ⟨P2, ri, ri, P2, rfl, hri, hrj, hs12, fun _ => rfl, fun h => absurd rfl h⟩
  · simp only [ne_eq, hne, not_false_eq_true, if_true]
    obtain ⟨P3, ri', hfind3, hs3, hri3⟩ := uf_find_ok fuel P2 i hf2 (by rw [← hs12.1]; exact hi)
      (by rw [← hs12.1]; exact hfuel)
    have hs13 := hs12.roots_trans hs3
    have hf3 := hs13.forest hf
    obtain ⟨P4, rj', hfind4, hs4, hrj4⟩ := uf_find_ok fuel P3 j hf3 (by rw [← hs13.1]; exact hj)
      (by rw [← hs13.1]; exact hfuel)
    have hs14 := hs13.roots_trans hs4
    have e1 : ri' = ri := Root.functional ((hs12.2 i ri').mpr hri3) hri
    have e2 : rj' = rj := Root.functional ((hs13.2 j rj').mpr hrj4) hrj
    rw [e1] at hfind3
    rw [e2] at hfind4
    rw [hfind3]
    simp only
    rw [hfind4]
    simp only [hne, not_false_eq_true, if_true]
    exact ⟨_, ri, rj, P4, rfl, hri, hrj, hs14, fun h => absurd h hne, fun _ => rfl⟩

end Par
end DBSCAN

namespace DBSCAN

namespace Par

theorem par_chain_iff_core (data : Dataset) (a b : Nat) :
    ChainOf (IsCore data) data a b ↔ Core.CoreChain (neighborList data) data.length a b := by
  constructor
  · intro h
    induction h with
    | refl => exact Relation.ReflTransGen.refl
    | @tail x y _ hedge ih =>
      obtain ⟨hx, hy, hn⟩ := hedge
      by_cases hxy : x = y
      · subst hxy; exact ih
      · exact ih.tail ⟨hx, hy, (par_mem_neighborList data x y).mpr ⟨hn.2.1, hxy, hn.2.2⟩⟩
  · intro h
    refine Relation.ReflTransGen.mono ?_ h
    intro x y ⟨hx, hy, hn⟩
    have := (par_mem_neighborList data x y).mp hn
    exact ⟨hx, hy, hx.1, this.1, this.2.2⟩

/-- A core point within `EPSILON` of a non-core point is listed among its neighbours. -/
theorem par_core_near_mem (data : Dataset) {p q : Nat} (hq : IsCore data q)
    (hp : ¬ IsCore data p) (hn : Near data q p) : q ∈ neighborList data p := by
  have hn' := near_symm data hn
  refine (par_mem_neighborList data p q).mpr ⟨hn'.2.1, ?_, hn'.2.2⟩
  intro e; subst e; exact hp hq

/-- A non-core point with a core neighbour has a lowest-index core neighbour. -/
theorem par_lowest_core_neighbour (data : Dataset) (p : Nat)
    (h : ∃ j, j ∈ neighborList data p ∧ 3 ≤ (neighborList data j).length) :
    ∃ j, j ∈ neighborList data p ∧ 3 ≤ (neighborList data j).length ∧
      ∀ j', j' ∈ neighborList data p → 3 ≤ (neighborList data j').length → j ≤ j' := by
  classical
  refine ⟨Nat.find h, (Nat.find_spec h).1, (Nat.find_spec h).2, fun j' h1 h2 => ?_⟩
  exact Nat.find_min' h ⟨h1, h2⟩

/-- C4 (`src/src/dbscan_par.c`, loops read in index order): `dbscan` returns and two core points
have the same `cluster_id` exactly when they lie in the same connected component of the graph on
core points whose edges join core points within `EPSILON`. -/
theorem core_points_share_id_iff_component (data : Dataset) (fuel : Nat)
    (hfuel : fuelFor data.length ≤ fuel) :
    ∃ out, dbscan fuel data = some out ∧
      ∀ a b, IsCore data a → IsCore data b →
        (clusterId out a = clusterId out b ↔ ChainOf (IsCore data) data a b) := by
  obtain ⟨out, hrun, _, hres⟩ := par_dbscan_correct data fuel hfuel
  refine ⟨out, hrun, fun a b ha hb => ?_⟩
  rw [par_chain_iff_core]
  exact hres.core_iff a b ha hb

theorem core_points_share_id_iff_component_witness :
    ∃ out, dbscan 91 sampleBridge = some out ∧
      ∀ a b, IsCore sampleBridge a → IsCore sampleBridge b →
        (clusterId out a = clusterId out b ↔ ChainOf (IsCore sampleBridge) sampleBridge a b) :=
  core_points_share_id_iff_component sampleBridge 91 (by decide)

/-- C6, the claim as stated fails (`src/src/dbscan_par.c`, loops read in index order): on
`sampleBridge` the engine gives the middle point (index 4) the id 1 of its lower core neighbour,
while its other core neighbour (index 5), also within `EPSILON`, has id 2. -/
theorem near_core_other_id :
    dbscan 91 sampleBridge =
        some [⟨-2, 0, 1⟩, ⟨-2, 0, 1⟩, ⟨-2, 0, 1⟩, ⟨-1, 0, 1⟩, ⟨0, 0, 1⟩, ⟨1, 0, 2⟩, ⟨2, 0, 2⟩,
          ⟨2, 0, 2⟩, ⟨2, 0, 2⟩] ∧
      IsCore sampleBridge 5 ∧ Near sampleBridge 5 4 ∧
      ¬ (∀ out, dbscan 91 sampleBridge = some out →
          ∀ p q, IsCore sampleBridge q → Near sampleBridge q p →
            clusterId out p = clusterId out q) := by
  have hrun : dbscan 91 sampleBridge =
      some [⟨-2, 0, 1⟩, ⟨-2, 0, 1⟩, ⟨-2, 0, 1⟩, ⟨-1, 0, 1⟩, ⟨0, 0, 1⟩, ⟨1, 0, 2⟩, ⟨2, 0, 2⟩,
        ⟨2, 0, 2⟩, ⟨2, 0, 2⟩] := by decide!
  have hcore : IsCore sampleBridge 5 := by decide!
  have hnear : Near sampleBridge 5 4 := by decide!
  refine ⟨hrun, hcore, hnear, fun h => ?_⟩
  have := h _ hrun 4 5 hcore hnear
  revert this
  decide

/-- C6 as amended (`src/src/dbscan_par.c`, loops read in index order): `dbscan` returns; every
core point ends with a positive `cluster_id`; a core point within `EPSILON` of a core point has
the same `cluster_id` as that core point, and a non-core point within `EPSILON` of a core point
has the `cluster_id` of its lowest-index core neighbour. -/
theorem near_core_same_id_or_lowest (data : Dataset) (fuel : Nat)
    (hfuel : fuelFor data.length ≤ fuel) :
    ∃ out, dbscan fuel data = some out ∧
      ∀ p q, IsCore data q → Near data q p →
        0 < clusterId out q ∧
        (IsCore data p → clusterId out p = clusterId out q) ∧
        (¬ IsCore data p →
          ∃ q0, IsCore data q0 ∧ Near data q0 p ∧
            (∀ q', IsCore data q' → Near data q' p → q0 ≤ q') ∧
            clusterId out p = clusterId out q0) := by
  obtain ⟨out, hrun, _, hres⟩ := par_dbscan_correct data fuel hfuel
  refine ⟨out, hrun, fun p q hq hn => ⟨?_, fun hp => ?_, fun hnc => ?_⟩⟩
  · have := hres.core_pos q hq
    omega
  · have hchain : ChainOf (IsCore data) data q p :=
      Relation.ReflTransGen.single ⟨hq, hp, hn⟩
    exact ((hres.core_iff q p hq hp).mpr ((par_chain_iff_core data q p).mp hchain)).symm
  · have hpn : p < data.length := hn.2.1
    obtain ⟨q0, hq0mem, hq0core, hq0min⟩ := par_lowest_core_neighbour data p
      ⟨q, par_core_near_mem data hq hnc hn, hq.2⟩
    have hm := (par_mem_neighborList data p q0).mp hq0mem
    refine ⟨q0, ⟨hm.1, hq0core⟩, near_symm data ⟨hpn, hm.1, hm.2.2⟩, ?_, ?_⟩
    · intro q' hq' hn'
      exact hq0min q' (par_core_near_mem data hq' hnc hn') hq'.2
    · exact hres.border p hpn (fun h => hnc ⟨hpn, h⟩) q0 hq0mem hq0core hq0min

theorem near_core_same_id_or_lowest_witness :
    ∃ out, dbscan 91 sampleBridge = some out ∧
      ∀ p q, IsCore sampleBridge q → Near sampleBridge q p →
        0 < clusterId out q ∧
        (IsCore sampleBridge p → clusterId out p = clusterId out q) ∧
        (¬ IsCore sampleBridge p →
          ∃ q0, IsCore sampleBridge q0 ∧ Near sampleBridge q0 p ∧
            (∀ q', IsCore sampleBridge q' → Near sampleBridge q' p → q0 ≤ q') ∧
            clusterId out p = clusterId out q0) :=
  near_core_same_id_or_lowest sampleBridge 91 (by decide)

end Par

end DBSCAN

namespace DBSCAN
namespace Par

theorem forest_sampleForest : Forest sampleForest := by
  have h0 : RootAt sampleForest 0 0 0 := RootAt.root 0 rfl
  have h1 : RootAt sampleForest 1 0 1 := RootAt.step 1 0 0 0 rfl (by decide) h0
  have h2 : RootAt sampleForest 2 0 2 := RootAt.step 2 1 0 1 rfl (by decide) h1
  intro i hi
  have hi' : i < 3 := hi
  interval_cases i
  · exact ⟨0, 0, h0⟩
  · exact ⟨0, 1, h1⟩
  · exact ⟨0, 2, h2⟩

theorem forest_samplePairs : Forest samplePairs := by
  have h0 : RootAt samplePairs 0 0 0 := RootAt.root 0 rfl
  have h1 : RootAt samplePairs 1 0 1 := RootAt.step 1 0 0 0 rfl (by decide) h0
  have h2 : RootAt samplePairs 2 2 0 := RootAt.root 2 rfl
  have h3 : RootAt samplePairs 3 2 1 := RootAt.step 3 2 2 0 rfl (by decide) h2
  intro i hi
  have hi' : i < 4 := hi
  interval_cases i
  · exact ⟨0, 0, h0⟩
  · exact ⟨0, 1, h1⟩
  · exact ⟨2, 0, h2⟩
  · exact ⟨2, 1, h3⟩

/-- C16 (`src/src/dbscan_par.c`, sequential execution): the forest of `uf_init(n)` has all parent
entries in `0..n-1` with every index reaching a root, and `uf_find(i)` and `uf_union(i, j)` on
valid indices return and preserve this invariant. -/
theorem forest_invariant_init_find_union (n fuel : Nat) (hfuel : n ≤ fuel) :
    UFInv (uf_init n) ∧ (uf_init n).length = n ∧
      (∀ P i, UFInv P → P.length = n → i < n →
        ∃ P' r, uf_find fuel P i = some (P', r) ∧ UFInv P' ∧ P'.length = n) ∧
      (∀ P i j, UFInv P → P.length = n → i < n → j < n →
        ∃ P', uf_union fuel P i j = some P' ∧ UFInv P' ∧ P'.length = n) := by
  refine ⟨ufInv_of_forest _ (forest_uf_init n), by simp [uf_init], ?_, ?_⟩
  · intro P i hinv hlen hi
    obtain ⟨P', r, h1, h2, _⟩ := uf_find_ok fuel P i hinv.2 (by rw [hlen]; exact hi)
      (by rw [hlen]; exact hfuel)
    exact ⟨P', r, h1, ufInv_of_forest _ (h2.forest hinv.2), by rw [← h2.1]; exact hlen⟩
  · intro P i j hinv hlen hi hj
    obtain ⟨P', h1, h2, h3, _⟩ := uf_union_spec fuel P i j hinv.2 (by rw [hlen]; exact hi)
      (by rw [hlen]; exact hj) (by rw [hlen]; exact hfuel)
    exact ⟨P', h1, ufInv_of_forest _ h2, by rw [h3]; exact hlen⟩

theorem forest_invariant_init_find_union_witness :
    UFInv (uf_init 3) ∧ (uf_init 3).length = 3 ∧
      (∀ P i, UFInv P → P.length = 3 → i < 3 →
        ∃ P' r, uf_find 3 P i = some (P', r) ∧ UFInv P' ∧ P'.length = 3) ∧
      (∀ P i j, UFInv P → P.length = 3 → i < 3 → j < 3 →
        ∃ P', uf_union 3 P i j = some P' ∧ UFInv P' ∧ P'.length = 3) :=
  forest_invariant_init_find_union 3 3 (by decide)

/-- C17 (`src/src/dbscan_par.c`, `uf_find`): on a forest satisfying the invariant and a valid
index `i`, `uf_find(i)` returns the root `r` reached from `i`; afterwards every index on the path
from `i` to `r` has parent `r`, every other index keeps its parent, and every index has the same
root as before. -/
theorem uf_find_compresses_path (P : List Nat) (i fuel : Nat) (hinv : UFInv P)
    (hi : i < P.length) (hfuel : P.length ≤ fuel) :
    ∃ P' r, uf_find fuel P i = some (P', r) ∧ Root P i r ∧ P'.length = P.length ∧
      (∀ x, OnPath P i x → P'[x]? = some r) ∧
      (∀ x, ¬ OnPath P i x → P'[x]? = P[x]?) ∧
      (∀ x r', Root P' x r' ↔ Root P x r') := by
  obtain ⟨r, k, hk⟩ := hinv.2 i hi
  have hkf : k < fuel := by have := hk.depth_lt; omega
  obtain ⟨P', h1, hlen, hon, hoff⟩ := uf_find_path fuel P i r k hk hkf
  obtain ⟨P'', h1', hs⟩ := uf_find_spec fuel P i r k hk hkf
  rw [h1] at h1'
  cases h1'
  exact ⟨P', r, h1, ⟨k, hk⟩, hlen, hon, hoff, fun x r' => (hs.2 x r').symm⟩

theorem uf_find_compresses_path_witness :
    ∃ P' r, uf_find 3 sampleForest 2 = some (P', r) ∧ Root sampleForest 2 r ∧
      P'.length = sampleForest.length ∧
      (∀ x, OnPath sampleForest 2 x → P'[x]? = some r) ∧
      (∀ x, ¬ OnPath sampleForest 2 x → P'[x]? = sampleForest[x]?) ∧
      (∀ x r', Root P' x r' ↔ Root sampleForest x r') :=
  uf_find_compresses_path sampleForest 2 3 (ufInv_of_forest _ forest_sampleForest) (by decide)
    (by decide)

/-- C18 (`src/src/dbscan_par.c`, `uf_union`, sequential execution): on a forest satisfying the
invariant and valid `i`, `j`, after `uf_union(i, j)` the two finds return the same root; if `i`
and `j` had the same root every root is unchanged, otherwise the old root of `j` is attached under
the old root of `i`, which is the root of the merged set, and every other root is unchanged; two
indices are in the same set afterwards exactly when they were before or one was in the set of
`i` and the other in the set of `j`. -/
theorem uf_union_merges_two_sets (P : List Nat) (i j fuel : Nat) (hinv : UFInv P)
    (hi : i < P.length) (hj : j < P.length) (hfuel : P.length ≤ fuel) :
    ∃ P' ri rj, uf_union fuel P i j = some P' ∧ Root P i ri ∧ Root P j rj ∧
      UFInv P' ∧ P'.length = P.length ∧
      (∃ P1 P2 r, uf_find fuel P' i = some (P1, r) ∧ uf_find fuel P1 j = some (P2, r)) ∧
      (ri = rj → ∀ x r, Root P' x r ↔ Root P x r) ∧
      (ri ≠ rj → P'[rj]? = some ri ∧ Root P' i ri ∧ Root P' j ri ∧
        ∀ x r, Root P x r → Root P' x (if r = rj then ri else r)) ∧
      (∀ x y, SameSet P' x y ↔
        (SameSet P x y ∨ (SameSet P x i ∧ SameSet P j y) ∨ (SameSet P x j ∧ SameSet P i y))) := by
  have hf := hinv.2
  obtain ⟨P', hun, hf', hlen', hchar⟩ := uf_union_spec fuel P i j hf hi hj hfuel
  obtain ⟨P'', ri, rj, P4, hun', hri, hrj, hs4, hsame, hdiff⟩ :=
    uf_union_detail fuel P i j hf hi hj hfuel
  rw [hun] at hun'
  cases hun'
  have hsame' : SameSet P' i j :=
    (hchar i j).mpr (Or.inr (Or.inl ⟨SameSet.set_refl hf hi, SameSet.set_refl hf hj⟩))
  refine ⟨P', ri, rj, hun, hri, hrj, ufInv_of_forest _ hf', hlen', ?_, ?_, ?_, hchar⟩
  · obtain ⟨P1, r, hfind1, hs1, hr1⟩ := uf_find_ok fuel P' i hf' (by rw [hlen']; exact hi)
      (by rw [hlen']; exact hfuel)
    obtain ⟨P2, r', hfind2, _, hr2⟩ := uf_find_ok fuel P1 j (hs1.forest hf')
      (by rw [← hs1.1, hlen']; exact hj) (by rw [← hs1.1, hlen']; exact hfuel)
    obtain ⟨r0, h1, h2⟩ := hsame'
    have e1 : r = r0 := Root.functional hr1 h1
    have e2 : r' = r0 := Root.functional ((hs1.2 j r').mpr hr2) h2
    rw [e2, ← e1] at hfind2
    exact ⟨P1, P2, r, hfind1, hfind2⟩
  · intro h x r
    rw [hsame h]
    exact (hs4.2 x r).symm
  · intro h
    have hP' := hdiff h
    have hri4 : P4[ri]? = some ri := ((hs4.2 i ri).mp hri).isRoot
    have hrj4 : P4[rj]? = some rj := ((hs4.2 j rj).mp hrj).isRoot
    have hlink : ∀ x r, Root P x r → Root P' x (if r = rj then ri else r) := by
      intro x r hx
      rw [hP']
      exact root_link P4 ri rj hri4 hrj4 h x r ((hs4.2 x r).mp hx)
    have hI := hlink i ri hri
    rw [if_neg h] at hI
    have hJ := hlink j rj hrj
    rw [if_pos rfl] at hJ
    refine ⟨?_, hI, hJ, hlink⟩
    rw [hP', List.getElem?_set]
    have : rj < P4.length := (List.getElem?_eq_some_iff.mp hrj4).1
    simp [this]

theorem uf_union_merges_two_sets_witness :
    ∃ P' ri rj, uf_union 4 samplePairs 1 3 = some P' ∧ Root samplePairs 1 ri ∧
      Root samplePairs 3 rj ∧ UFInv P' ∧ P'.length = samplePairs.length ∧
      (∃ P1 P2 r, uf_find 4 P' 1 = some (P1, r) ∧ uf_find 4 P1 3 = some (P2, r)) ∧
      (ri = rj → ∀ x r, Root P' x r ↔ Root samplePairs x r) ∧
      (ri ≠ rj → P'[rj]? = some ri ∧ Root P' 1 ri ∧ Root P' 3 ri ∧
        ∀ x r, Root samplePairs x r → Root P' x (if r = rj then ri else r)) ∧
      (∀ x y, SameSet P' x y ↔
        (SameSet samplePairs x y ∨ (SameSet samplePairs x 1 ∧ SameSet samplePairs 3 y) ∨
          (SameSet samplePairs x 3 ∧ SameSet samplePairs 1 y))) :=
  uf_union_merges_two_sets samplePairs 1 3 4 (ufInv_of_forest _ forest_samplePairs)
    (by decide) (by decide) (by decide)

/-- The call `uf_union(1, 3)` on `samplePairs` merges two sets: the finds return the different
roots 0 and 2, the root 2 is attached under the root 0, and afterwards both finds return 0. -/
theorem samplePairs_union :
    (uf_find 4 samplePairs 1).map (fun r => r.2) = some 0 ∧
    (uf_find 4 samplePairs 3).map (fun r => r.2) = some 2 ∧
    uf_union 4 samplePairs 1 3 = some [0, 0, 0, 2] ∧
    (uf_find 4 [0, 0, 0, 2] 1).map (fun r => r.2) = some 0 ∧
    (uf_find 4 [0, 0, 0, 2] 3).map (fun r => r.2) = some 0 := by
  decide

end Par
end DBSCAN

namespace DBSCAN
namespace Par

theorem runUnions_spec (fuel : Nat) :
    ∀ (pairs : List (Nat × Nat)) (P : List Nat), Forest P →
      (∀ pr ∈ pairs, pr.1 < P.length ∧ pr.2 < P.length) → P.length ≤ fuel →
      ∃ P', runUnions fuel pairs P = some P' ∧ Forest P' ∧ P'.length = P.length ∧
        ∀ x y, x < P.length →
          (SameSet P' x y ↔ Relation.ReflTransGen (Linked P pairs) x y) := by
  intro pairs
  induction pairs with
  | nil =>
    intro P hf _ _
    refine ⟨P, rfl, hf, rfl, fun x y hx => ⟨fun h => Relation.ReflTransGen.single (Or.inl h),
      fun h => ?_⟩⟩
    induction h with
    | refl => exact SameSet.set_refl hf hx
    | @tail u v _ hstep ih =>
      rcases hstep with h | h | h
      · exact ih.set_trans h
      · simp at h
      · simp at h
  | cons pr rest ih =>
    intro P hf hvalid hfuel
    obtain ⟨i, j⟩ := pr
    have hij := hvalid (i, j) (List.mem_cons_self _ _)
    obtain ⟨P1, hun, hf1, hlen1, hchar⟩ := uf_union_spec fuel P i j hf hij.1 hij.2 hfuel
    obtain ⟨P', hrun, hf', hlen', hrest⟩ := ih P1 hf1
      (fun pr hpr => by rw [hlen1]; exact hvalid pr (List.mem_cons_of_mem _ hpr))
      (by rw [hlen1]; exact hfuel)
    have hsii : SameSet P i i := SameSet.set_refl hf hij.1
    have hsjj : SameSet P j j := SameSet.set_refl hf hij.2
    have hsij : SameSet P1 i j := (hchar i j).mpr (Or.inr (Or.inl ⟨hsii, hsjj⟩))
    refine ⟨P', by simp only [runUnions, hun]; exact hrun, hf', hlen'.trans hlen1,
      fun x y hx => ?_⟩
    rw [hrest x y (by rw [hlen1]; exact hx)]
    constructor
    · intro h
      induction h with
      | refl => exact Relation.ReflTransGen.refl
      | @tail u v _ hstep ih' =>
        refine ih'.trans ?_
        rcases hstep with h | h | h
        · rcases (hchar u v).mp h with h | ⟨h1, h2⟩ | ⟨h1, h2⟩
          · exact Relation.ReflTransGen.single (Or.inl h)
          · have s1 : Linked P ((i, j) :: rest) u i := Or.inl h1
            have s2 : Linked P ((i, j) :: rest) i j := Or.inr (Or.inl (List.mem_cons_self _ _))
            have s3 : Linked P ((i, j) :: rest) j v := Or.inl h2
            exact ((Relation.ReflTransGen.single s1).tail s2).tail s3
          · have s1 : Linked P ((i, j) :: rest) u j := Or.inl h1
            have s2 : Linked P ((i, j) :: rest) j i := Or.inr (Or.inr (List.mem_cons_self _ _))
            have s3 : Linked P ((i, j) :: rest) i v := Or.inl h2
            exact ((Relation.ReflTransGen.single s1).tail s2).tail s3
        · exact Relation.ReflTransGen.single (Or.inr (Or.inl (List.mem_cons_of_mem _ h)))
        · exact Relation.ReflTransGen.single (Or.inr (Or.inr (List.mem_cons_of_mem _ h)))
    · intro h
      induction h with
      | refl => exact Relation.ReflTransGen.refl
      | @tail u v _ hstep ih' =>
        refine ih'.tail ?_
        rcases hstep with h | h | h
        · exact Or.inl ((hchar u v).mpr (Or.inl h))
        · rcases List.mem_cons.mp h with e | h
          · cases e; exact Or.inl hsij
          · exact Or.inr (Or.inl h)
        · rcases List.mem_cons.mp h with e | h
          · cases e; exact Or.inl hsij.symm
          · exact Or.inr (Or.inr h)

theorem linked_perm (P : List Nat) (pairs pairs' : List (Nat × Nat)) (hperm : pairs.Perm pairs')
    (x y : Nat) :
    Relation.ReflTransGen (Linked P pairs) x y ↔ Relation.ReflTransGen (Linked P pairs') x y := by
  have key : ∀ a b, Linked P pairs a b ↔ Linked P pairs' a b := by
    intro a b
    unfold Linked
    rw [hperm.mem_iff, hperm.mem_iff]
  constructor
  · exact Relation.ReflTransGen.mono (fun a b h => (key a b).mp h)
  · exact Relation.ReflTransGen.mono (fun a b h => (key a b).mpr h)

theorem uf_find_snd (fuel : Nat) (P : List Nat) (hf : Forest P) (hfuel : P.length ≤ fuel)
    (a : Nat) (ha : a < P.length) (r : Nat) :
    (uf_find fuel P a).map Prod.snd = some r ↔ Root P a r := by
  obtain ⟨P', r', h1, _, h3⟩ := uf_find_ok fuel P a hf ha hfuel
  rw [h1]
  simp only [Option.map_some', Option.some.injEq]
  constructor
  · intro e; subst e; exact h3
  · intro h; exact Root.functional h3 h

theorem uf_find_snd_eq_iff (fuel : Nat) (P : List Nat) (hf : Forest P) (hfuel : P.length ≤ fuel)
    (a b : Nat) (ha : a < P.length) (hb : b < P.length) :
    (uf_find fuel P a).map Prod.snd = (uf_find fuel P b).map Prod.snd ↔ SameSet P a b := by
  obtain ⟨Pa, ra, h1, _, h3⟩ := uf_find_ok fuel P a hf ha hfuel
  obtain ⟨Pb, rb, h1', _, h3'⟩ := uf_find_ok fuel P b hf hb hfuel
  rw [h1, h1']
  simp only [Option.map_some', Option.some.injEq]
  constructor
  · intro e; subst e; exact ⟨ra, h3, h3'⟩
  · rintro ⟨r, h, h'⟩
    rw [Root.functional h3 h, Root.functional h3' h']

/-- C20 (`src/src/dbscan_par.c`): from a fresh `uf_init(n)`, a list of union requests on valid
indices and any permutation of it, executed one `uf_union` after another, both return and leave
the same partition: the same pairs of indices share a root, and `uf_find(a) == uf_find(b)` holds
in one result exactly when it holds in the other. -/
theorem union_order_independent (n fuel : Nat) (hfuel : n ≤ fuel)
    (pairs pairs' : List (Nat × Nat)) (hperm : pairs.Perm pairs')
    (hvalid : ∀ pr ∈ pairs, pr.1 < n ∧ pr.2 < n) :
    ∃ P1 P2, runUnions fuel pairs (uf_init n) = some P1 ∧
      runUnions fuel pairs' (uf_init n) = some P2 ∧
      (∀ a b, SameSet P1 a b ↔ SameSet P2 a b) ∧
      (∀ a b, a < n → b < n →
        ((uf_find fuel P1 a).map Prod.snd = (uf_find fuel P1 b).map Prod.snd ↔
          (uf_find fuel P2 a).map Prod.snd = (uf_find fuel P2 b).map Prod.snd)) := by
  have hlen0 : (uf_init n).length = n := by simp [uf_init]
  have hf0 := forest_uf_init n
  obtain ⟨P1, hrun1, hf1, hlen1, hc1⟩ := runUnions_spec fuel pairs (uf_init n) hf0
    (by rw [hlen0]; exact hvalid) (by rw [hlen0]; exact hfuel)
  obtain ⟨P2, hrun2, hf2, hlen2, hc2⟩ := runUnions_spec fuel pairs' (uf_init n) hf0
    (by rw [hlen0]; exact fun pr hpr => hvalid pr (hperm.mem_iff.mpr hpr))
    (by rw [hlen0]; exact hfuel)
  have hsame : ∀ a b, SameSet P1 a b ↔ SameSet P2 a b := by
    intro a b
    by_cases ha : a < (uf_init n).length
    · rw [hc1 a b ha, hc2 a b ha]
      exact linked_perm _ _ _ hperm a b
    · constructor
      · rintro ⟨r, h, _⟩
        exact absurd (by rw [← hlen1]; exact h.lt) ha
      · rintro ⟨r, h, _⟩
        exact absurd (by rw [← hlen2]; exact h.lt) ha
  refine ⟨P1, P2, hrun1, hrun2, hsame, fun a b ha hb => ?_⟩
  rw [uf_find_snd_eq_iff fuel P1 hf1 (by rw [hlen1, hlen0]; exact hfuel) a b
      (by rw [hlen1, hlen0]; exact ha) (by rw [hlen1, hlen0]; exact hb),
    uf_find_snd_eq_iff fuel P2 hf2 (by rw [hlen2, hlen0]; exact hfuel) a b
      (by rw [hlen2, hlen0]; exact ha) (by rw [hlen2, hlen0]; exact hb)]
  exact hsame a b

theorem union_order_independent_witness :
    ∃ P1 P2, runUnions 4 [(0, 1), (2, 3), (1, 2)] (uf_init 4) = some P1 ∧
      runUnions 4 [(1, 2), (0, 1), (2, 3)] (uf_init 4) = some P2 ∧
      (∀ a b, SameSet P1 a b ↔ SameSet P2 a b) ∧
      (∀ a b, a < 4 → b < 4 →
        ((uf_find 4 P1 a).map Prod.snd = (uf_find 4 P1 b).map Prod.snd ↔
          (uf_find 4 P2 a).map Prod.snd = (uf_find 4 P2 b).map Prod.snd)) :=
  union_order_independent 4 4 (by decide) [(0, 1), (2, 3), (1, 2)] [(1, 2), (0, 1), (2, 3)]
    (by decide) (by decide)

end Par
end DBSCAN

namespace DBSCAN
namespace Par

theorem numInv_start (nb : Nat → List Nat) (n : Nat) (P0 : List Nat) :
    NumInv nb n P0 0 (List.replicate n 0) 1 [] := by
  have hg : ∀ r, (List.replicate n (0 : Int)).getD r 0 = 0 := by
    intro r
    simp only [List.getD_eq_getElem?_getD, List.getElem?_replicate]
    split <;> rfl
  refine ⟨List.Pairwise.nil, fun l => by simp, by simp, fun k l r h => by simp at h,
    fun r _ h => absurd (hg r) h, fun j hj => by omega, by simp⟩

theorem buildClusterMap_order (nb : Nat → List Nat) (n : Nat)
    (ic : List Bool) (hic : ∀ i, ic.getD i false = true ↔ Core.IsCore nb n i)
    (fuel : Nat) (hfuel : n ≤ fuel) (P0 : List Nat) (hf0 : Forest P0) (hlen0 : P0.length = n)
    (hcomp : ∀ x y, x < n → (SameSet P0 x y ↔ Core.CoreChain nb n x y)) :
    ∀ (m i : Nat) (P : List Nat) (cmap : List Int) (counter : Int) (L : List Nat),
      i + m = n → SameRoots P0 P → NumInv nb n P0 i cmap counter L →
      ∃ P' cmap' counter' L', buildClusterMap fuel ic (List.range' i m) P cmap counter
          = some (P', cmap', counter') ∧
        SameRoots P0 P' ∧ NumInv nb n P0 n cmap' counter' L' := by
  intro m
  induction m with
  | zero =>
    intro i P cmap counter L him hs inv
    have : i = n := by omega
    subst this
    exact ⟨P, cmap, counter, L, rfl, hs, inv⟩
  | succ m ih =>
    intro i P cmap counter L him hs inv
    have hi : i < n := by omega
    have hf : Forest P := hs.forest hf0
    have hlen : P.length = n := by rw [← hs.1]; exact hlen0
    rw [List.range'_succ, buildClusterMap]
    have notLeader : ¬ Core.IsLeader nb n i → NumInv nb n P0 (i + 1) cmap counter L →
        ∀ P1, SameRoots P0 P1 →
        ∃ P' cmap' counter' L', buildClusterMap fuel ic (List.range' (i + 1) m) P1 cmap counter
            = some (P', cmap', counter') ∧
          SameRoots P0 P' ∧ NumInv nb n P0 n cmap' counter' L' :=
      fun _ inv' P1 hs1 => ih (i + 1) P1 cmap counter L (by omega) hs1 inv'
    by_cases hci : ic.getD i false = true
    · rw [if_pos hci]
      have hcore := (hic i).mp hci
      obtain ⟨P1, r, hfind, hs1, hroot⟩ := uf_find_ok fuel P i hf (by rw [hlen]; exact hi)
        (by rw [hlen]; exact hfuel)
      rw [hfind]
      simp only
      have hs01 := hs.roots_trans hs1
      have hr0 : Root P0 i r := (hs.2 i r).mpr hroot
      have hrn : r < n := by rw [← hlen0]; exact hr0.root_lt
      by_cases h0 : cmap.getD r 0 = 0
      · rw [if_pos h0]
        have hlead : Core.IsLeader nb n i := by
          refine ⟨hcore, fun j hj hch => ?_⟩
          by_contra hlt
          have hji : j < i := by omega
          obtain ⟨r', h1, h2⟩ := (hcomp j i hj.1).mpr hch
          have e := Root.functional h2 hr0
          subst e
          exact inv.done j hji hj r' h1 h0
        have hg : ∀ p, (cmap.set r counter).getD p 0 = if p = r then counter
            else cmap.getD p 0 :=
          fun p => Core.getD_set_int cmap r p counter (by rw [inv.len]; exact hrn)
        have hcnt := inv.count
        apply ih (i + 1) P1 _ _ (L ++ [i]) (by omega) hs01
        refine ⟨?_, ?_, ?_, ?_, ?_, ?_, by simp [inv.len]⟩
        · rw [List.pairwise_append]
          refine ⟨inv.sorted, List.pairwise_singleton _ _, fun a ha b hb => ?_⟩
          simp only [List.mem_singleton] at hb
          subst hb
          exact ((inv.mem a).mp ha).2
        · intro l
          simp only [List.mem_append, List.mem_singleton, inv.mem]
          constructor
          · rintro (⟨h1, h2⟩ | e)
            · exact ⟨h1, by omega⟩
            · subst e; exact ⟨hlead, by omega⟩
          · rintro ⟨h1, h2⟩
            by_cases e : l = i
            · exact Or.inr e
            · exact Or.inl ⟨h1, by omega⟩
        · simp only [List.length_append, List.length_singleton]
          push_cast
          omega
        · intro k l r' hk hr'
          rw [hg]
          by_cases hkl : k < L.length
          · rw [List.getElem?_append_left hkl] at hk
            have := inv.ids k l r' hk hr'
            have hne : r' ≠ r := by
              intro e; subst e; rw [h0] at this; omega
            rw [if_neg hne]; exact this
          · rw [List.getElem?_append_right (by omega)] at hk
            have hk0 : k - L.length = 0 := by
              by_contra hne
              have : (k - L.length) = (k - L.length - 1) + 1 := by omega
              rw [this] at hk
              simp at hk
            rw [hk0] at hk
            simp only [List.getElem?_cons_zero, Option.some.injEq] at hk
            subst hk
            have e := Root.functional hr' hr0
            subst e
            rw [if_pos rfl, hcnt]
            have : k = L.length := by omega
            rw [this]
        · intro r' hr' hne
          rw [hg] at hne
          by_cases e : r' = r
          · subst e; exact ⟨i, by omega, hcore, hr0⟩
          · rw [if_neg e] at hne
            obtain ⟨j, hj, hcj, hrj⟩ := inv.seen r' hr' hne
            exact ⟨j, by omega, hcj, hrj⟩
        · intro j hj hcj r' hr'
          rw [hg]
          by_cases e : r' = r
          · rw [if_pos e]; omega
          · rw [if_neg e]
            have hji : j < i := by
              by_contra hge
              have : j = i := by omega
              subst this
              exact e (Root.functional hr' hr0)
            exact inv.done j hji hcj r' hr'
      · rw [if_neg h0]
        have hnl : ¬ Core.IsLeader nb n i := by
          intro hl
          obtain ⟨j, hj, hcj, hrj⟩ := inv.seen r hrn h0
          have := hl.2 j hcj ((hcomp j i hcj.1).mp ⟨r, hrj, hr0⟩)
          omega
        apply notLeader hnl _ P1 hs01
        refine { inv with mem := ?_, seen := ?_, done := ?_ }
        · intro l
          rw [inv.mem]
          constructor
          · rintro ⟨h1, h2⟩; exact ⟨h1, by omega⟩
          · rintro ⟨h1, h2⟩
            refine ⟨h1, ?_⟩
            by_contra hge
            have : l = i := by omega
            subst this
            exact hnl h1
        · intro r' hr' hne
          obtain ⟨j, hj, hcj, hrj⟩ := inv.seen r' hr' hne
          exact ⟨j, by omega, hcj, hrj⟩
        · intro j hj hcj r' hr'
          by_cases hji : j < i
          · exact inv.done j hji hcj r' hr'
          · have : j = i := by omega
            subst this
            rw [Root.functional hr' hr0]; exact h0
    · rw [if_neg hci]
      have hnc : ¬ Core.IsCore nb n i := fun h => hci ((hic i).mpr h)
      apply notLeader (fun hl => hnc hl.1) _ P hs
      refine { inv with mem := ?_, seen := ?_, done := ?_ }
      · intro l
        rw [inv.mem]
        constructor
        · rintro ⟨h1, h2⟩; exact ⟨h1, by omega⟩
        · rintro ⟨h1, h2⟩
          refine ⟨h1, ?_⟩
          by_contra hge
          have : l = i := by omega
          subst this
          exact hnc h1.1
      · intro r' hr' hne
        obtain ⟨j, hj, hcj, hrj⟩ := inv.seen r' hr' hne
        exact ⟨j, by omega, hcj, hrj⟩
      · intro j hj hcj r' hr'
        by_cases hji : j < i
        · exact inv.done j hji hcj r' hr'
        · have : j = i := by omega
          subst this
          exact absurd hcj hnc

end Par
end DBSCAN

namespace DBSCAN
namespace Par

/-- The engine of `src/src/dbscan_par.c` gives the `k`-th lowest-index core point of a component
(counting from 0, in ascending index order) the id `k + 1`. -/
theorem par_dbscan_numbering (data : Dataset) (fuel : Nat) (hfuel : fuelFor data.length ≤ fuel) :
    ∃ (out : Dataset) (L : List Nat), dbscan fuel data = some out ∧ L.Pairwise (fun a b => a < b) ∧
      (∀ l, l ∈ L ↔ Core.IsLeader (neighborList data) data.length l) ∧
      ∀ k l : Nat, L[k]? = some l → clusterId out l = (k : Int) + 1 := by
  have hf : data.length ≤ fuel := by unfold fuelFor at hfuel; omega
  have hnb := par_nbOK data
  have hic := coreFlags_getD data
  obtain ⟨P, hP, hfP, hlenP, hcomp⟩ := phase2_components (neighborList data) data.length hnb
    (phase1 data) (phase1_getD data) (coreFlags (phase1 data)) hic fuel hf
  obtain ⟨P1, cmap, counter, L, hB, hs1, hnum⟩ := buildClusterMap_order (neighborList data)
    data.length (coreFlags (phase1 data)) hic fuel hf P hfP hlenP hcomp data.length 0 P
    (List.replicate data.length 0) 1 [] (by omega) (SameRoots.roots_refl P)
    (numInv_start _ _ _)
  rw [← List.range_eq_range'] at hB
  have hfP1 := hs1.forest hfP
  have hlenP1 : P1.length = data.length := by rw [← hs1.1]; exact hlenP
  obtain ⟨P2, data1, hC, hs2, hco1, _, hlab1⟩ := labelCores_spec data.length
    (coreFlags (phase1 data)) cmap fuel hf (List.range data.length) P1 data hfP1 hlenP1 rfl
    (List.nodup_range _) (fun i hi => List.mem_range.mp hi)
  have hfP2 := hs2.forest hfP1
  have hlenP2 : P2.length = data.length := by rw [← hs2.1]; exact hlenP1
  have hlen1 : data1.length = data.length := length_eq_of_coords _ _ hco1
  obtain ⟨P3, data2, hD, _, _, _, hlab2⟩ := labelBorders_spec data.length (phase1 data)
    (coreFlags (phase1 data)) cmap fuel hf (phase1_mem_lt data) (List.range data.length) P2 data1
    hfP2 hlenP2 hlen1 (List.nodup_range _) (fun i hi => List.mem_range.mp hi)
  have hrun : dbscan fuel data = some data2 := by
    unfold dbscan
    simp only [hP, hB, hC, hD]
  refine ⟨data2, L, hrun, hnum.sorted, fun l => ?_, fun k l hk => ?_⟩
  · rw [hnum.mem]
    exact ⟨fun h => h.1, fun h => ⟨h, h.1.1⟩⟩
  · have hl : l ∈ L := List.getElem?_mem hk
    have hcore : Core.IsCore (neighborList data) data.length l := ((hnum.mem l).mp hl).1.1
    have hflag := (hic l).mpr hcore
    have hmem := List.mem_range.mpr hcore.1
    obtain ⟨r, hr, he⟩ := (hlab1 l hmem).1 hflag
    rw [(hlab2 l hmem).1 hflag, he]
    exact hnum.ids k l r hk ((hs1.2 l r).mpr hr)

theorem par_leader_iff (data : Dataset) (l : Nat) :
    IsLeader data l ↔ Core.IsLeader (neighborList data) data.length l := by
  unfold IsLeader Core.IsLeader
  constructor
  · rintro ⟨h1, h2⟩
    exact ⟨h1, fun j hj hch => h2 j hj ((par_chain_iff_core data j l).mpr hch)⟩
  · rintro ⟨h1, h2⟩
    exact ⟨h1, fun j hj hch => h2 j hj ((par_chain_iff_core data j l).mp hch)⟩

/-- Every core point is joined by a chain to the lowest-index core point of its component. -/
theorem par_exists_leader (data : Dataset) (a : Nat) (ha : IsCore data a) :
    ∃ l, IsLeader data l ∧ ChainOf (IsCore data) data l a := by
  classical
  have hex : ∃ j, IsCore data j ∧ ChainOf (IsCore data) data j a :=
    ⟨a, ha, Relation.ReflTransGen.refl⟩
  refine ⟨Nat.find hex, ⟨(Nat.find_spec hex).1, fun j hj hch => ?_⟩, (Nat.find_spec hex).2⟩
  exact Nat.find_min' hex ⟨hj, Relation.ReflTransGen.trans hch (Nat.find_spec hex).2⟩

/-- Cluster numbering of `src/src/dbscan_par.c` when its loops are read in index order: `dbscan`
returns; with `L` the ascending list of the lowest-index core points of the `k = L.length`
components of core points, the component of the entry at position `j` has id `j + 1` (one plus
the number of components whose lowest-index core point has a smaller index), the lowest-index
core point of the dataset has id 1, and the positive ids present in the output are exactly
`1..k`. -/
theorem cluster_ids_in_first_seen_order (data : Dataset) (fuel : Nat)
    (hfuel : fuelFor data.length ≤ fuel) :
    ∃ (out : Dataset) (L : List Nat), dbscan fuel data = some out ∧ L.Pairwise (fun a b => a < b) ∧
      (∀ l, l ∈ L ↔ IsLeader data l) ∧
      (∀ a, IsCore data a → ∃ l, l ∈ L ∧ ChainOf (IsCore data) data l a) ∧
      (∀ j l : Nat, L[j]? = some l → clusterId out l = (j : Int) + 1) ∧
      (∀ a l, IsCore data a → l ∈ L → ChainOf (IsCore data) data l a →
        clusterId out a = clusterId out l) ∧
      (∀ a, IsCore data a → (∀ b, IsCore data b → a ≤ b) → clusterId out a = 1) ∧
      (∀ c : Int, (∃ p, p < data.length ∧ clusterId out p = c ∧ 0 < c) ↔
        (1 ≤ c ∧ c ≤ (L.length : Int))) := by
  obtain ⟨out, L, hrun, hsorted, hmem, hids⟩ := par_dbscan_numbering data fuel hfuel
  obtain ⟨out', hrun', _, hres⟩ := par_dbscan_correct data fuel hfuel
  rw [hrun] at hrun'
  cases hrun'
  have hmem' : ∀ l, l ∈ L ↔ IsLeader data l := fun l => by rw [hmem, par_leader_iff]
  have hlead : ∀ a, IsCore data a → ∃ l, l ∈ L ∧ ChainOf (IsCore data) data l a := by
    intro a ha
    obtain ⟨l, hl, hch⟩ := par_exists_leader data a ha
    exact ⟨l, (hmem' l).mpr hl, hch⟩
  have hsame : ∀ a l, IsCore data a → l ∈ L → ChainOf (IsCore data) data l a →
      clusterId out a = clusterId out l := by
    intro a l ha hl hch
    have hlc : IsCore data l := ((hmem' l).mp hl).1
    exact ((hres.core_iff l a hlc ha).mpr ((par_chain_iff_core data l a).mp hch)).symm
  have hcore_le : ∀ a, IsCore data a →
      1 ≤ clusterId out a ∧ clusterId out a ≤ (L.length : Int) := by
    intro a ha
    obtain ⟨l, hl, hch⟩ := hlead a ha
    obtain ⟨j, hj, hget⟩ := List.getElem_of_mem hl
    have := hids j l (by rw [List.getElem?_eq_getElem hj, hget])
    rw [hsame a l ha hl hch, this]
    omega
  refine ⟨out, L, hrun, hsorted, hmem', hlead, hids, hsame, ?_, ?_⟩
  · intro a ha hmin
    have hal : IsLeader data a := ⟨ha, fun j hj _ => hmin j hj⟩
    have haL := (hmem' a).mpr hal
    obtain ⟨j, hj, hget⟩ := List.getElem_of_mem haL
    have hj0 : j = 0 := by
      by_contra hne
      have h0 : 0 < L.length := by omega
      have hlt : L[0] < L[j] := List.pairwise_iff_getElem.mp hsorted 0 j h0 hj (by omega)
      have hc0 : IsCore data L[0] := ((hmem' _).mp (List.getElem_mem h0)).1
      have := hmin _ hc0
      rw [hget] at hlt
      omega
    subst hj0
    have := hids 0 a (by rw [List.getElem?_eq_getElem hj, hget])
    simpa using this
  · intro c
    constructor
    · rintro ⟨p, hp, hc, hpos⟩
      by_cases hcp : 3 ≤ (neighborList data p).length
      · have := hcore_le p ⟨hp, hcp⟩
        rw [hc] at this
        exact this
      · by_cases hex : ∃ j, j ∈ neighborList data p ∧ 3 ≤ (neighborList data j).length
        · obtain ⟨j, hj, hcj, hmin⟩ := par_lowest_core_neighbour data p hex
          have he := hres.border p hp hcp j hj hcj hmin
          have := hcore_le j ⟨(par_nbOK data).lt p j hj, hcj⟩
          rw [← he, hc] at this
          exact this
        · have := hres.noise p hp hcp (fun j hj hcj => hex ⟨j, hj, hcj⟩)
          rw [hc] at this
          omega
    · rintro ⟨h1, h2⟩
      have hk : (c - 1).toNat < L.length := by omega
      refine ⟨L[(c - 1).toNat], ?_, ?_, by omega⟩
      · exact ((hmem' _).mp (List.getElem_mem hk)).1.1
      · have := hids (c - 1).toNat _ (List.getElem?_eq_getElem hk)
        rw [this]
        omega

end Par
end DBSCAN

namespace DBSCAN

/-- The run of `src/dbscan_seq.c` from an all-`UNCLASSIFIED` dataset ends for every allocator, at
the end of the loop when no block is ever moved; when it ends there, its labels satisfy the
invariant of the engine over labels, none is `UNCLASSIFIED`, and point 0 holds the id 1 if it is
a core point. -/
theorem seq_dbscan_finished_spec (alloc : Seq.Realloc) (data : Dataset)
    (hU : AllUnclassified data) (fuel : Nat) (hfuel : fuelFor data.length ≤ fuel) :
    ∃ e run, Seq.dbscan alloc fuel data = some (e, run) ∧
      coordsOf run.data = coordsOf data ∧
      ((∀ c i s r, alloc c i s r = false) → e = Seq.Ending.finished) ∧
      (e = Seq.Ending.finished → ∃ c,
        Core.OInv (fun p => Seq.regionQuery p data) data.length c (labelsOf run.data) ∧
        (∀ p, p < data.length → (labelsOf run.data).getD p 0 ≠ 0) ∧
        (0 < data.length → 3 ≤ (Seq.regionQuery 0 data).length → clusterId run.data 0 = 1)) := by
  have hf : data.length + data.length * data.length < fuel := by
    unfold fuelFor at hfuel; omega
  obtain ⟨outl, c, h1, h2, h3⟩ := Core.dbscan_spec (fun p => Seq.regionQuery p data)
    Seq.appendIfAbsent data.length (Seq.seq_nbOK data) Seq.seq_appOK fuel hf (labelsOf data)
    (length_labelsOf data) (labelsOf_allUnclassified data hU)
  obtain ⟨e, run, hr1, hr2, hr3⟩ := Seq.seq_dbscanLoop_bridge alloc data fuel
    (List.range data.length) 1 ⟨data, [], []⟩ outl rfl h1
  refine ⟨e, run, hr1, hr2, fun ha => Seq.seq_dbscan_inPlace alloc ha fuel data e run hr1,
    fun he => ⟨c, ?_, ?_, ?_⟩⟩
  · rw [hr3 he]; exact h2
  · rw [hr3 he]; exact h3
  · intro hn hcore
    rw [clusterId_eq_getD, hr3 he]
    exact Core.first_label _ _ fuel data.length (labelsOf data) outl hn
      (length_labelsOf data) (labelsOf_allUnclassified data hU) hcore h1

/-- Without a core point the loop of `dbscan` makes no call of `expandCluster` and runs to its
end, whatever the allocator. -/
theorem seq_dbscanLoop_no_core (alloc : Seq.Realloc) (fuel : Nat) (data0 : Dataset)
    (hnc : ∀ i, i < data0.length → (Seq.regionQuery i data0).length < MIN_POINTS) :
    ∀ (rest : List Nat) (c : Int) (run : Seq.Run), coordsOf run.data = coordsOf data0 →
      (∀ i ∈ rest, i < data0.length) →
      ∃ out, Seq.dbscanLoop alloc fuel rest c run = some (Seq.Ending.finished, out) ∧
        out.expansions = run.expansions := by
  intro rest
  induction rest with
  | nil =>
    intro c run _ _
    exact ⟨run, rfl, rfl⟩
  | cons i rest ih =>
    intro c run hco hrest
    have hi := hrest i (List.mem_cons_self _ _)
    have hrest' : ∀ j ∈ rest, j < data0.length :=
      fun j hj => hrest j (List.mem_cons_of_mem _ hj)
    unfold Seq.dbscanLoop
    by_cases h0 : clusterId run.data i ≠ UNCLASSIFIED
    · rw [if_pos h0]
      exact ih c run hco hrest'
    · rw [if_neg h0]
      have hq : (Seq.regionQuery i run.data).length < MIN_POINTS := by
        rw [Seq.seq_regionQuery_congr _ _ hco i]
        exact hnc i hi
      simp only [hq, if_true]
      exact ih c _ (by rw [coordsOf_setClusterId]; exact hco) hrest'

namespace SeqV2

/-- On at most 46341 points the frontier length of `src/src/dbscan_seq.c` stays within `int`:
the run of `dbscan` reaches the end of its loop. -/
theorem seqV2_dbscan_finishes (data : Dataset) (fuel : Nat)
    (hfuel : fuelFor data.length ≤ fuel) (hsmall : data.length ≤ 46341) :
    ∃ run, dbscan fuel data = some (Ending.finished, run) ∧
      coordsOf run.data = coordsOf data ∧ RunOnce data run := by
  obtain ⟨e, run, hrun, hco⟩ := seqV2_dbscan_ends data fuel hfuel
  obtain ⟨honce, hover⟩ := seqV2_run_once data fuel e run hrun
  have he : e = Ending.finished := by
    by_contra hne
    have hbig := hover hne
    have h1 : data.length * (data.length - 1) ≤ 46341 * 46340 :=
      Nat.mul_le_mul hsmall (by omega)
    unfold INT_MAX at hbig
    omega
  subst he
  exact ⟨run, hrun, hco, honce⟩

/-- The labels of that run, when the dataset starts all `UNCLASSIFIED`: they satisfy the
invariant of the engine over labels, none is `UNCLASSIFIED`, and point 0 holds the id 1 if it is
a core point. -/
theorem seqV2_dbscan_finished_spec (data : Dataset) (hU : AllUnclassified data) (fuel : Nat)
    (hfuel : fuelFor data.length ≤ fuel) (hsmall : data.length ≤ 46341) :
    ∃ run, dbscan fuel data = some (Ending.finished, run) ∧
      coordsOf run.data = coordsOf data ∧
      ∃ c, Core.OInv (Par.neighborList data) data.length c (labelsOf run.data) ∧
        (∀ p, p < data.length → (labelsOf run.data).getD p 0 ≠ 0) ∧
        (0 < data.length → 3 ≤ (Par.neighborList data 0).length →
          clusterId run.data 0 = 1) := by
  have hf : data.length + data.length * data.length < fuel := by
    unfold fuelFor at hfuel; omega
  obtain ⟨run, hrun, hco, _⟩ := seqV2_dbscan_finishes data fuel hfuel hsmall
  obtain ⟨outl, c, h1, h2, h3⟩ := Core.dbscan_spec (Par.neighborList data) (fun F N => F ++ N)
    data.length (Par.par_nbOK data) seqV2_appOK fuel hf (labelsOf data) (length_labelsOf data)
    (labelsOf_allUnclassified data hU)
  obtain ⟨e, run', hr1, _, hr3⟩ := seqV2_dbscanLoop_bridge data fuel
    (List.range data.length) 1 ⟨data, []⟩ outl rfl h1
  have hr1' : dbscan fuel data = some (e, run') := hr1
  rw [hrun] at hr1'
  simp only [Option.some.injEq, Prod.mk.injEq] at hr1'
  obtain ⟨he, hrr⟩ := hr1'
  subst hrr
  have hl := hr3 he.symm
  refine ⟨run, hrun, hco, c, ?_, ?_, ?_⟩
  · rw [hl]; exact h2
  · rw [hl]; exact h3
  · intro hn hcore
    rw [clusterId_eq_getD, hl]
    exact Core.first_label _ _ fuel data.length (labelsOf data) outl hn
      (length_labelsOf data) (labelsOf_allUnclassified data hU) hcore h1

end SeqV2

/-- A filter of the indices that keeps at least two of them keeps one other than `a`. -/
theorem exists_ne_of_filter_length (n : Nat) (q : Nat → Bool) (a : Nat)
    (h : 2 ≤ ((List.range n).filter q).length) : ∃ b, b < n ∧ q b = true ∧ b ≠ a := by
  by_contra hno
  have hsub : (List.range n).filter q ⊆ [a] := by
    intro x hx
    rw [List.mem_filter, List.mem_range] at hx
    by_contra hxa
    exact hno ⟨x, hx.1, hx.2, fun e => hxa (by simp [e])⟩
  have hnd : ((List.range n).filter q).Nodup := List.Nodup.filter _ (List.nodup_range _)
  have := (List.subperm_of_subset hnd hsub).length_le
  simp at this
  omega

/-- The lowest-index core point of the dataset is first in the ascending list of component
leaders, so it has id 1. -/
theorem par_lowest_core_id (nb : Nat → List Nat) (n : Nat) (lab : Nat → Int) (L : List Nat)
    (hsorted : L.Pairwise (fun a b => a < b))
    (hmem : ∀ l, l ∈ L ↔ Core.IsLeader nb n l)
    (hids : ∀ k l : Nat, L[k]? = some l → lab l = (k : Int) + 1)
    (a : Nat) (ha : Core.IsCore nb n a) (hmin : ∀ b, Core.IsCore nb n b → a ≤ b) :
    lab a = 1 := by
  have haL : a ∈ L := (hmem a).mpr ⟨ha, fun j hj _ => hmin j hj⟩
  obtain ⟨j, hj, hget⟩ := List.getElem_of_mem haL
  have hj0 : j = 0 := by
    by_contra hne
    have h0 : 0 < L.length := by omega
    have hlt : L[0] < L[j] := List.pairwise_iff_getElem.mp hsorted 0 j h0 hj (by omega)
    have hc0 : Core.IsCore nb n L[0] := ((hmem _).mp (List.getElem_mem h0)).1
    have := hmin _ hc0
    rw [hget] at hlt
    omega
  subst hj0
  have := hids 0 a (by rw [List.getElem?_eq_getElem hj, hget])
  simpa using this

/-- Size of the `regionQuery` result when every point of a set `q` of indices is within
`EPSILON` of `p`. -/
theorem seq_regionQuery_length_ge (data : Dataset) (p : Nat) (q : Nat → Bool)
    (h : ∀ i, i < data.length → q i = true →
      withinEpsilon (getPoint data p) (getPoint data i) = true) :
    ((List.range data.length).filter q).length ≤ (Seq.regionQuery p data).length := by
  unfold Seq.regionQuery
  exact length_filter_le_of_imp _ _ _ (fun i hi hq => h i (List.mem_range.mp hi) hq)

/-- Size of the neighbour list that skips `p` itself, under the same hypothesis. -/
theorem par_neighborList_length_ge (data : Dataset) (p : Nat) (q : Nat → Bool)
    (h : ∀ i, i < data.length → q i = true →
      withinEpsilon (getPoint data p) (getPoint data i) = true) :
    ((List.range data.length).filter q).length ≤ (Par.neighborList data p).length + 1 := by
  have h1 := seq_regionQuery_length_ge data p q h
  have h2 := length_filter_excluding (List.range data.length)
    (fun i => withinEpsilon (getPoint data p) (getPoint data i))
    (fun j => decide (p ≠ j) && withinEpsilon (getPoint data p) (getPoint data j)) p
    (fun j hj => by
      have : p ≠ j := fun e => hj e.symm
      simp [this])
  have h3 := count_range_le_one data.length p
  unfold Seq.regionQuery at h1
  unfold Par.neighborList
  omega

theorem length_filter_true (n : Nat) : ((List.range n).filter (fun _ => true)).length = n := by
  simp

/-- A `regionQuery` result that can only list `p` has at most one entry. -/
theorem seq_regionQuery_length_le_one (data : Dataset) (p : Nat)
    (h : ∀ i, i < data.length → i ≠ p →
      withinEpsilon (getPoint data p) (getPoint data i) = false) :
    (Seq.regionQuery p data).length ≤ 1 := by
  have h1 : (Seq.regionQuery p data).length ≤
      ((List.range data.length).filter (fun i => i == p)).length := by
    unfold Seq.regionQuery
    apply length_filter_le_of_imp
    intro i hi hw
    by_cases hip : i = p
    · simp [hip]
    · rw [h i (List.mem_range.mp hi) hip] at hw
      cases hw
  have h2 : ((List.range data.length).filter (fun i => i == p)).length
      = (List.range data.length).count p := by
    rw [List.count, List.countP_eq_length_filter]
  have h3 := count_range_le_one data.length p
  omega

theorem par_neighborList_nil (data : Dataset) (p : Nat)
    (h : ∀ i, i < data.length → i ≠ p →
      withinEpsilon (getPoint data p) (getPoint data i) = false) :
    Par.neighborList data p = [] := by
  unfold Par.neighborList
  rw [List.filter_eq_nil_iff]
  intro i hi
  by_cases hip : p = i
  · simp [hip]
  · have := h i (List.mem_range.mp hi) (fun e => hip e.symm)
    simp [this]

/-- Labels of a dataset of two groups whose points are all core, from the two facts both engines
provide: core points have positive ids, shared exactly along chains of core points. -/
theorem two_groups_labels (nb : Nat → List Nat) (n : Nat) (lab : Nat → Int) (g : Nat → Bool)
    (hpos : ∀ a, Core.IsCore nb n a → 0 < lab a)
    (hiff : ∀ a b, Core.IsCore nb n a → Core.IsCore nb n b →
      (lab a = lab b ↔ Core.CoreChain nb n a b))
    (hcore : ∀ p, p < n → 3 ≤ (nb p).length)
    (hsame : ∀ a b, a < n → b < n → a ≠ b → g a = g b → b ∈ nb a)
    (hdiff : ∀ a b, a < n → b ∈ nb a → g a = g b)
    (a0 b0 : Nat) (ha0 : a0 < n) (hga : g a0 = true) (hb0 : b0 < n) (hgb : g b0 = false) :
    ∃ c1 c2 : Int, 0 < c1 ∧ 0 < c2 ∧ c1 ≠ c2 ∧
      ∀ p, p < n → lab p = if g p = true then c1 else c2 := by
  have hchain : ∀ a b, Core.CoreChain nb n a b → g a = g b := by
    intro a b h
    induction h with
    | refl => rfl
    | @tail x y _ hedge ih => rw [ih, hdiff x y hedge.1.1 hedge.2.2]
  have hjoin : ∀ a b, a < n → b < n → g a = g b → lab a = lab b := by
    intro a b ha hb hg
    by_cases hab : a = b
    · rw [hab]
    · exact (hiff a b ⟨ha, hcore a ha⟩ ⟨hb, hcore b hb⟩).mpr
        (Relation.ReflTransGen.single ⟨⟨ha, hcore a ha⟩, ⟨hb, hcore b hb⟩, hsame a b ha hb hab hg⟩)
  refine ⟨lab a0, lab b0, hpos a0 ⟨ha0, hcore a0 ha0⟩, hpos b0 ⟨hb0, hcore b0 hb0⟩, ?_, ?_⟩
  · intro e
    have := hchain a0 b0 ((hiff a0 b0 ⟨ha0, hcore a0 ha0⟩ ⟨hb0, hcore b0 hb0⟩).mp e)
    rw [hga, hgb] at this
    cases this
  · intro p hp
    split
    · rename_i hgp
      exact hjoin p a0 hp ha0 (by rw [hgp, hga])
    · rename_i hgp
      have hgp' : g p = false := by simpa using hgp
      exact hjoin p b0 hp hb0 (by rw [hgp', hgb])

theorem exists_of_filter_length_pos (n : Nat) (q : Nat → Bool)
    (h : 0 < ((List.range n).filter q).length) : ∃ a, a < n ∧ q a = true := by
  obtain ⟨a, ha⟩ := List.exists_mem_of_length_pos h
  rw [List.mem_filter, List.mem_range] at ha
  exact ⟨a, ha.1, ha.2⟩

end DBSCAN

namespace DBSCAN

namespace Seq

/-- What a run of `src/dbscan_seq.c` leaves when it reaches the end of `dbscan`, as it does
whenever no frontier block is moved, on a dataset whose points all start `UNCLASSIFIED` (core
points and nearness as the code computes them): the coordinates are unchanged and every label is
`NOISE` or positive; two core points carry the same positive id exactly when a chain of core
points joins them; a point is `NOISE` exactly when it is not a core point and no core point is
within `EPSILON` of it; and a point within `EPSILON` of a core point has the positive id of that
core point. -/
theorem seq_finished_labels (alloc : Realloc) (data : Dataset) (hU : AllUnclassified data)
    (fuel : Nat) (hfuel : fuelFor data.length ≤ fuel) :
    ∃ e run, dbscan alloc fuel data = some (e, run) ∧
      ((∀ c i s r, alloc c i s r = false) → e = Ending.finished) ∧
      (e = Ending.finished →
        coordsOf run.data = coordsOf data ∧
        (∀ p, p < data.length → (clusterId run.data p = NOISE ∨ 0 < clusterId run.data p)) ∧
        (∀ a b, IsCore data a → IsCore data b →
          ((0 < clusterId run.data a ∧ clusterId run.data a = clusterId run.data b) ↔
            ChainOf (IsCore data) data a b)) ∧
        (∀ p, p < data.length →
          (clusterId run.data p = NOISE ↔
            (¬ IsCore data p ∧ ∀ q, IsCore data q → ¬ Near data q p))) ∧
        (∀ p q, IsCore data q → Near data q p →
          0 < clusterId run.data p ∧ clusterId run.data p = clusterId run.data q)) := by
  obtain ⟨e, run, hrun, hco, hin, hfin⟩ := seq_dbscan_finished_spec alloc data hU fuel hfuel
  refine ⟨e, run, hrun, hin, fun he => ?_⟩
  obtain ⟨c, inv, hnz, _⟩ := hfin he
  refine ⟨hco, fun p hp => ?_, fun a b ha hb => ?_, fun p hp => ?_, fun p q hq hn => ?_⟩
  · rw [clusterId_eq_getD]
    have h1 := inv.range p hp
    have h2 := hnz p hp
    rcases h1 with h | h | h
    · exact absurd h h2
    · exact Or.inl h
    · right; omega
  · rw [seq_chain_iff_core, clusterId_eq_getD, clusterId_eq_getD]
    have hiff := inv.core_same_iff hnz ha hb
    have hpos := inv.pos_of_core hnz ha.1 ha.2
    constructor
    · intro h; exact hiff.mp h.2
    · intro h; exact ⟨hpos, hiff.mpr h⟩
  · rw [clusterId_eq_getD]
    show (labelsOf run.data).getD p 0 = -1 ↔ _
    rw [inv.noise_iff (seq_nbOK data) hnz hp]
    constructor
    · rintro ⟨h1, h2⟩
      refine ⟨fun hc => h1 hc.2, fun q hq hn => ?_⟩
      have hn' := near_symm data hn
      exact h2 q ((seq_mem_regionQuery data p q).mpr ⟨hn'.2.1, hn'.2.2⟩) hq.2
    · rintro ⟨h1, h2⟩
      refine ⟨fun hc => h1 ⟨hp, hc⟩, fun q hq hc => ?_⟩
      have hm := (seq_mem_regionQuery data p q).mp hq
      exact h2 q ⟨hm.1, hc⟩ (near_symm data ⟨hp, hm.1, hm.2⟩)
  · rw [clusterId_eq_getD, clusterId_eq_getD]
    have hqpos := inv.pos_of_core hnz hq.1 hq.2
    have hpq : p ∈ regionQuery q data := (seq_mem_regionQuery data q p).mpr ⟨hn.2.1, hn.2.2⟩
    obtain ⟨hppos, hsame⟩ := inv.closed q hq.1 hq.2 hqpos p hpq
    refine ⟨hppos, ?_⟩
    by_cases hcp : 3 ≤ (regionQuery p data).length
    · exact hsame hcp
    · obtain ⟨q', hq'p, hcq', hlq'⟩ := inv.border p hn.2.1 hppos hcp
      have hqp : q ∈ regionQuery p data := (seq_nbOK data).symm q p hq.1 hpq
      have hpp : p ∈ regionQuery p data :=
        (seq_mem_regionQuery data p p).mpr
          ⟨hn.2.1, withinEpsilon_self_of_within _ _ (near_symm data hn).2.2⟩
      have hne1 : p ≠ q := by
        intro e; subst e; exact hcp hq.2
      have hne2 : p ≠ q' := by
        intro e; subst e; exact hcp hcq'
      by_cases hqq : q = q'
      · subst hqq; exact hlq'.symm
      · exact absurd (three_le_length_of_mem hpp hqp hq'p hne1 hne2 hqq) hcp

end Seq

end DBSCAN

namespace DBSCAN

namespace Seq

/-- C1 (`src/dbscan_seq.c`, core points of one chain): points 3 and 5 of `sampleBridge` are core
points, joined by the chain 3, 4, 5.  With an allocator that moves a block it is asked to extend,
the run of `dbscan` ends at the `free` of the first expansion's stale block, before any label is
written out; with an allocator that never moves a block the run reaches the end of the loop and
both points hold the id 1. -/
theorem chain_of_cores_ends_at_stale_free :
    IsCore sampleBridge 3 ∧ IsCore sampleBridge 4 ∧ IsCore sampleBridge 5 ∧
    Near sampleBridge 3 4 ∧ Near sampleBridge 4 5 ∧
    (dbscan growMoves 91 sampleBridge).map (fun r => r.1) = some (Ending.staleFree 0) ∧
    (dbscan inPlace 91 sampleBridge).map (fun r => (r.1, labelsOf r.2.data)) =
      some (Ending.finished, [1, 1, 1, 1, 1, 1, 1, 1, 1]) := by
  decide!

/-- C2 (`src/dbscan_seq.c`, noise and late relabelling): point 0 of `sampleEdge` has a single
neighbour, the core point 1, and is labelled `NOISE` first.  With an allocator that moves a block
it is asked to extend, the run of `dbscan` ends at the `free` of the stale block of the expansion
seeded at point 1; with an allocator that never moves a block the run reaches the end of the
loop and point 0 holds the id 1. -/
theorem noise_point_run_ends_at_stale_free :
    ¬ IsCore sampleEdge 0 ∧ IsCore sampleEdge 1 ∧ Near sampleEdge 0 1 ∧
    (dbscan growMoves 73 sampleEdge).map
        (fun r => (r.1, (r.2.writes.take 3).map (fun w => (w.idx, w.old, w.new)))) =
      some (Ending.staleFree 1, [(0, 0, -1), (1, 0, 1), (0, -1, 1)]) ∧
    (dbscan inPlace 73 sampleEdge).map (fun r => (r.1, labelsOf r.2.data)) =
      some (Ending.finished, [1, 1, 1, 1, 1, 1, 1, 1]) := by
  decide!

/-- C5 (`src/dbscan_seq.c`, density property): the six points of `sampleSix` coincide, so each is
a core point within `EPSILON` of the others.  The seed's frontier of 6 entries lies in a block of
10 ints and the first visit asks `realloc` for 12; with an allocator that moves a block it is
asked to extend, the run of `dbscan` ends at the `free` of the stale block; with an allocator
that never moves a block the run reaches the end of the loop and all six hold the id 1. -/
theorem coincident_points_end_at_stale_free :
    (regionQuery 0 sampleSix).length = 6 ∧ regionQueryCapacity 6 = 10 ∧
    (dbscan growMoves 43 sampleSix).map (fun r => r.1) = some (Ending.staleFree 0) ∧
    (dbscan inPlace 43 sampleSix).map (fun r => (r.1, labelsOf r.2.data)) =
      some (Ending.finished, [1, 1, 1, 1, 1, 1]) := by
  decide!

/-- C12 (`src/dbscan_seq.c`, cluster numbering): `sampleSixes` holds two groups of six coincident
points.  With an allocator that never moves a block `expandCluster` is called twice, from the
seeds 0 and 6, and the groups hold the ids 1 and 2; with an allocator that moves a block it is
asked to extend, the run of `dbscan` ends at the `free` after the first call, and the second
call is never made. -/
theorem second_expansion_never_made :
    (dbscan inPlace 157 sampleSixes).map
        (fun r => (r.1, r.2.expansions.map (fun x => x.seed), labelsOf r.2.data)) =
      some (Ending.finished, [0, 6], [1, 1, 1, 1, 1, 1, 2, 2, 2, 2, 2, 2]) ∧
    (dbscan growMoves 157 sampleSixes).map
        (fun r => (r.1, r.2.expansions.map (fun x => x.seed))) =
      some (Ending.staleFree 0, [0]) := by
  decide!

end Seq

/-- C8 (output contract, `src/dbscan_seq.c`): all nine points of `sampleSplit` start
`UNCLASSIFIED`.  With an allocator that moves a block it is asked to extend, the run of `dbscan`
ends at the `free` of the stale block, and on `sampleSixes` it ends there with six points still
`UNCLASSIFIED` in memory; the program writes no output in either case. -/
theorem stale_free_leaves_no_output :
    AllUnclassified sampleSplit ∧ AllUnclassified sampleSixes ∧
    (Seq.dbscan Seq.growMoves 91 sampleSplit).map (fun r => (r.1, labelsOf r.2.data)) =
      some (Seq.Ending.staleFree 0, [1, 1, 1, 1, 1, 1, 1, 1, 1]) ∧
    (Seq.dbscan Seq.growMoves 157 sampleSixes).map (fun r => (r.1, labelsOf r.2.data)) =
      some (Seq.Ending.staleFree 0, [1, 1, 1, 1, 1, 1, 0, 0, 0, 0, 0, 0]) := by
  decide!

end DBSCAN

namespace DBSCAN


/-- The engine of `src/src/dbscan_par.c` labels a point `NOISE` exactly when it is not core and
has no core neighbour. -/
theorem par_noise_iff (data : Dataset) (lab : Nat → Int)
    (hres : Par.Labelled (Par.neighborList data) data.length lab) (p : Nat)
    (hp : p < data.length) :
    lab p = -1 ↔ (¬ 3 ≤ (Par.neighborList data p).length ∧
      ∀ q ∈ Par.neighborList data p, ¬ 3 ≤ (Par.neighborList data q).length) := by
  constructor
  · intro h
    have hc : ¬ 3 ≤ (Par.neighborList data p).length := by
      intro hc
      have := hres.core_pos p ⟨hp, hc⟩
      omega
    refine ⟨hc, fun q hq hcq => ?_⟩
    obtain ⟨j, hj, hcj, hmin⟩ := Par.par_lowest_core_neighbour data p ⟨q, hq, hcq⟩
    have h1 := hres.border p hp hc j hj hcj hmin
    have h2 := hres.core_pos j ⟨(Par.par_nbOK data).lt p j hj, hcj⟩
    omega
  · rintro ⟨h1, h2⟩
    exact hres.noise p hp h1 h2

/-- C3, the claim as stated fails: on `sampleSplit` (all points `UNCLASSIFIED`) the sequential
engine of `src/src/dbscan_seq.c` puts the middle point (index 3) in the cluster of index 2, the
parallel engine (loops read in index order) in the cluster of index 1, so the two partitions
differ. -/
theorem seqV2_par_partitions_differ :
    AllUnclassified sampleSplit ∧
      (SeqV2.dbscan 91 sampleSplit).map (fun r => (r.1, labelsOf r.2.data)) =
        some (SeqV2.Ending.finished, [1, 2, 1, 1, 2, 2, 2, 1, 1]) ∧
      (Par.dbscan 91 sampleSplit).map labelsOf = some [1, 2, 1, 2, 2, 2, 2, 1, 1] ∧
      ¬ (∀ e run o2, SeqV2.dbscan 91 sampleSplit = some (e, run) →
          Par.dbscan 91 sampleSplit = some o2 →
          (∀ p, p < sampleSplit.length →
            (clusterId run.data p = NOISE ↔ clusterId o2 p = NOISE)) ∧
          (∀ a b, a < sampleSplit.length → b < sampleSplit.length →
            (clusterId run.data a = clusterId run.data b ↔
              clusterId o2 a = clusterId o2 b))) := by
  have h1 : (SeqV2.dbscan 91 sampleSplit).map (fun r => (r.1, labelsOf r.2.data)) =
      some (SeqV2.Ending.finished, [1, 2, 1, 1, 2, 2, 2, 1, 1]) := by decide!
  have h2 : (Par.dbscan 91 sampleSplit).map labelsOf = some [1, 2, 1, 2, 2, 2, 2, 1, 1] := by
    decide!
  refine ⟨by decide, h1, h2, fun h => ?_⟩
  cases hr1 : SeqV2.dbscan 91 sampleSplit with
  | none => rw [hr1] at h1; exact absurd h1 (by simp)
  | some r =>
    cases hr2 : Par.dbscan 91 sampleSplit with
    | none => rw [hr2] at h2; exact absurd h2 (by simp)
    | some o2 =>
      rw [hr1] at h1
      rw [hr2] at h2
      simp only [Option.map_some', Option.some.injEq, Prod.mk.injEq] at h1 h2
      have key := ((h r.1 r.2 o2 hr1 hr2).2 1 3 (by decide) (by decide)).mpr
      simp only [clusterId_eq_getD, h1.2, h2] at key
      exact absurd (key (by decide)) (by decide)

/-- C3 as amended (`src/src/dbscan_seq.c` against `src/src/dbscan_par.c` with its loops read in
index order): on a dataset of at most 46341 points that all start `UNCLASSIFIED` both engines
return (the sequential one without exceeding `int` in its frontier length), have the same core
points, label the same points `NOISE`, and put two core points in one cluster in one output
exactly when the other does; a non-core point that is not noise has, in each output, the id of
some core point within `EPSILON` of it. -/
theorem seqV2_par_same_noise_and_core_partition (data : Dataset) (hU : AllUnclassified data)
    (hsmall : data.length ≤ 46341) (fuel : Nat) (hfuel : fuelFor data.length ≤ fuel) :
    ∃ run o2, SeqV2.dbscan fuel data = some (SeqV2.Ending.finished, run) ∧
      Par.dbscan fuel data = some o2 ∧
      (∀ p, SeqV2.IsCore data p ↔ Par.IsCore data p) ∧
      (∀ p, p < data.length → (clusterId run.data p = NOISE ↔ clusterId o2 p = NOISE)) ∧
      (∀ a b, Par.IsCore data a → Par.IsCore data b →
        (clusterId run.data a = clusterId run.data b ↔ clusterId o2 a = clusterId o2 b)) ∧
      (∀ p, p < data.length → ¬ Par.IsCore data p → clusterId run.data p ≠ NOISE →
        (∃ q, Par.IsCore data q ∧ Near data q p ∧
          clusterId run.data p = clusterId run.data q) ∧
        (∃ q, Par.IsCore data q ∧ Near data q p ∧ clusterId o2 p = clusterId o2 q)) := by
  obtain ⟨run, hrun1, _, c, inv, hnz, _⟩ :=
    SeqV2.seqV2_dbscan_finished_spec data hU fuel hfuel hsmall
  obtain ⟨o2, hrun2, _, hres⟩ := Par.par_dbscan_correct data fuel hfuel
  have hnb := Par.par_nbOK data
  have hnoise1 : ∀ p, p < data.length → (clusterId run.data p = -1 ↔
      (¬ 3 ≤ (Par.neighborList data p).length ∧
        ∀ q ∈ Par.neighborList data p, ¬ 3 ≤ (Par.neighborList data q).length)) := by
    intro p hp
    rw [clusterId_eq_getD]
    exact inv.noise_iff hnb hnz hp
  refine ⟨run, o2, hrun1, hrun2, fun _ => Iff.rfl, fun p hp => ?_, fun a b ha hb => ?_,
    fun p hp hnc hnn => ?_⟩
  · show clusterId run.data p = -1 ↔ clusterId o2 p = -1
    rw [hnoise1 p hp, par_noise_iff data _ hres p hp]
  · rw [clusterId_eq_getD, clusterId_eq_getD, inv.core_same_iff hnz ha hb]
    exact (hres.core_iff a b ha hb).symm
  · have hnc' : ¬ 3 ≤ (Par.neighborList data p).length := fun h => hnc ⟨hp, h⟩
    have hpos : 0 < (labelsOf run.data).getD p 0 := by
      have h1 := inv.range p hp
      have h2 := hnz p hp
      have h3 : (labelsOf run.data).getD p 0 ≠ -1 := by
        rw [← clusterId_eq_getD]; exact hnn
      omega
    obtain ⟨q, hq, hcq, hlq⟩ := inv.border p hp hpos hnc'
    have hm := (Par.par_mem_neighborList data p q).mp hq
    have hqp : Near data q p := near_symm data ⟨hp, hm.1, hm.2.2⟩
    refine ⟨⟨q, ⟨hm.1, hcq⟩, hqp, ?_⟩, ?_⟩
    · rw [clusterId_eq_getD, clusterId_eq_getD]; exact hlq.symm
    · obtain ⟨j, hj, hcj, hmin⟩ := Par.par_lowest_core_neighbour data p ⟨q, hq, hcq⟩
      have hmj := (Par.par_mem_neighborList data p j).mp hj
      exact ⟨j, ⟨hmj.1, hcj⟩, near_symm data ⟨hp, hmj.1, hmj.2.2⟩,
        hres.border p hp hnc' j hj hcj hmin⟩

theorem seqV2_par_same_noise_and_core_partition_witness :
    ∃ run o2, SeqV2.dbscan 91 sampleSplit = some (SeqV2.Ending.finished, run) ∧
      Par.dbscan 91 sampleSplit = some o2 ∧
      (∀ p, SeqV2.IsCore sampleSplit p ↔ Par.IsCore sampleSplit p) ∧
      (∀ p, p < sampleSplit.length →
        (clusterId run.data p = NOISE ↔ clusterId o2 p = NOISE)) ∧
      (∀ a b, Par.IsCore sampleSplit a → Par.IsCore sampleSplit b →
        (clusterId run.data a = clusterId run.data b ↔ clusterId o2 a = clusterId o2 b)) ∧
      (∀ p, p < sampleSplit.length → ¬ Par.IsCore sampleSplit p →
        clusterId run.data p ≠ NOISE →
        (∃ q, Par.IsCore sampleSplit q ∧ Near sampleSplit q p ∧
          clusterId run.data p = clusterId run.data q) ∧
        (∃ q, Par.IsCore sampleSplit q ∧ Near sampleSplit q p ∧
          clusterId o2 p = clusterId o2 q)) :=
  seqV2_par_same_noise_and_core_partition sampleSplit (by decide) (by decide) 91 (by decide)

end DBSCAN

namespace DBSCAN

theorem not_near_false (data : Dataset) (a b : Nat) (ha : a < data.length)
    (hb : b < data.length) (h : ¬ Near data a b) :
    withinEpsilon (getPoint data a) (getPoint data b) = false := by
  cases hw : withinEpsilon (getPoint data a) (getPoint data b) with
  | false => rfl
  | true => exact absurd ⟨ha, hb, hw⟩ h

theorem le_fuelFor (n : Nat) : n ≤ fuelFor n := by
  unfold fuelFor; omega

theorem near_sampleCrowd (a b : Nat) (ha : a < sampleCrowd.length) (hb : b < sampleCrowd.length) :
    Near sampleCrowd a b :=
  ⟨ha, hb, within_sampleCrowd a b⟩

/-- C13, the claim as stated fails for `src/src/dbscan_seq.c`: the 46342 coincident points of
`sampleCrowd` all start `UNCLASSIFIED` and are pairwise within `EPSILON`, and the run of `dbscan`
does not label them: the frontier of the first expansion, extended by 46341 entries at every
visit, reaches a length that no `int` holds, and the run ends there. -/
theorem crowd_is_not_labelled :
    AllUnclassified sampleCrowd ∧ MIN_POINTS + 1 ≤ sampleCrowd.length ∧
    (∀ a b, a < sampleCrowd.length → b < sampleCrowd.length → a ≠ b → Near sampleCrowd a b) ∧
    (∃ run, SeqV2.dbscan (fuelFor sampleCrowd.length) sampleCrowd =
      some (SeqV2.Ending.intOverflow 0, run)) ∧
    ¬ ∃ run, SeqV2.dbscan (fuelFor sampleCrowd.length) sampleCrowd =
      some (SeqV2.Ending.finished, run) := by
  have hrun := SeqV2.seqV2_blob_overflow sampleCrowd allUnclassified_sampleCrowd
    (fun a b _ _ _ => within_sampleCrowd a b)
    (by rw [length_sampleCrowd]; decide) (fuelFor sampleCrowd.length)
    (le_fuelFor _)
  refine ⟨allUnclassified_sampleCrowd, by rw [length_sampleCrowd]; decide,
    fun a b ha hb _ => near_sampleCrowd a b ha hb, hrun, ?_⟩
  rintro ⟨run, h⟩
  obtain ⟨run', h'⟩ := hrun
  rw [h'] at h
  simp at h

/-- C13 as amended (one dense blob): on a dataset of at least `MIN_POINTS + 1` points, all
`UNCLASSIFIED` and pairwise within `EPSILON` as the code tests it.  The run of
`src/dbscan_seq.c` ends for every allocator, at the end of `dbscan` when no frontier block is
moved, and when it ends there every point has the id 1.  On at most 46341 points
`src/src/dbscan_seq.c` returns and labels every point 1.  `src/src/dbscan_par.c`, its loops read
in index order, returns and labels every point 1. -/
theorem dense_blob_single_cluster (alloc : Seq.Realloc) (data : Dataset)
    (hU : AllUnclassified data) (hn : MIN_POINTS + 1 ≤ data.length)
    (hnear : ∀ a b, a < data.length → b < data.length → a ≠ b → Near data a b)
    (fuel : Nat) (hfuel : fuelFor data.length ≤ fuel) :
    (∃ e run, Seq.dbscan alloc fuel data = some (e, run) ∧
        ((∀ c i s r, alloc c i s r = false) → e = Seq.Ending.finished) ∧
        (e = Seq.Ending.finished → ∀ p, p < data.length → clusterId run.data p = 1)) ∧
      (data.length ≤ 46341 →
        ∃ run, SeqV2.dbscan fuel data = some (SeqV2.Ending.finished, run) ∧
          ∀ p, p < data.length → clusterId run.data p = 1) ∧
      (∃ out, Par.dbscan fuel data = some out ∧
        ∀ p, p < data.length → clusterId out p = 1) := by
  have hn' : 4 ≤ data.length := hn
  have hw : ∀ p i, p < data.length → i < data.length →
      withinEpsilon (getPoint data p) (getPoint data i) = true := by
    intro p i hp hi
    by_cases hpi : p = i
    · subst hpi
      by_cases hp0 : p = 0
      · exact withinEpsilon_self_of_within _ (getPoint data 1)
          (hnear p 1 hp (by omega) (by omega)).2.2
      · exact withinEpsilon_self_of_within _ (getPoint data 0)
          (hnear p 0 hp (by omega) hp0).2.2
    · exact (hnear p i hp hi hpi).2.2
  have hcoreS : ∀ p, p < data.length → 3 ≤ (Seq.regionQuery p data).length := by
    intro p hp
    have := seq_regionQuery_length_ge data p (fun _ => true) (fun i hi _ => hw p i hp hi)
    rw [length_filter_true] at this
    omega
  have hcoreP : ∀ p, p < data.length → 3 ≤ (Par.neighborList data p).length := by
    intro p hp
    have := par_neighborList_length_ge data p (fun _ => true) (fun i hi _ => hw p i hp hi)
    rw [length_filter_true] at this
    omega
  have h0 : 0 < data.length := by omega
  have hchainP : ∀ p, p < data.length →
      Core.CoreChain (Par.neighborList data) data.length 0 p := by
    intro p hp
    by_cases hp0 : p = 0
    · subst hp0; exact Relation.ReflTransGen.refl
    · exact Relation.ReflTransGen.single ⟨⟨h0, hcoreP 0 h0⟩, ⟨hp, hcoreP p hp⟩,
        (Par.par_mem_neighborList data 0 p).mpr ⟨hp, fun e => hp0 e.symm, hw 0 p h0 hp⟩⟩
  refine ⟨?_, ?_, ?_⟩
  · obtain ⟨e, run, hrun, _, hin, hfin⟩ := seq_dbscan_finished_spec alloc data hU fuel hfuel
    refine ⟨e, run, hrun, hin, fun he p hp => ?_⟩
    obtain ⟨c, inv, hnz, hfirst⟩ := hfin he
    have h1 := hfirst h0 (hcoreS 0 h0)
    have hch : Core.CoreChain (fun q => Seq.regionQuery q data) data.length 0 p :=
      Relation.ReflTransGen.single ⟨⟨h0, hcoreS 0 h0⟩, ⟨hp, hcoreS p hp⟩,
        (Seq.seq_mem_regionQuery data 0 p).mpr ⟨hp, hw 0 p h0 hp⟩⟩
    have := (inv.core_same_iff hnz ⟨h0, hcoreS 0 h0⟩ ⟨hp, hcoreS p hp⟩).mpr hch
    rw [clusterId_eq_getD, ← this, ← clusterId_eq_getD, h1]
  · intro hsmall
    obtain ⟨run, hrun, _, c, inv, hnz, hfirst⟩ :=
      SeqV2.seqV2_dbscan_finished_spec data hU fuel hfuel hsmall
    refine ⟨run, hrun, fun p hp => ?_⟩
    have h1 := hfirst h0 (hcoreP 0 h0)
    have := (inv.core_same_iff hnz ⟨h0, hcoreP 0 h0⟩ ⟨hp, hcoreP p hp⟩).mpr (hchainP p hp)
    rw [clusterId_eq_getD, ← this, ← clusterId_eq_getD, h1]
  · obtain ⟨out, L, hrun, hsorted, hmem, hids⟩ := Par.par_dbscan_numbering data fuel hfuel
    obtain ⟨out', hrun', _, hres⟩ := Par.par_dbscan_correct data fuel hfuel
    rw [hrun] at hrun'
    cases hrun'
    refine ⟨out, hrun, fun p hp => ?_⟩
    have h1 := par_lowest_core_id (Par.neighborList data) data.length (clusterId out) L hsorted
      hmem hids 0 ⟨h0, hcoreP 0 h0⟩ (fun b _ => Nat.zero_le b)
    rw [← (hres.core_iff 0 p ⟨h0, hcoreP 0 h0⟩ ⟨hp, hcoreP p hp⟩).mpr (hchainP p hp), h1]

theorem dense_blob_single_cluster_witness :
    (∃ e run, Seq.dbscan Seq.growMoves 21 sampleBlob = some (e, run) ∧
        ((∀ c i s r, Seq.growMoves c i s r = false) → e = Seq.Ending.finished) ∧
        (e = Seq.Ending.finished → ∀ p, p < sampleBlob.length → clusterId run.data p = 1)) ∧
      (sampleBlob.length ≤ 46341 →
        ∃ run, SeqV2.dbscan 21 sampleBlob = some (SeqV2.Ending.finished, run) ∧
          ∀ p, p < sampleBlob.length → clusterId run.data p = 1) ∧
      (∃ out, Par.dbscan 21 sampleBlob = some out ∧
        ∀ p, p < sampleBlob.length → clusterId out p = 1) :=
  dense_blob_single_cluster Seq.growMoves sampleBlob (by decide) (by decide)
    (by
      have h : ∀ a, a < 4 → ∀ b, b < 4 → a ≠ b → Near sampleBlob a b := by decide!
      exact fun a b ha hb => h a ha b hb)
    21 (by decide)

/-- The three engines on `sampleBlob`: each run reaches its end with every point labelled 1. -/
theorem sampleBlob_labels :
    (Seq.dbscan Seq.growMoves 21 sampleBlob).map (fun r => (r.1, labelsOf r.2.data)) =
      some (Seq.Ending.finished, [1, 1, 1, 1]) ∧
    (SeqV2.dbscan 21 sampleBlob).map (fun r => (r.1, labelsOf r.2.data)) =
      some (SeqV2.Ending.finished, [1, 1, 1, 1]) ∧
    (Par.dbscan 21 sampleBlob).map labelsOf = some [1, 1, 1, 1] := by
  decide!

/-- C14, the claim as stated fails for `src/dbscan_seq.c`: the three points of `sampleMargin`
all start `UNCLASSIFIED` and are pairwise farther than `EPSILON` apart, yet the computed distance
of the origin from each of the other two is exactly 1, the query for the origin returns all
three points, and the run of `dbscan` reaches its end with every point labelled 1. -/
theorem margin_points_form_a_cluster :
    AllUnclassified sampleMargin ∧
    (∀ a, a < 3 → ∀ b, b < 3 → a ≠ b →
      ¬ WithinExact (getPoint sampleMargin a) (getPoint sampleMargin b)) ∧
    Seq.regionQuery 0 sampleMargin = [0, 1, 2] ∧
    (Seq.dbscan Seq.growMoves 13 sampleMargin).map (fun r => (r.1, labelsOf r.2.data)) =
      some (Seq.Ending.finished, [1, 1, 1]) ∧
    (Seq.dbscan Seq.inPlace 13 sampleMargin).map (fun r => (r.1, labelsOf r.2.data)) =
      some (Seq.Ending.finished, [1, 1, 1]) := by
  decide!

/-- C14 as amended (isolated points): on a dataset, all `UNCLASSIFIED`, in which no two distinct
points are within `EPSILON` as the code tests it, on the distance computed in double precision
(any single-point dataset is one).  The run of `src/dbscan_seq.c` reaches the end of `dbscan`
for every allocator and labels every point `NOISE`, and `src/src/dbscan_par.c`, its loops read
in index order, returns and labels every point `NOISE`. -/
theorem isolated_points_all_noise (alloc : Seq.Realloc) (data : Dataset)
    (hU : AllUnclassified data)
    (hfar : ∀ a b, a < data.length → b < data.length → a ≠ b → ¬ Near data a b)
    (fuel : Nat) (hfuel : fuelFor data.length ≤ fuel) :
    (∃ run, Seq.dbscan alloc fuel data = some (Seq.Ending.finished, run) ∧
        run.expansions = [] ∧
        ∀ p, p < data.length → clusterId run.data p = NOISE) ∧
      (∃ out, Par.dbscan fuel data = some out ∧
        ∀ p, p < data.length → clusterId out p = NOISE) := by
  have hw : ∀ p i, p < data.length → i < data.length → i ≠ p →
      withinEpsilon (getPoint data p) (getPoint data i) = false :=
    fun p i hp hi hne => not_near_false data p i hp hi (hfar p i hp hi (fun e => hne e.symm))
  constructor
  · have hnc : ∀ q, q < data.length → ¬ 3 ≤ (Seq.regionQuery q data).length := by
      intro q hq h3
      have := seq_regionQuery_length_le_one data q (fun i hi hne => hw q i hq hi hne)
      omega
    obtain ⟨out, hfin, hexp⟩ := seq_dbscanLoop_no_core alloc fuel data
      (fun i hi => Nat.lt_of_not_le (hnc i hi)) (List.range data.length) 1 ⟨data, [], []⟩ rfl
      (fun i hi => List.mem_range.mp hi)
    obtain ⟨e, run, hrun, _, _, hspec⟩ := seq_dbscan_finished_spec alloc data hU fuel hfuel
    have hrun' : Seq.dbscan alloc fuel data = some (Seq.Ending.finished, out) := hfin
    rw [hrun] at hrun'
    simp only [Option.some.injEq, Prod.mk.injEq] at hrun'
    obtain ⟨he, hrr⟩ := hrun'
    subst hrr
    obtain ⟨c, inv, hnz, _⟩ := hspec he
    refine ⟨run, by rw [hrun, he], hexp, fun p hp => ?_⟩
    rw [clusterId_eq_getD]
    exact (inv.noise_iff (Seq.seq_nbOK data) hnz hp).mpr
      ⟨hnc p hp, fun q hq => hnc q ((Seq.seq_nbOK data).lt p q hq)⟩
  · obtain ⟨out, hrun, _, hres⟩ := Par.par_dbscan_correct data fuel hfuel
    have hnil : ∀ q, q < data.length → Par.neighborList data q = [] :=
      fun q hq => par_neighborList_nil data q (fun i hi hne => hw q i hq hi hne)
    refine ⟨out, hrun, fun p hp => ?_⟩
    refine (par_noise_iff data _ hres p hp).mpr ⟨?_, fun q hq => ?_⟩
    · rw [hnil p hp]; simp
    · rw [hnil p hp] at hq; simp at hq

theorem isolated_points_all_noise_witness :
    (∃ run, Seq.dbscan Seq.growMoves 13 sampleFar = some (Seq.Ending.finished, run) ∧
        run.expansions = [] ∧
        ∀ p, p < sampleFar.length → clusterId run.data p = NOISE) ∧
      (∃ out, Par.dbscan 13 sampleFar = some out ∧
        ∀ p, p < sampleFar.length → clusterId out p = NOISE) :=
  isolated_points_all_noise Seq.growMoves sampleFar (by decide)
    (by
      have h : ∀ a, a < 3 → ∀ b, b < 3 → a ≠ b → ¬ Near sampleFar a b := by decide!
      exact fun a b ha hb => h a ha b hb)
    13 (by decide)

theorem twoGroups_sampleTriples : TwoGroups MIN_POINTS sampleTriples (fun i => decide (i < 3)) := by
  refine ⟨by decide, by decide, ?_, ?_⟩
  · have h : ∀ a, a < 6 → ∀ b, b < 6 → decide (a < 3) = decide (b < 3) →
        withinEpsilon (getPoint sampleTriples a) (getPoint sampleTriples b) = true := by decide!
    exact fun a b ha hb _ => h a ha b hb
  · have h : ∀ a, a < 6 → ∀ b, b < 6 → decide (a < 3) ≠ decide (b < 3) →
        withinEpsilon (getPoint sampleTriples a) (getPoint sampleTriples b) = false := by decide!
    exact fun a b ha hb => h a ha b hb

theorem twoGroups_sampleQuads :
    TwoGroups (MIN_POINTS + 1) sampleQuads (fun i => decide (i < 4)) := by
  refine ⟨by decide, by decide, ?_, ?_⟩
  · have h : ∀ a, a < 8 → ∀ b, b < 8 → decide (a < 4) = decide (b < 4) →
        withinEpsilon (getPoint sampleQuads a) (getPoint sampleQuads b) = true := by decide!
    exact fun a b ha hb _ => h a ha b hb
  · have h : ∀ a, a < 8 → ∀ b, b < 8 → decide (a < 4) ≠ decide (b < 4) →
        withinEpsilon (getPoint sampleQuads a) (getPoint sampleQuads b) = false := by decide!
    exact fun a b ha hb => h a ha b hb

theorem TwoGroups.weaken {m : Nat} {data : Dataset} {g : Nat → Bool}
    (h : TwoGroups (m + 1) data g) : TwoGroups m data g :=
  ⟨Nat.le_of_succ_le h.sizeA, Nat.le_of_succ_le h.sizeB, h.same, h.apart⟩

/-- C15, the claim as stated fails for `src/src/dbscan_par.c` (loops read in index order): on
`sampleTriples`, two groups of `MIN_POINTS = 3` coincident points five units apart, the engine
labels every point `NOISE`, because a point of a group of three has only two other points within
`EPSILON`. -/
theorem par_two_triples_all_noise :
    TwoGroups MIN_POINTS sampleTriples (fun i => decide (i < 3)) ∧
      Par.dbscan 43 sampleTriples =
        some [⟨0, 0, -1⟩, ⟨0, 0, -1⟩, ⟨0, 0, -1⟩, ⟨5, 0, -1⟩, ⟨5, 0, -1⟩, ⟨5, 0, -1⟩] ∧
      ¬ (∀ out, Par.dbscan 43 sampleTriples = some out →
          ∀ p, p < sampleTriples.length → clusterId out p ≠ NOISE) := by
  have hrun : Par.dbscan 43 sampleTriples =
      some [⟨0, 0, -1⟩, ⟨0, 0, -1⟩, ⟨0, 0, -1⟩, ⟨5, 0, -1⟩, ⟨5, 0, -1⟩, ⟨5, 0, -1⟩] := by
    decide!
  refine ⟨twoGroups_sampleTriples, hrun, fun h => ?_⟩
  exact h _ hrun 0 (by decide) (by decide)

/-- C15 as amended (two tight clusters): on a dataset, all `UNCLASSIFIED`, made of two groups
of at least `MIN_POINTS` points whose points are pairwise within `EPSILON` inside a group and
farther apart across groups, both as the code tests it.  The run of `src/dbscan_seq.c` ends for
every allocator, at the end of `dbscan` when no frontier block is moved, and when it ends there
the points carry two distinct positive ids, one for every point of the first group and the other
for every point of the second.  When the groups have at least `MIN_POINTS + 1` points,
`src/src/dbscan_par.c`, its loops read in index order, returns such a labelling. -/
theorem two_groups_two_clusters (alloc : Seq.Realloc) (data : Dataset) (g : Nat → Bool)
    (hU : AllUnclassified data) (hg : TwoGroups MIN_POINTS data g) (fuel : Nat)
    (hfuel : fuelFor data.length ≤ fuel) :
    (∃ e run, Seq.dbscan alloc fuel data = some (e, run) ∧
        ((∀ c i s r, alloc c i s r = false) → e = Seq.Ending.finished) ∧
        (e = Seq.Ending.finished → ∃ c1 c2 : Int, 0 < c1 ∧ 0 < c2 ∧ c1 ≠ c2 ∧
          ∀ p, p < data.length → clusterId run.data p = if g p = true then c1 else c2)) ∧
      (TwoGroups (MIN_POINTS + 1) data g →
        ∃ (out : Dataset) (c1 c2 : Int), Par.dbscan fuel data = some out ∧
          0 < c1 ∧ 0 < c2 ∧ c1 ≠ c2 ∧
          ∀ p, p < data.length → clusterId out p = if g p = true then c1 else c2) := by
  have hsA : 3 ≤ ((List.range data.length).filter (fun i => g i)).length := hg.sizeA
  have hsB : 3 ≤ ((List.range data.length).filter (fun i => !g i)).length := hg.sizeB
  obtain ⟨a0, ha0, hga⟩ := exists_of_filter_length_pos data.length (fun i => g i) (by omega)
  obtain ⟨b0, hb0, hgb⟩ := exists_of_filter_length_pos data.length (fun i => !g i) (by omega)
  have hgb' : g b0 = false := by simpa using hgb
  -- the group of `p`, as a filter of the indices
  have hgroup : ∀ (m : Nat) (hm : TwoGroups m data g) (p : Nat),
      m ≤ ((List.range data.length).filter (fun i => g i == g p)).length := by
    intro m hm p
    cases hgp : g p with
    | true =>
      refine le_trans hm.sizeA (length_filter_le_of_imp _ _ _ (fun i _ hi => ?_))
      simpa using hi
    | false =>
      refine le_trans hm.sizeB (length_filter_le_of_imp _ _ _ (fun i _ hi => ?_))
      simpa using hi
  have hself : ∀ a, a < data.length →
      withinEpsilon (getPoint data a) (getPoint data a) = true := by
    intro a ha
    obtain ⟨b, hb, hgb, hne⟩ := exists_ne_of_filter_length data.length (fun i => g i == g a) a
      (le_trans (by decide) (hgroup MIN_POINTS hg a))
    have hgab : g a = g b := by simpa using (Eq.symm (by simpa using hgb))
    exact withinEpsilon_self_of_within _ _ (hg.same a b ha hb (fun e => hne e.symm) hgab)
  have hwithin : ∀ a b, a < data.length → b < data.length →
      (withinEpsilon (getPoint data a) (getPoint data b) = true ↔ g a = g b) := by
    intro a b ha hb
    constructor
    · intro hw
      by_contra hne
      rw [hg.apart a b ha hb hne] at hw
      cases hw
    · intro hgab
      by_cases hab : a = b
      · subst hab; exact hself a ha
      · exact hg.same a b ha hb hab hgab
  constructor
  · obtain ⟨e, run, hrun, _, hin, hfin⟩ := seq_dbscan_finished_spec alloc data hU fuel hfuel
    refine ⟨e, run, hrun, hin, fun he => ?_⟩
    obtain ⟨c, inv, hnz, _⟩ := hfin he
    have hcore : ∀ p, p < data.length → 3 ≤ (Seq.regionQuery p data).length := by
      intro p hp
      have h1 := hgroup MIN_POINTS hg p
      have h2 := seq_regionQuery_length_ge data p (fun i => g i == g p)
        (fun i hi hq => (hwithin p i hp hi).mpr (by simpa using (Eq.symm (by simpa using hq))))
      exact le_trans h1 h2
    exact two_groups_labels (fun q => Seq.regionQuery q data)
      data.length (clusterId run.data) g
      (fun a ha => by rw [clusterId_eq_getD]; exact inv.pos_of_core hnz ha.1 ha.2)
      (fun a b ha hb => by
        rw [clusterId_eq_getD, clusterId_eq_getD]; exact inv.core_same_iff hnz ha hb)
      hcore
      (fun a b ha hb _ hab => (Seq.seq_mem_regionQuery data a b).mpr
        ⟨hb, (hwithin a b ha hb).mpr hab⟩)
      (fun a b ha hb => by
        have := (Seq.seq_mem_regionQuery data a b).mp hb
        exact (hwithin a b ha this.1).mp this.2)
      a0 b0 ha0 hga hb0 hgb'
  · intro hg4
    obtain ⟨out, hrun, _, hres⟩ := Par.par_dbscan_correct data fuel hfuel
    have hcore : ∀ p, p < data.length → 3 ≤ (Par.neighborList data p).length := by
      intro p hp
      have h1 : 4 ≤ _ := hgroup (MIN_POINTS + 1) hg4 p
      have h2 := par_neighborList_length_ge data p (fun i => g i == g p)
        (fun i hi hq => (hwithin p i hp hi).mpr (by simpa using (Eq.symm (by simpa using hq))))
      omega
    obtain ⟨c1, c2, h1, h2, h3, h4⟩ := two_groups_labels (Par.neighborList data)
      data.length (clusterId out) g
      (fun a ha => by have := hres.core_pos a ha; omega)
      (fun a b ha hb => hres.core_iff a b ha hb)
      hcore
      (fun a b ha hb hne hab => (Par.par_mem_neighborList data a b).mpr
        ⟨hb, hne, (hwithin a b ha hb).mpr hab⟩)
      (fun a b ha hb => by
        have := (Par.par_mem_neighborList data a b).mp hb
        exact (hwithin a b ha this.1).mp this.2.2)
      a0 b0 ha0 hga hb0 hgb'
    exact ⟨out, c1, c2, hrun, h1, h2, h3, h4⟩

theorem two_groups_two_clusters_witness :
    (∃ e run, Seq.dbscan Seq.growMoves 73 sampleQuads = some (e, run) ∧
        ((∀ c i s r, Seq.growMoves c i s r = false) → e = Seq.Ending.finished) ∧
        (e = Seq.Ending.finished → ∃ c1 c2 : Int, 0 < c1 ∧ 0 < c2 ∧ c1 ≠ c2 ∧
          ∀ p, p < sampleQuads.length →
            clusterId run.data p = if (fun i => decide (i < 4)) p = true then c1 else c2)) ∧
      (∃ (out : Dataset) (c1 c2 : Int), Par.dbscan 73 sampleQuads = some out ∧
        0 < c1 ∧ 0 < c2 ∧ c1 ≠ c2 ∧
        ∀ p, p < sampleQuads.length →
          clusterId out p = if (fun i => decide (i < 4)) p = true then c1 else c2) :=
  have h := two_groups_two_clusters Seq.growMoves sampleQuads (fun i => decide (i < 4))
    (by decide) twoGroups_sampleQuads.weaken 73 (by decide)
  ⟨h.1, h.2 twoGroups_sampleQuads⟩

/-- The two engines on `sampleQuads`: each run reaches its end with the first four points
labelled 1 and the other four labelled 2. -/
theorem sampleQuads_labels :
    (Seq.dbscan Seq.growMoves 73 sampleQuads).map (fun r => (r.1, labelsOf r.2.data)) =
      some (Seq.Ending.finished, [1, 1, 1, 1, 2, 2, 2, 2]) ∧
    (Par.dbscan 73 sampleQuads).map labelsOf = some [1, 1, 1, 1, 2, 2, 2, 2] := by
  decide!

end DBSCAN

namespace DBSCAN

/-- C21, the claim as stated fails for `src/src/dbscan_seq.c`: on the 46342 coincident points of
`sampleCrowd` the frontier of the first expansion grows by 46341 entries at every visit, and
before the loop is through the sum `*num_neighbors_ptr + new_num_neighbors` exceeds `INT_MAX`:
the expansion does not come to a regular end, and no bound holds the frontier length within
`int`. -/
theorem crowd_frontier_exceeds_int :
    (∃ run, SeqV2.dbscan (fuelFor sampleCrowd.length) sampleCrowd =
      some (SeqV2.Ending.intOverflow 0, run)) ∧
    sampleCrowd.length = 46342 ∧ 46341 * 46340 ≤ SeqV2.INT_MAX ∧
    SeqV2.INT_MAX < 46341 * 46341 :=
  ⟨SeqV2.seqV2_blob_overflow sampleCrowd allUnclassified_sampleCrowd
      (fun a b _ _ _ => within_sampleCrowd a b)
      (by rw [length_sampleCrowd]; decide) (fuelFor sampleCrowd.length) (le_fuelFor _),
    length_sampleCrowd, by decide, by decide⟩

/-- C21 as amended (termination of the expansion).  In `src/dbscan_seq.c` every call of
`expandCluster` with a positive id on a frontier of valid indices returns, whatever the allocator
does, and the run of `dbscan` ends (at the end of its loop or at the stale `free`).  In
`src/src/dbscan_seq.c`, on at most 46341 points, the run of `dbscan` reaches the end of its loop;
no point is a seed or relabelled twice over the whole run, each of them ends with a positive id,
a visit reads `UNCLASSIFIED` or `NOISE` and leaves the frontier as it was or appends the whole
neighbour list of the point, and every frontier of an expansion is at most as long as the seed's
neighbour list plus the sum of all points' neighbour counts, which is within `INT_MAX`. -/
theorem expansion_terminates_frontier_bounded (alloc : Seq.Realloc) (data : Dataset)
    (fuel : Nat) (hfuel : fuelFor data.length ≤ fuel) :
    (∀ (run : Seq.Run) (point_idx : Nat) (neighbors : List Nat) (size : Nat) (cluster_id : Int),
      run.data.length = data.length → 0 < cluster_id →
      (∀ x ∈ neighbors, x < data.length) →
      ∃ out, Seq.expandCluster alloc (neighbors.length + fuel) point_idx neighbors size
        cluster_id run = some out) ∧
    (∃ e run, Seq.dbscan alloc fuel data = some (e, run)) ∧
    (data.length ≤ 46341 →
      ∃ run, SeqV2.dbscan fuel data = some (SeqV2.Ending.finished, run) ∧
        (entered run.expansions).Nodup ∧
        (∀ p ∈ entered run.expansions, 0 < clusterId run.data p) ∧
        ∀ x ∈ run.expansions, x.start = SeqV2.regionQuery x.seed data ∧
          FrontierRun x.start x.visits x.final ∧
          (∀ v ∈ x.visits, (v.old = UNCLASSIFIED ∨ v.old = NOISE) ∧
            (v.after = v.before ∨
              (MIN_POINTS ≤ (SeqV2.regionQuery v.point data).length ∧
                v.after = v.before ++ SeqV2.regionQuery v.point data)) ∧
            v.after.length ≤ x.final.length) ∧
          x.final.length ≤ x.start.length + SeqV2.totalNeighbors data ∧
          x.final.length ≤ SeqV2.INT_MAX) := by
  have hf : data.length + data.length * data.length < fuel := by
    unfold fuelFor at hfuel; omega
  refine ⟨?_, ?_, ?_⟩
  · intro run point_idx neighbors size cluster_id hlen hc hF
    exact Seq.seq_expandCluster_returns alloc run _ point_idx neighbors size cluster_id hc
      (by rw [hlen]; exact hF) (by rw [hlen]; omega)
  · obtain ⟨e, run, h, _⟩ := Seq.seq_dbscan_ends alloc data fuel hfuel
    exact ⟨e, run, h⟩
  · intro hsmall
    obtain ⟨run, hrun, _, honce⟩ := SeqV2.seqV2_dbscan_finishes data fuel hfuel hsmall
    refine ⟨run, hrun, honce.nodup, honce.pos, ?_⟩
    intro x hx
    have hexp := honce.exps x hx
    have htot := SeqV2.seqV2_final_le_total data x hexp
    have hle := SeqV2.seqV2_totalNeighbors_le data
    have hmul : data.length * (data.length - 1) ≤ 46341 * 46340 :=
      Nat.mul_le_mul hsmall (by omega)
    obtain ⟨_, hst, hfr, hvs, _, _⟩ := hexp
    refine ⟨hst, hfr, ?_, by omega, by unfold SeqV2.INT_MAX; omega⟩
    intro v hv
    obtain ⟨⟨_, hold, hfound, hgrow⟩, hle⟩ := hvs v hv
    refine ⟨hold, ?_, hle⟩
    rcases hgrow with hg | hg
    · exact Or.inl hg
    · exact Or.inr ⟨hfound ▸ hg.1, hg.2⟩

theorem expansion_terminates_frontier_bounded_witness :
    (∀ (run : Seq.Run) (point_idx : Nat) (neighbors : List Nat) (size : Nat) (cluster_id : Int),
      run.data.length = sampleSplit.length → 0 < cluster_id →
      (∀ x ∈ neighbors, x < sampleSplit.length) →
      ∃ out, Seq.expandCluster Seq.growMoves (neighbors.length + 91) point_idx neighbors size
        cluster_id run = some out) ∧
    (∃ e run, Seq.dbscan Seq.growMoves 91 sampleSplit = some (e, run)) ∧
    (sampleSplit.length ≤ 46341 →
      ∃ run, SeqV2.dbscan 91 sampleSplit = some (SeqV2.Ending.finished, run) ∧
        (entered run.expansions).Nodup ∧
        (∀ p ∈ entered run.expansions, 0 < clusterId run.data p) ∧
        ∀ x ∈ run.expansions, x.start = SeqV2.regionQuery x.seed sampleSplit ∧
          FrontierRun x.start x.visits x.final ∧
          (∀ v ∈ x.visits, (v.old = UNCLASSIFIED ∨ v.old = NOISE) ∧
            (v.after = v.before ∨
              (MIN_POINTS ≤ (SeqV2.regionQuery v.point sampleSplit).length ∧
                v.after = v.before ++ SeqV2.regionQuery v.point sampleSplit)) ∧
            v.after.length ≤ x.final.length) ∧
          x.final.length ≤ x.start.length + SeqV2.totalNeighbors sampleSplit ∧
          x.final.length ≤ SeqV2.INT_MAX) :=
  expansion_terminates_frontier_bounded Seq.growMoves sampleSplit 91 (by decide)

/-- The frontier of `src/src/dbscan_seq.c` does grow past the number of points: on the nine points
of `sampleSplit` both expansions end with thirteen entries, within the bound `3 + 28` and
`4 + 28`. -/
theorem sampleSplit_frontier_lengths :
    (SeqV2.dbscan 91 sampleSplit).map
        (fun r => (r.1, r.2.expansions.map (fun x => (x.seed, x.start.length, x.final.length)))) =
      some (SeqV2.Ending.finished, [(0, 3, 13), (1, 4, 13)]) ∧
    SeqV2.totalNeighbors sampleSplit = 28 := by
  decide!

end DBSCAN

namespace DBSCAN

namespace Par

/-- The function `dbscan` is phase 2 followed by phase 3. -/
theorem dbscan_eq_phases (fuel : Nat) (data : Dataset) :
    dbscan fuel data =
      (phase2 fuel (phase1 data) (coreFlags (phase1 data)) (List.range data.length)
        (uf_init data.length)).bind
        (phase3 fuel data (phase1 data) (coreFlags (phase1 data))) := by
  unfold dbscan phase3
  dsimp only
  cases phase2 fuel (phase1 data) (coreFlags (phase1 data)) (List.range data.length)
    (uf_init data.length) <;> rfl

/-- Two indices that are each other's parent: `uf_find` returns from neither, whatever the
fuel. -/
theorem uf_find_cycle (parent : UnionFind) (a b : Nat) (hab : parent[a]? = some b)
    (hba : parent[b]? = some a) (hne : a ≠ b) (fuel : Nat) :
    uf_find fuel parent a = none ∧ uf_find fuel parent b = none := by
  induction fuel with
  | zero => exact ⟨rfl, rfl⟩
  | succ fuel ih =>
    constructor
    · simp only [uf_find, hab, hne.symm, if_false, ih.2]
    · simp only [uf_find, hba, hne, if_false, ih.1]

/-- An index whose parent link leads to an index from which `uf_find` does not return. -/
theorem uf_find_into_cycle (parent : UnionFind) (i a : Nat) (hia : parent[i]? = some a)
    (hne : a ≠ i) (h : ∀ fuel, uf_find fuel parent a = none) (fuel : Nat) :
    uf_find fuel parent i = none := by
  cases fuel with
  | zero => rfl
  | succ fuel => simp only [uf_find, hia, hne, if_false, h fuel]

/-- On `raceForest` the call `uf_find(uf, i)` returns for no core point `i` of `sampleSquare`. -/
theorem uf_find_raceForest (fuel i : Nat) (hi : i < 4) : uf_find fuel raceForest i = none := by
  have h23 := uf_find_cycle raceForest 2 3 (by decide) (by decide) (by decide)
  have h2 : ∀ fuel, uf_find fuel raceForest 2 = none := fun f => (h23 f).1
  have h3 : ∀ fuel, uf_find fuel raceForest 3 = none := fun f => (h23 f).2
  have h0 := uf_find_into_cycle raceForest 0 3 (by decide) (by decide) h3
  have h1 := uf_find_into_cycle raceForest 1 2 (by decide) (by decide) h2
  have : i = 0 ∨ i = 1 ∨ i = 2 ∨ i = 3 := by omega
  rcases this with rfl | rfl | rfl | rfl
  · exact h0 fuel
  · exact h1 fuel
  · exact h2 fuel
  · exact h3 fuel

/-- The run of `raceSchedule` by four threads on `sampleSquare`, from the state in which phase 2
starts: every step of the schedule is one the thread can make (a thread never passes a lock that
is held), and the forest it leaves is `raceForest`. -/
theorem raceSchedule_forest :
    (runThreads 8 (phase1 sampleSquare) (coreFlags (phase1 sampleSquare)) raceSchedule
      (startThreads 4 8)).map (fun s => s.parent) = some raceForest := by
  decide!

/-- The state of the run just before its last two steps: thread 0 holds the locks 0 and 1,
thread 2 holds the locks 2 and 3, and each of them stands before its write, thread 0 with
`current_root_i = 3`, `current_root_j = 2` and thread 2 with `current_root_i = 2`,
`current_root_j = 3`. -/
theorem raceSchedule_before_writes :
    (runThreads 8 (phase1 sampleSquare) (coreFlags (phase1 sampleSquare)) (raceSchedule.take 34)
      (startThreads 4 8)).map (fun s => (s.parent, s.locks, s.threads.map (fun t => t.pc))) =
      some ([3, 2, 2, 3, 4, 5, 6, 7], [true, true, true, true, false, false, false, false],
        [some (Pc.attach 0 1 3 2), none, some (Pc.attach 2 3 2 3), none]) := by
  decide!

/-- One thread that runs the loop of phase 2 alone on `sampleSquare` (45 steps) leaves the forest
that the index-order loop `phase2` leaves. -/
theorem one_thread_forest :
    (runThreads 8 (phase1 sampleSquare) (coreFlags (phase1 sampleSquare)) (List.replicate 45 0)
      (startThreads 1 8)).map (fun s => (s.parent, s.next)) = some ([0, 0, 0, 0, 4, 5, 6, 7], 8) ∧
    phase2 8 (phase1 sampleSquare) (coreFlags (phase1 sampleSquare)) (List.range 8) (uf_init 8) =
      some [0, 0, 0, 0, 4, 5, 6, 7] := by
  decide!

/-- C19 (`src/src/dbscan_par.c`, schedule of phase 2): on `sampleSquare` the run with the loops
in index order labels all eight points 1, while the schedule `raceSchedule` of four threads leaves
a forest in which indices 2 and 3 are each other's parent, from which phase 3 never returns:
its first `uf_find` follows the parent links for ever. -/
theorem phase2_schedule_changes_outcome :
    (dbscan 73 sampleSquare).map labelsOf = some [1, 1, 1, 1, 1, 1, 1, 1] ∧
    (runThreads 8 (phase1 sampleSquare) (coreFlags (phase1 sampleSquare)) raceSchedule
      (startThreads 4 8)).map (fun s => s.parent) = some raceForest ∧
    ∀ fuel, phase3 fuel sampleSquare (phase1 sampleSquare) (coreFlags (phase1 sampleSquare))
      raceForest = none := by
  refine ⟨by decide!, raceSchedule_forest, ?_⟩
  intro fuel
  have h0 := uf_find_raceForest fuel 0 (by decide)
  have hl : List.range sampleSquare.length = 0 :: [1, 2, 3, 4, 5, 6, 7] := by decide
  have hc : (coreFlags (phase1 sampleSquare)).getD 0 false = true := by decide!
  unfold phase3
  simp only [hl, buildClusterMap, hc, if_true, h0]

/-- C10 (`src/src/dbscan_par.c`, border points): point 4 of `sampleSquare` is not a core point
and its only neighbour, point 0, is one; its label is to be `cluster_map[uf_find(uf, 0)]`.  With
the loops in index order it gets the id 1; after the schedule `raceSchedule` the call
`uf_find(uf, 0)` never returns, so the point gets no label. -/
theorem border_point_gets_no_label :
    (phase1 sampleSquare).getD 4 [] = [0] ∧
    (coreFlags (phase1 sampleSquare)).getD 4 false = false ∧
    (coreFlags (phase1 sampleSquare)).getD 0 false = true ∧
    (dbscan 73 sampleSquare).map (fun out => clusterId out 4) = some 1 ∧
    (runThreads 8 (phase1 sampleSquare) (coreFlags (phase1 sampleSquare)) raceSchedule
      (startThreads 4 8)).map (fun s => s.parent) = some raceForest ∧
    ∀ fuel, uf_find fuel raceForest 0 = none :=
  ⟨by decide!, by decide!, by decide!, by decide!, raceSchedule_forest,
    fun fuel => uf_find_raceForest fuel 0 (by decide)⟩

/-- C11 (`src/src/dbscan_par.c`, cluster numbering): the four core points of `sampleSquare` form
one component, and with the loops in index order the core points all get the id 1; after the
schedule `raceSchedule` the loop that fills `cluster_map` never returns, whatever the map and the
counter it starts with, so no id is assigned at all. -/
theorem cluster_numbering_never_returns :
    (dbscan 73 sampleSquare).map (fun out => (List.range 4).map (clusterId out)) =
      some [1, 1, 1, 1] ∧
    (runThreads 8 (phase1 sampleSquare) (coreFlags (phase1 sampleSquare)) raceSchedule
      (startThreads 4 8)).map (fun s => s.parent) = some raceForest ∧
    ∀ fuel cluster_map cluster_id_counter,
      buildClusterMap fuel (coreFlags (phase1 sampleSquare)) (List.range 8) raceForest
        cluster_map cluster_id_counter = none := by
  refine ⟨by decide!, raceSchedule_forest, ?_⟩
  intro fuel cluster_map cluster_id_counter
  have h0 := uf_find_raceForest fuel 0 (by decide)
  have hl : List.range 8 = 0 :: [1, 2, 3, 4, 5, 6, 7] := by decide
  have hc : (coreFlags (phase1 sampleSquare)).getD 0 false = true := by decide!
  simp only [hl, buildClusterMap, hc, if_true, h0]

end Par

end DBSCAN

